import Mathlib

/-!
Verification development for the django-cms placeholder plugin-position
engine (`cms/models/placeholdermodel.py`) and its cache-expiration
aggregation.  The persisted plugin table is modelled as a `List Node`;
each public mutation of the engine is translated into a pure function on
that list, following the source line by line (Django queryset `update`
calls become `List.map` with the same filter condition, the two raw-SQL
renumbering strategies become the two `recalculate` functions below).
-/

namespace CmsPlaceholder

/-- Row of the persisted plugin table: surrogate id, owning placeholder id,
language code (coded as a natural number), optional parent plugin id and the
1-based `position` column.  `position` is an `Int` because the engine's
shift steps transiently move rows to negative positions. -/
structure Node where
  id : Nat
  placeholder : Nat
  language : Nat
  parent : Option Nat
  position : Int
deriving DecidableEq

/-- Membership of a row in the (placeholder, language) scope, as the SQL
`placeholder_id=%s AND language=%s` filter. -/
def inScope (ph lang : Nat) (n : Node) : Bool :=
  n.placeholder == ph && n.language == lang

/-- Rows of one (placeholder, language) scope, in table order. -/
def scope (db : List Node) (ph lang : Nat) : List Node :=
  db.filter (inScope ph lang)

/-- Stored positions of one scope, in table order. -/
def posList (db : List Node) (ph lang : Nat) : List Int :=
  (scope db ph lang).map Node.position

/-- Contiguous run of `n` integers starting at `a`. -/
def rangeFrom (a : Int) : Nat → List Int
  | 0 => []
  | n + 1 => a :: rangeFrom (a + 1) n

/-- Maximum of a list of positions, `none` on the empty scope; models the
`get_last_plugin_position` / `get_last_plugin(...).position` queries (the
plugin table is ordered by `position`, so `.last()` is the maximum). -/
def maxPos : List Int → Option Int
  | [] => none
  | p :: ps =>
    match maxPos ps with
    | none => some p
    | some m => some (max p m)

/-- The `get_last_plugin_position(language) or 0` idiom in `add_plugin`. -/
def lastPos0 (db : List Node) (ph lang : Nat) : Int :=
  match maxPos (posList db ph lang) with
  | none => 0
  | some m => m

/-- New position computed by both renumbering SQL statements:
`COUNT(*) + 1` over the rows of the same scope whose position is strictly
smaller. -/
def rankIn (ps : List Int) (p : Int) : Int :=
  1 + (ps.countP (fun q => decide (q < p)) : Int)

/-- Insertion into a sorted list of positions (proof tool, not source code). -/
def insertPos (p : Int) : List Int → List Int
  | [] => [p]
  | q :: t => if p ≤ q then p :: q :: t else q :: insertPos p t

/-- Insertion sort of positions (proof tool, not source code). -/
def sortPos : List Int → List Int
  | [] => []
  | p :: t => insertPos p (sortPos t)

/-- Conditional rewrite of the `position` column of every row, the shape of a
Django queryset `update(position=...)`: rows are kept in table order and all
other columns are untouched. -/
def mapPos (g : Node → Int) (db : List Node) : List Node :=
  db.map (fun n => { n with position := g n })

/-- Source `_shift_plugin_positions(language, start, offset)` with the offset
given explicitly (every in-repo caller passes one): `position += offset` for
each row of the scope with `position >= start`. -/
def shift_plugin_positions (db : List Node) (ph lang : Nat) (start offset : Int) : List Node :=
  mapPos (fun n =>
    if inScope ph lang n && decide (start ≤ n.position)
    then n.position + offset else n.position) db

/-- Direct renumbering strategy: the non-sqlite branch of
`_recalculate_plugin_positions`, a single UPDATE whose correlated subquery
counts the rows of the same scope (in the pre-update table snapshot) with a
strictly smaller position. -/
def recalculate_direct (db : List Node) (ph lang : Nat) : List Node :=
  mapPos (fun n =>
    if inScope ph lang n then rankIn (posList db ph lang) n.position
    else n.position) db

/-- Temporary table `temp` built by the sqlite branch of
`_recalculate_plugin_positions`: pairs (row id, new position). -/
def tempRanks (db : List Node) (ph lang : Nat) : List (Nat × Int) :=
  (scope db ph lang).map (fun n => (n.id, rankIn (posList db ph lang) n.position))

/-- Staged renumbering strategy: the sqlite branch of
`_recalculate_plugin_positions`, updating each scope row from the temporary
table by row id. -/
def recalculate_staged (db : List Node) (ph lang : Nat) : List Node :=
  mapPos (fun n =>
    if inScope ph lang n then
      (match (tempRanks db ph lang).lookup n.id with
       | some r => r
       | none => n.position)
    else n.position) db

/-- Backing-store capability flag (`connection.vendor == 'sqlite'`). -/
inductive Vendor where
  | sqlite
  | other
deriving DecidableEq

/-- Source `_recalculate_plugin_positions`, dispatching on the backing store. -/
def recalculate_plugin_positions (v : Vendor) (db : List Node) (ph lang : Nat) : List Node :=
  match v with
  | .sqlite => recalculate_staged db ph lang
  | .other => recalculate_direct db ph lang

/-- Parent links of the table: the only data the descendant queries read. -/
def links (db : List Node) : List (Nat × Option Nat) :=
  db.map (fun n => (n.id, n.parent))

/-- One saturation step of the descendant closure: append every id whose
parent is already collected and which is not itself collected. -/
def descStep (ls : List (Nat × Option Nat)) (s : List Nat) : List Nat :=
  s ++ (ls.filter (fun e => !s.contains e.1 &&
          (match e.2 with | some p => s.contains p | none => false))).map Prod.fst

/-- Saturation iteration for the descendant closure. -/
def descIter (ls : List (Nat × Option Nat)) : Nat → List Nat → List Nat
  | 0, s => s
  | fuel + 1, s => descIter ls fuel (descStep ls s)

/-- Modelled from the spec: `CMSPlugin.get_descendants` and
`CMSPlugin._get_descendants_count` live on the `CMSPlugin` model, which is not
under src/.  Spec §4.1: "descendant_count(node) → count of all transitive
descendants", "descendants(node) → the full descendant subtree, any order".
Computed as the saturated transitive closure of the parent links, with the
root itself excluded. -/
def descIds (db : List Node) (root : Nat) : List Nat :=
  (descIter (links db) db.length [root]).filter (fun i => i != root)

/-- Source `add_plugin`: `ph` is `self.pk`, `inst` the fully formed row being
persisted (`instance.save()` appends it to the table). -/
def add_plugin (v : Vendor) (db : List Node) (ph : Nat) (inst : Node) : List Node :=
  let last := lastPos0 db ph inst.language
  let needsShift := decide (inst.position - last < 1)
  let db1 := if needsShift
    then shift_plugin_positions db ph inst.language inst.position last
    else db
  let db2 := db1 ++ [inst]
  if needsShift then recalculate_plugin_positions v db2 ph inst.language else db2

/-- Source `delete_plugin`: delete the descendants and the row, then — if the
scope is still inhabited — shift the tail by the last position and renumber.
The Python reads `get_last_plugin(...)`, whose `position` is the maximum of
the scope. -/
def delete_plugin (v : Vendor) (db : List Node) (ph : Nat) (inst : Node) : List Node :=
  let dIds := descIds db inst.id
  let db1 := db.filter (fun n => !(n.id == inst.id || dIds.contains n.id))
  match maxPos (posList db1 ph inst.language) with
  | none => db1
  | some last =>
    recalculate_plugin_positions v
      (shift_plugin_positions db1 ph inst.language inst.position last) ph inst.language

/-- Source `move_plugin`, within-placeholder branch (`target_placeholder` not
given).  `last` is `get_last_plugin(...).position` (the scope is inhabited by
`plugin` itself whenever the Python code runs without raising).  The two
queryset updates of each direction are translated literally; Django's
`position__range=(a, b)` is the inclusive `a ≤ position ≤ b`. -/
def move_plugin_within (v : Vendor) (db : List Node) (ph : Nat) (plugin : Node)
    (target_position : Int) (target_plugin : Option Nat) : List Node :=
  let lang := plugin.language
  let last := lastPos0 db ph lang
  let d : Int := (descIds db plugin.id).length
  let srcLo := plugin.position
  let srcHi := plugin.position + d
  let db1 :=
    if decide (target_position < plugin.position) then
      let a := mapPos (fun n =>
        if inScope ph lang n && decide (target_position ≤ n.position)
            && !(decide (srcLo ≤ n.position) && decide (n.position ≤ srcHi))
        then n.position + last else n.position) db
      mapPos (fun n =>
        if inScope ph lang n && decide (n.position ≤ srcHi)
        then n.position - last else n.position) a
    else
      let a := mapPos (fun n =>
        if inScope ph lang n && decide (n.position ≤ target_position + d)
            && !(decide (srcLo ≤ n.position) && decide (n.position ≤ srcHi))
        then n.position - last else n.position) db
      mapPos (fun n =>
        if inScope ph lang n && decide (srcLo ≤ n.position)
        then n.position + last else n.position) a
  let db2 :=
    if plugin.parent == target_plugin then db1
    else db1.map (fun n => if n.id == plugin.id then { n with parent := target_plugin } else n)
  recalculate_plugin_positions v db2 ph lang

/-- Source `_move_plugin_to_placeholder`.  The offset derivation follows the
Python line by line; `plugin.update(parent=..., placeholder=...)` and the
descendant placeholder update are the two final row rewrites, and the
descendants are read (as in the source) after the plugin row was updated. -/
def move_plugin_to_placeholder (v : Vendor) (db : List Node) (ph : Nat) (plugin : Node)
    (target_position : Int) (target_ph : Nat) (target_plugin : Option Nat) : List Node :=
  let lang := plugin.language
  let sourceLast := lastPos0 db ph lang
  let d : Int := (descIds db plugin.id).length
  let stage :=
    match maxPos (posList db target_ph lang) with
    | some targetLast =>
      let sourceOffset := sourceLast
      let targetOffset := targetLast
      let sProjLast := plugin.position + d + sourceOffset
      let tProjFirst := target_position + targetOffset
      let tLastPos := targetLast + 1 + d
      let sourceOffset2 :=
        if decide (sProjLast ≤ tLastPos) then sourceOffset + (tLastPos - sProjLast) + 1
        else sourceOffset
      let sProjLast2 :=
        if decide (sProjLast ≤ tLastPos) then sProjLast + (tLastPos - sProjLast) + 1
        else sProjLast
      let targetOffset2 :=
        if decide (tProjFirst ≤ sProjLast2) then targetOffset + (sProjLast2 - tProjFirst) + 1
        else targetOffset
      (sourceOffset2, shift_plugin_positions db target_ph lang target_position targetOffset2)
    | none => (sourceLast, db)
  let db2 := shift_plugin_positions stage.2 ph lang plugin.position stage.1
  let db3 := db2.map (fun n =>
    if n.id == plugin.id then { n with parent := target_plugin, placeholder := target_ph }
    else n)
  let dIds := descIds db3 plugin.id
  let db4 := db3.map (fun n =>
    if n.id != plugin.id && dIds.contains n.id then { n with placeholder := target_ph } else n)
  recalculate_plugin_positions v
    (recalculate_plugin_positions v db4 ph lang) target_ph lang

/-- Source `move_plugin`: dispatch on whether a target placeholder was given. -/
def move_plugin (v : Vendor) (db : List Node) (ph : Nat) (plugin : Node)
    (target_position : Int) (target_placeholder : Option Nat)
    (target_plugin : Option Nat) : List Node :=
  match target_placeholder with
  | some tph => move_plugin_to_placeholder v db ph plugin target_position tph target_plugin
  | none => move_plugin_within v db ph plugin target_position target_plugin

/-- Modelled from the spec: the request validation performed before the engine
is invoked lives in the admin/form layer, which is not under src/.  Spec §7:
an invalid scope reference is "moving to a target under a parent that does not
belong to the target placeholder, or a language mismatch between node and
target scope". -/
def valid_move_request (db : List Node) (plugin : Node) (target_ph : Nat)
    (target_plugin : Option Nat) (target_lang : Nat) : Bool :=
  (plugin.language == target_lang) &&
  (match target_plugin with
   | some pid => db.any (fun n => n.id == pid && inScope target_ph target_lang n)
   | none => true)

/-- Modelled from the spec: §7 — an invalid scope reference is "rejected
before any shift is issued — fails fast, no partial mutation".  On rejection
the error carries the untouched table. -/
def move_plugin_checked (v : Vendor) (db : List Node) (ph : Nat) (plugin : Node)
    (target_position : Int) (target_ph : Nat) (target_lang : Nat)
    (target_plugin : Option Nat) : Except (List Node) (List Node) :=
  if valid_move_request db plugin target_ph target_plugin target_lang then
    .ok (move_plugin v db ph plugin target_position (some target_ph) target_plugin)
  else
    .error db

/-- Modelled from the spec: `EXPIRE_NOW` lives in `cms/constants.py`, not
under src/; the docstring of `get_cache_expiration` fixes the contract
`EXPIRE_NOW <= int <= MAX_EXPIRATION_IN_SECONDS` and the code returns it for
"expire immediately", so it is the zero TTL. -/
def EXPIRE_NOW : Int := 0

/-- Modelled from the spec: `MAX_EXPIRATION_TTL` lives in `cms/constants.py`,
not under src/ (365 days in seconds upstream); only `EXPIRE_NOW ≤
MAX_EXPIRATION_TTL` and its concrete value at witnesses matter here. -/
def MAX_EXPIRATION_TTL : Int := 365 * 24 * 3600

/-- Value returned by one plugin's `get_cache_expiration` hook, as classified
by the source: `None`, a naive datetime (difference raises `TypeError`), a
timezone-aware datetime (already differenced against `response_timestamp`,
whole seconds), a timedelta (whole seconds), an int-like value, or a value
whose `int()` raises `ValueError`. -/
inductive CacheContribution where
  | null
  | naiveDatetime
  | awareDatetime (deltaSeconds : Int)
  | timedelta (seconds : Int)
  | intLike (value : Int)
  | notIntish
deriving DecidableEq

/-- TTL a contribution feeds into the `min` fold, `none` when the source
skips the plugin (`None`, naive datetime, or `ValueError` on `int()`). -/
def contributedTTL : CacheContribution → Option Int
  | .null => none
  | .naiveDatetime => none
  | .awareDatetime s => some s
  | .timedelta s => some s
  | .intLike v => some v
  | .notIntish => none

/-- Loop body of `get_cache_expiration`: fold `min_ttl` over the plugin
contributions, returning `EXPIRE_NOW` as soon as the running minimum drops to
zero or below. -/
def cacheExpirationLoop : List CacheContribution → Int → Int
  | [], minTtl => minTtl
  | c :: rest, minTtl =>
    match contributedTTL c with
    | none => cacheExpirationLoop rest minTtl
    | some ttl =>
      let m := min ttl minTtl
      if decide (m ≤ 0) then EXPIRE_NOW else cacheExpirationLoop rest m

/-- Source `Placeholder.get_cache_expiration`, with the placeholder's plugin
iteration abstracted to the list of classified hook results, request/response
plumbing dropped, and the `cache_placeholder` attribute and `PLUGIN_CACHE`
setting as the two booleans. -/
def get_cache_expiration (cachePlaceholder pluginCacheSetting : Bool)
    (contribs : List CacheContribution) : Int :=
  if !cachePlaceholder || !pluginCacheSetting then EXPIRE_NOW
  else cacheExpirationLoop contribs MAX_EXPIRATION_TTL

/-- Usable TTLs of a contribution list, in order. -/
def usableTTLs (cs : List CacheContribution) : List Int :=
  cs.filterMap contributedTTL

/-- Minimum of a list of TTLs, `none` on the empty list (proof tool). -/
def minTTL : List Int → Option Int
  | [] => none
  | p :: ps =>
    match minTTL ps with
    | none => some p
    | some m => some (min p m)

/-- Density invariant of spec §8 for one (placeholder, language) scope: the
stored positions are a permutation of 1..N. -/
def Dense (db : List Node) (ph lang : Nat) : Prop :=
  (posList db ph lang).Perm (rangeFrom 1 (posList db ph lang).length)

/-- Contiguity invariant of spec §8 at one node: the descendant set of `x` is
exactly the set of scope rows whose position lies in
`(x.position, x.position + descendant_count]`. -/
def ContigAt (db : List Node) (ph lang : Nat) (x : Node) : Prop :=
  ∀ n ∈ db, (n.id ∈ descIds db x.id ↔
    (inScope ph lang n = true ∧ x.position < n.position ∧
      n.position ≤ x.position + ((descIds db x.id).length : Int)))

/-- Primary-key uniqueness of the plugin table (spec §3: "Identity: surrogate
id"; §6: column `id`). -/
def UniqueIds (db : List Node) : Prop := (db.map Node.id).Nodup

instance (db : List Node) (ph lang : Nat) : Decidable (Dense db ph lang) := by
  unfold Dense
  exact inferInstance

instance (db : List Node) (ph lang : Nat) (x : Node) : Decidable (ContigAt db ph lang x) := by
  unfold ContigAt
  exact inferInstance

instance (db : List Node) : Decidable (UniqueIds db) := by
  unfold UniqueIds
  exact inferInstance

/-- Position function of the first queryset update of a leftwards
within-placeholder move (proof tool): rows from the target up, outside the
moved block, are inflated by the offset. -/
def shiftL1 (p dI T L q : Int) : Int :=
  if T ≤ q ∧ ¬(p ≤ q ∧ q ≤ p + dI) then q + L else q

/-- Position function of the second queryset update of a leftwards move
(proof tool): rows still at or below the block top are deflated. -/
def shiftL2 (p dI L q : Int) : Int :=
  if q ≤ p + dI then q - L else q

/-- Position function of the first queryset update of a rightwards move
(proof tool). -/
def shiftR1 (p dI T L q : Int) : Int :=
  if q ≤ T + dI ∧ ¬(p ≤ q ∧ q ≤ p + dI) then q - L else q

/-- Position function of the second queryset update of a rightwards move
(proof tool). -/
def shiftR2 (p L q : Int) : Int :=
  if p ≤ q then q + L else q

/-- Composite of the two leftwards-move updates on a dense scope (proof
tool): the block and the rows left of the target drop by the offset,
everything else rises by it. -/
def moveSL (p dI T L q : Int) : Int :=
  if q < T ∨ (p ≤ q ∧ q ≤ p + dI) then q - L else q + L

/-- Composite of the two rightwards-move updates on a dense scope (proof
tool). -/
def moveSR (p dI T L q : Int) : Int :=
  if (p ≤ q ∧ q ≤ p + dI) ∨ T + dI < q then q + L else q - L

/-- Final-position map of a within-placeholder move (statement tool, derived
from the two staged shifts plus renumbering): the subtree block
`[p, p + dI]` lands on `[T, T + dI]`, the rows strictly between target and
block slide by `dI + 1` towards the vacated side, everything else keeps its
position. -/
def movePos (p dI T q : Int) : Int :=
  if p ≤ q ∧ q ≤ p + dI then q - p + T
  else if T ≤ q ∧ q < p then q + dI + 1
  else if p + dI < q ∧ q ≤ T + dI then q - dI - 1
  else q

/-- Claim C8 as stated: `_shift_plugin_positions` never changes the relative
position order of any two scope rows, for every integer offset. -/
def shiftPreservesOrderClaim : Prop :=
  ∀ (db : List Node) (ph lang : Nat) (start offset : Int) (i j : Nat)
    (hi : i < db.length) (hj : j < db.length)
    (hi' : i < (shift_plugin_positions db ph lang start offset).length)
    (hj' : j < (shift_plugin_positions db ph lang start offset).length),
    inScope ph lang db[i] = true → inScope ph lang db[j] = true →
    db[i].position < db[j].position →
    (shift_plugin_positions db ph lang start offset)[i].position
      < (shift_plugin_positions db ph lang start offset)[j].position

/-- Claim C2 as stated, instantiated at `add_plugin` (one of the completed
public operations the sentence quantifies over): for every node X of a scope
satisfying the invariants, after the operation the positions of X's full
descendant set still form the contiguous range immediately following X's
position. -/
def contigPreservedClaim : Prop :=
  ∀ (v : Vendor) (db : List Node) (ph : Nat) (inst x : Node),
    UniqueIds db → inst.id ∉ db.map Node.id → inst.placeholder = ph →
    Dense db ph inst.language →
    1 ≤ inst.position →
    inst.position ≤ ((posList db ph inst.language).length : Int) + 1 →
    x ∈ db → inScope ph inst.language x = true → ContigAt db ph inst.language x →
    ContigAt (add_plugin v db ph inst) ph inst.language x

/-- Claim C10 as stated: bounds, the three special cases, and — the part that
fails — "otherwise returns the minimum contributed TTL" (uncapped). -/
def cacheExpirationClaim : Prop :=
  ∀ (cp pc : Bool) (cs : List CacheContribution),
    (EXPIRE_NOW ≤ get_cache_expiration cp pc cs
        ∧ get_cache_expiration cp pc cs ≤ MAX_EXPIRATION_TTL)
    ∧ ((cp = false ∨ pc = false) → get_cache_expiration cp pc cs = EXPIRE_NOW)
    ∧ ((∃ t ∈ usableTTLs cs, t ≤ 0) → get_cache_expiration cp pc cs = EXPIRE_NOW)
    ∧ (cp = true → pc = true → usableTTLs cs = [] →
        get_cache_expiration cp pc cs = MAX_EXPIRATION_TTL)
    ∧ (cp = true → pc = true → (∀ t ∈ usableTTLs cs, 0 < t) →
        ∀ m, minTTL (usableTTLs cs) = some m →
        get_cache_expiration cp pc cs = m)

end CmsPlaceholder

namespace CmsPlaceholder

theorem rangeFrom_length (a : Int) (n : Nat) : (rangeFrom a n).length = n := by
  induction n generalizing a with
  | zero => rfl
  | succ k ih => simp [rangeFrom, ih]

theorem mem_rangeFrom {x a : Int} {n : Nat} :
    x ∈ rangeFrom a n ↔ a ≤ x ∧ x < a + n := by
  induction n generalizing a with
  | zero =>
    simp only [rangeFrom, List.not_mem_nil, false_iff, not_and, not_lt]
    omega
  | succ k ih =>
    simp only [rangeFrom, List.mem_cons, ih]
    omega

theorem rangeFrom_append (a : Int) (m k : Nat) :
    rangeFrom a m ++ rangeFrom (a + m) k = rangeFrom a (m + k) := by
  induction m generalizing a with
  | zero => simp [rangeFrom]
  | succ j ih =>
    have h1 : a + ((j + 1 : Nat) : Int) = (a + 1) + (j : Int) := by push_cast; omega
    have h2 : j + 1 + k = (j + k) + 1 := by omega
    simp only [rangeFrom, List.cons_append, h1, h2, ih (a + 1)]

theorem countP_rangeFrom_lt (a : Int) (n : Nat) (c : Int) :
    ((rangeFrom a n).countP (fun x => decide (x < c)) : Int)
      = min (max (c - a) 0) n := by
  induction n generalizing a with
  | zero =>
    simp only [rangeFrom, List.countP_nil, Nat.cast_zero, Nat.cast_ofNat]
    omega
  | succ k ih =>
    simp only [rangeFrom, List.countP_cons]
    have ih' := ih (a + 1)
    by_cases h : a < c <;>
      · simp only [h, decide_eq_true_eq, if_true, if_false, decide_eq_false_iff_not,
          not_false_iff, Nat.cast_add, Nat.cast_ofNat, Nat.cast_one, Nat.cast_zero]
        push_cast
        omega

theorem map_add_rangeFrom (a c : Int) (n : Nat) :
    (rangeFrom a n).map (fun x => x + c) = rangeFrom (a + c) n := by
  induction n generalizing a with
  | zero => rfl
  | succ k ih =>
    simp only [rangeFrom, List.map_cons, ih (a + 1)]
    have h : a + 1 + c = a + c + 1 := by omega
    rw [h]

theorem maxPos_eq_none {l : List Int} : maxPos l = none ↔ l = [] := by
  cases l with
  | nil => simp [maxPos]
  | cons p ps =>
    simp only [maxPos]
    cases maxPos ps <;> simp

theorem maxPos_spec {l : List Int} : ∀ {m : Int},
    maxPos l = some m ↔ m ∈ l ∧ ∀ x ∈ l, x ≤ m := by
  induction l with
  | nil => intro m; simp [maxPos]
  | cons p ps ih =>
    intro m
    cases hm : maxPos ps with
    | none =>
      have hnil : ps = [] := maxPos_eq_none.1 hm
      subst hnil
      have hred : maxPos [p] = some p := rfl
      rw [hred]
      constructor
      · rintro ⟨rfl⟩
        refine ⟨List.mem_singleton_self _, ?_⟩
        intro x hx
        rcases List.mem_singleton.1 hx with rfl
        exact le_refl _
      · rintro ⟨hmem, _⟩
        rcases List.mem_singleton.1 hmem with rfl
        rfl
    | some m0 =>
      have hred : maxPos (p :: ps) = some (max p m0) := by
        simp [maxPos, hm]
      rw [hred]
      have hps := ih.1 hm
      constructor
      · rintro ⟨rfl⟩
        refine ⟨?_, ?_⟩
        · rcases max_choice p m0 with h | h <;> rw [h]
          · exact List.mem_cons_self _ _
          · exact List.mem_cons_of_mem _ hps.1
        · intro x hx
          rcases List.mem_cons.1 hx with rfl | hx
          · exact le_max_left _ _
          · exact le_trans (hps.2 x hx) (le_max_right _ _)
      · rintro ⟨hmem, hub⟩
        have h1 : m0 ≤ m := hub m0 (List.mem_cons_of_mem _ hps.1)
        have h2 : p ≤ m := hub p (List.mem_cons_self _ _)
        have h3 : m ≤ max p m0 := by
          rcases List.mem_cons.1 hmem with rfl | hx
          · exact le_max_left _ _
          · exact le_trans (hps.2 m hx) (le_max_right _ _)
        have h4 : max p m0 = m := le_antisymm (max_le h2 h1) h3
        rw [h4]

theorem insertPos_perm (p : Int) (l : List Int) : (insertPos p l).Perm (p :: l) := by
  induction l with
  | nil => exact List.Perm.refl _
  | cons q t ih =>
    simp only [insertPos]
    by_cases h : p ≤ q
    · rw [if_pos h]
    · rw [if_neg h]
      exact List.Perm.trans (List.Perm.cons q ih) (List.Perm.swap p q t)

theorem sortPos_perm (l : List Int) : (sortPos l).Perm l := by
  induction l with
  | nil => exact List.Perm.refl _
  | cons p t ih =>
    exact List.Perm.trans (insertPos_perm p (sortPos t)) (List.Perm.cons p ih)

theorem insertPos_sorted {l : List Int} (p : Int) (h : l.Sorted (· ≤ ·)) :
    (insertPos p l).Sorted (· ≤ ·) := by
  induction l with
  | nil => simp [insertPos]
  | cons q t ih =>
    simp only [insertPos]
    by_cases hc : p ≤ q
    · rw [if_pos hc]
      refine List.sorted_cons.2 ⟨?_, h⟩
      intro b hb
      rcases List.mem_cons.1 hb with rfl | hb
      · exact hc
      · exact le_trans hc ((List.sorted_cons.1 h).1 b hb)
    · rw [if_neg hc]
      have ht := (List.sorted_cons.1 h).2
      refine List.sorted_cons.2 ⟨?_, ih ht⟩
      intro b hb
      have hmem := (insertPos_perm p t).mem_iff.1 hb
      rcases List.mem_cons.1 hmem with rfl | hb2
      · omega
      · exact (List.sorted_cons.1 h).1 b hb2

theorem sortPos_sorted (l : List Int) : (sortPos l).Sorted (· ≤ ·) := by
  induction l with
  | nil => simp [sortPos]
  | cons p t ih => exact insertPos_sorted p ih

theorem sorted_lt_of_le_nodup {l : List Int} (hs : l.Sorted (· ≤ ·)) (hn : l.Nodup) :
    l.Sorted (· < ·) :=
  (hs.and hn).imp (fun h => lt_of_le_of_ne h.1 h.2)

theorem rankIn_perm {l1 l2 : List Int} (h : l1.Perm l2) (p : Int) :
    rankIn l1 p = rankIn l2 p := by
  simp [rankIn, h.countP_eq]

theorem ranks_of_sorted {l : List Int} (h : l.Sorted (· < ·)) :
    l.map (rankIn l) = rangeFrom 1 l.length := by
  induction l with
  | nil => rfl
  | cons a t ih =>
    have hhead : ∀ b ∈ t, a < b := (List.sorted_cons.1 h).1
    have htail : t.Sorted (· < ·) := (List.sorted_cons.1 h).2
    have h1 : rankIn (a :: t) a = 1 := by
      simp only [rankIn, List.countP_cons]
      have : t.countP (fun q => decide (q < a)) = 0 := by
        rw [List.countP_eq_zero]
        intro b hb
        simp only [decide_eq_true_eq]
        have := hhead b hb
        omega
      simp [this]
    have h2 : ∀ p ∈ t, rankIn (a :: t) p = rankIn t p + 1 := by
      intro p hp
      simp only [rankIn, List.countP_cons]
      have : decide (a < p) = true := by simp [hhead p hp]
      simp [this]
      push_cast
      omega
    have h3 : t.map (rankIn (a :: t)) = t.map (fun p => rankIn t p + 1) :=
      List.map_congr_left h2
    have h4 : t.map (fun p => rankIn t p + 1) = (t.map (rankIn t)).map (fun x => x + 1) := by
      rw [List.map_map]
      rfl
    simp only [List.map_cons, h1, h3, h4, ih htail, map_add_rangeFrom]
    simp [rangeFrom, List.length_cons]

theorem ranks_perm {ps : List Int} (h : ps.Nodup) :
    (ps.map (rankIn ps)).Perm (rangeFrom 1 ps.length) := by
  have hp : (sortPos ps).Perm ps := sortPos_perm ps
  have hn : (sortPos ps).Nodup := hp.nodup_iff.2 h
  have hs : (sortPos ps).Sorted (· < ·) := sorted_lt_of_le_nodup (sortPos_sorted ps) hn
  have e1 : (ps.map (rankIn ps)).Perm ((sortPos ps).map (rankIn ps)) :=
    (hp.map (rankIn ps)).symm
  have e2 : (sortPos ps).map (rankIn ps) = (sortPos ps).map (rankIn (sortPos ps)) :=
    List.map_congr_left (fun p _ => rankIn_perm hp.symm p)
  have e3 := ranks_of_sorted hs
  rw [e2, e3, hp.length_eq] at e1
  exact e1

theorem countP_lt_of_mem {ps : List Int} {p p' : Int} (hp : p ∈ ps) (h : p < p') :
    ps.countP (fun q => decide (q < p)) < ps.countP (fun q => decide (q < p')) := by
  induction ps with
  | nil => cases hp
  | cons a t ih =>
    simp only [List.countP_cons]
    rcases List.mem_cons.1 hp with rfl | hmem
    · have h1 : t.countP (fun q => decide (q < p)) ≤ t.countP (fun q => decide (q < p')) := by
        refine List.countP_mono_left ?_
        intro x _ hxp
        simp only [decide_eq_true_eq] at hxp ⊢
        omega
      have d1 : decide (p < p) = false := by simp
      have d2 : decide (p < p') = true := by simp [h]
      rw [d1, d2]
      simp only [Bool.false_eq_true, if_false, if_true]
      omega
    · have ih' := ih hmem
      by_cases hc : a < p <;> by_cases hc' : a < p' <;> simp [hc, hc'] <;> omega

theorem rankIn_lt_rankIn {ps : List Int} {p p' : Int} (hp : p ∈ ps) (h : p < p') :
    rankIn ps p < rankIn ps p' := by
  simp only [rankIn]
  have := countP_lt_of_mem hp h
  omega

theorem rangeFrom_nodup (a : Int) (n : Nat) : (rangeFrom a n).Nodup := by
  induction n generalizing a with
  | zero => simp [rangeFrom]
  | succ k ih =>
    refine List.nodup_cons.2 ⟨?_, ih (a + 1)⟩
    intro hmem
    have := mem_rangeFrom.1 hmem
    omega

theorem length_mapPos (g : Node → Int) (db : List Node) :
    (mapPos g db).length = db.length := by
  simp [mapPos]

theorem getElem_mapPos (g : Node → Int) (db : List Node) (i : Nat) (h : i < db.length)
    (h2 : i < (mapPos g db).length) :
    (mapPos g db)[i] = { db[i] with position := g db[i] } := by
  simp [mapPos]

theorem mem_mapPos (g : Node → Int) {db : List Node} {n : Node} (h : n ∈ db) :
    { n with position := g n } ∈ mapPos g db :=
  List.mem_map.2 ⟨n, h, rfl⟩

theorem mapPos_congr {g g' : Node → Int} {db : List Node}
    (h : ∀ n ∈ db, g n = g' n) : mapPos g db = mapPos g' db :=
  List.map_congr_left (fun n hn => by rw [h n hn])

theorem inScope_set_position (ph lang : Nat) (n : Node) (p : Int) :
    inScope ph lang { n with position := p } = inScope ph lang n := rfl

theorem scope_mapPos (g : Node → Int) (db : List Node) (ph lang : Nat) :
    scope (mapPos g db) ph lang = (scope db ph lang).map (fun n => { n with position := g n }) := by
  unfold scope mapPos
  induction db with
  | nil => rfl
  | cons a t ih =>
    simp only [List.map_cons, List.filter_cons]
    rw [inScope_set_position]
    by_cases h : inScope ph lang a
    · simp [h, ih]
    · simp [h, ih]

theorem posList_mapPos (g : Node → Int) (db : List Node) (ph lang : Nat) :
    posList (mapPos g db) ph lang = (scope db ph lang).map g := by
  unfold posList
  rw [scope_mapPos]
  rw [List.map_map]
  rfl

theorem mem_scope_inScope {db : List Node} {ph lang : Nat} {n : Node}
    (h : n ∈ scope db ph lang) : inScope ph lang n = true :=
  List.of_mem_filter h

theorem mem_scope_mem {db : List Node} {ph lang : Nat} {n : Node}
    (h : n ∈ scope db ph lang) : n ∈ db :=
  List.mem_of_mem_filter h

theorem mem_scope_of_mem {db : List Node} {ph lang : Nat} {n : Node}
    (h : n ∈ db) (hs : inScope ph lang n = true) : n ∈ scope db ph lang :=
  List.mem_filter.2 ⟨h, hs⟩

theorem posList_mapPos_of_posFun (g : Node → Int) (gp : Int → Int) (db : List Node)
    (ph lang : Nat) (h : ∀ n ∈ db, inScope ph lang n = true → g n = gp n.position) :
    posList (mapPos g db) ph lang = (posList db ph lang).map gp := by
  rw [posList_mapPos]
  unfold posList
  rw [List.map_map]
  refine List.map_congr_left ?_
  intro n hn
  exact h n (mem_scope_mem hn) (mem_scope_inScope hn)

theorem posList_mapPos_other (g : Node → Int) (db : List Node) (ph lang : Nat)
    (h : ∀ n ∈ db, inScope ph lang n = true → g n = n.position) :
    posList (mapPos g db) ph lang = posList db ph lang := by
  rw [posList_mapPos_of_posFun g id db ph lang h]
  simp

theorem posList_shift (db : List Node) (ph lang : Nat) (start off : Int) :
    posList (shift_plugin_positions db ph lang start off) ph lang
      = (posList db ph lang).map (fun q => if start ≤ q then q + off else q) := by
  unfold shift_plugin_positions
  refine posList_mapPos_of_posFun _ _ db ph lang ?_
  intro n hn hs
  simp only [hs, Bool.true_and]
  by_cases h : start ≤ n.position <;> simp [h]

theorem posList_shift_other (db : List Node) (ph lang ph' lang' : Nat) (start off : Int)
    (hne : (ph' ≠ ph) ∨ (lang' ≠ lang)) :
    posList (shift_plugin_positions db ph lang start off) ph' lang'
      = posList db ph' lang' := by
  unfold shift_plugin_positions
  refine posList_mapPos_other _ db ph' lang' ?_
  intro n hn hs
  simp only [inScope, Bool.and_eq_true, beq_iff_eq] at hs
  have hf : inScope ph lang n = false := by
    rcases hne with h | h
    · have hx : n.placeholder ≠ ph := by omega
      simp [inScope, hx]
    · have hx : n.language ≠ lang := by omega
      simp [inScope, hx]
  simp [hf]

theorem posList_recalculate_direct (db : List Node) (ph lang : Nat) :
    posList (recalculate_direct db ph lang) ph lang
      = (posList db ph lang).map (rankIn (posList db ph lang)) := by
  unfold recalculate_direct
  refine posList_mapPos_of_posFun _ _ db ph lang ?_
  intro n hn hs
  simp [hs]

theorem posList_recalculate_direct_other (db : List Node) (ph lang ph' lang' : Nat)
    (hne : (ph' ≠ ph) ∨ (lang' ≠ lang)) :
    posList (recalculate_direct db ph lang) ph' lang' = posList db ph' lang' := by
  unfold recalculate_direct
  refine posList_mapPos_other _ db ph' lang' ?_
  intro n hn hs
  simp only [inScope, Bool.and_eq_true, beq_iff_eq] at hs
  have hf : inScope ph lang n = false := by
    rcases hne with h | h
    · have hx : n.placeholder ≠ ph := by omega
      simp [inScope, hx]
    · have hx : n.language ≠ lang := by omega
      simp [inScope, hx]
  simp [hf]

theorem scope_ids_nodup {db : List Node} (h : UniqueIds db) (ph lang : Nat) :
    ((scope db ph lang).map Node.id).Nodup :=
  List.Nodup.sublist (List.Sublist.map Node.id (List.filter_sublist db)) h

theorem lookup_map_pair {s : List Node} {f : Node → Int} {n : Node}
    (hids : (s.map Node.id).Nodup) (hn : n ∈ s) :
    (s.map (fun m => (m.id, f m))).lookup n.id = some (f n) := by
  induction s with
  | nil => cases hn
  | cons a t ih =>
    simp only [List.map_cons, List.lookup]
    rcases List.mem_cons.1 hn with rfl | hn2
    · simp
    · have hne : (n.id == a.id) = false := by
        simp only [List.map_cons, List.nodup_cons] at hids
        have hmem : n.id ∈ t.map Node.id := List.mem_map.2 ⟨n, hn2, rfl⟩
        by_contra hc
        have : (n.id == a.id) = true := by
          cases hb : (n.id == a.id)
          · exact absurd hb hc
          · rfl
        have he : n.id = a.id := by simpa using this
        rw [he] at hmem
        exact hids.1 hmem
      rw [hne]
      simp only [Bool.false_eq_true, if_false]
      have hids2 : (t.map Node.id).Nodup := by
        simp only [List.map_cons, List.nodup_cons] at hids
        exact hids.2
      exact ih hids2 hn2

theorem lookup_tempRanks {db : List Node} {ph lang : Nat} {n : Node}
    (hids : ((scope db ph lang).map Node.id).Nodup)
    (hn : n ∈ scope db ph lang) :
    (tempRanks db ph lang).lookup n.id = some (rankIn (posList db ph lang) n.position) :=
  lookup_map_pair hids hn

theorem dense_nodup {db : List Node} {ph lang : Nat} (h : Dense db ph lang) :
    (posList db ph lang).Nodup :=
  h.nodup_iff.2 (rangeFrom_nodup 1 _)

theorem dense_mem_bounds {db : List Node} {ph lang : Nat} (h : Dense db ph lang) {q : Int}
    (hq : q ∈ posList db ph lang) :
    1 ≤ q ∧ q ≤ ((posList db ph lang).length : Int) := by
  have h1 := h.mem_iff.1 hq
  have h2 := mem_rangeFrom.1 h1
  omega

theorem dense_maxPos {db : List Node} {ph lang : Nat} (h : Dense db ph lang)
    (hne : posList db ph lang ≠ []) :
    maxPos (posList db ph lang) = some ((posList db ph lang).length : Int) := by
  have hlen : 1 ≤ (posList db ph lang).length := by
    cases hl : posList db ph lang with
    | nil => exact absurd hl hne
    | cons a t => simp
  refine maxPos_spec.2 ⟨?_, ?_⟩
  · refine h.mem_iff.2 (mem_rangeFrom.2 ⟨?_, ?_⟩)
    · exact_mod_cast hlen
    · omega
  · intro x hx
    exact (dense_mem_bounds h hx).2

theorem dense_lastPos0 {db : List Node} {ph lang : Nat} (h : Dense db ph lang) :
    lastPos0 db ph lang = ((posList db ph lang).length : Int) := by
  unfold lastPos0
  by_cases hne : posList db ph lang = []
  · rw [hne]
    simp [maxPos, hne]
  · rw [dense_maxPos h hne]

theorem recalculate_staged_eq_direct {db : List Node} (ph lang : Nat) (h : UniqueIds db) :
    recalculate_staged db ph lang = recalculate_direct db ph lang := by
  unfold recalculate_staged recalculate_direct
  refine mapPos_congr ?_
  intro n hn
  by_cases hs : inScope ph lang n
  · simp only [hs, if_true]
    rw [lookup_tempRanks (scope_ids_nodup h ph lang) (mem_scope_of_mem hn hs)]
  · simp [hs]

theorem recalculate_eq_direct (v : Vendor) {db : List Node} (ph lang : Nat)
    (h : UniqueIds db) :
    recalculate_plugin_positions v db ph lang = recalculate_direct db ph lang := by
  cases v
  · exact recalculate_staged_eq_direct ph lang h
  · rfl

theorem dense_recalculate_direct {db : List Node} {ph lang : Nat}
    (h : (posList db ph lang).Nodup) : Dense (recalculate_direct db ph lang) ph lang := by
  unfold Dense
  rw [posList_recalculate_direct]
  rw [List.length_map]
  exact ranks_perm h

theorem foldl_min_le_init (l : List Int) : ∀ acc : Int, l.foldl min acc ≤ acc := by
  induction l with
  | nil => intro acc; simp
  | cons x t ih =>
    intro acc
    simp only [List.foldl_cons]
    exact le_trans (ih (min acc x)) (by omega)

theorem foldl_min_le_mem {l : List Int} {x : Int} (hx : x ∈ l) (acc : Int) :
    l.foldl min acc ≤ x := by
  induction l generalizing acc with
  | nil => cases hx
  | cons y t ih =>
    simp only [List.foldl_cons]
    rcases List.mem_cons.1 hx with rfl | hmem
    · exact le_trans (foldl_min_le_init t (min acc x)) (by omega)
    · exact ih hmem (min acc y)

theorem minTTL_eq_none {l : List Int} : minTTL l = none ↔ l = [] := by
  cases l with
  | nil => simp [minTTL]
  | cons p ps =>
    simp only [minTTL]
    cases minTTL ps <;> simp

theorem foldl_min_minTTL {l : List Int} {m : Int} (h : minTTL l = some m) (acc : Int) :
    l.foldl min acc = min acc m := by
  induction l generalizing acc m with
  | nil => cases h
  | cons x t ih =>
    simp only [minTTL] at h
    simp only [List.foldl_cons]
    cases ht : minTTL t with
    | none =>
      have : t = [] := minTTL_eq_none.1 ht
      subst this
      rw [ht] at h
      simp only [Option.some.injEq] at h
      subst h
      simp [List.foldl_nil]
    | some mt =>
      rw [ht] at h
      simp only [Option.some.injEq] at h
      subst h
      rw [ih ht (min acc x)]
      omega

theorem cacheExpirationLoop_eq (cs : List CacheContribution) (acc : Int) (h : 0 < acc) :
    cacheExpirationLoop cs acc =
      (if (usableTTLs cs).foldl min acc ≤ 0 then EXPIRE_NOW
       else (usableTTLs cs).foldl min acc) := by
  induction cs generalizing acc with
  | nil =>
    simp only [cacheExpirationLoop, usableTTLs, List.filterMap_nil, List.foldl_nil]
    rw [if_neg (by omega)]
  | cons c rest ih =>
    simp only [cacheExpirationLoop]
    cases hc : contributedTTL c with
    | none =>
      have hus : usableTTLs (c :: rest) = usableTTLs rest := by
        simp [usableTTLs, List.filterMap_cons, hc]
      rw [hus]
      exact ih acc h
    | some ttl =>
      have hus : usableTTLs (c :: rest) = ttl :: usableTTLs rest := by
        simp [usableTTLs, List.filterMap_cons, hc]
      rw [hus]
      simp only [List.foldl_cons]
      by_cases hm : min ttl acc ≤ 0
      · rw [if_pos (by simpa using hm)]
        have hle : (usableTTLs rest).foldl min (min acc ttl) ≤ min acc ttl :=
          foldl_min_le_init _ _
        rw [if_pos (by omega)]
      · rw [if_neg (by simpa using hm)]
        have hpos : 0 < min ttl acc := by omega
        rw [ih (min ttl acc) hpos]
        have hcomm : min ttl acc = min acc ttl := by omega
        rw [hcomm]

theorem length_shift (db : List Node) (ph lang : Nat) (start off : Int) :
    (shift_plugin_positions db ph lang start off).length = db.length := by
  simp [shift_plugin_positions, mapPos]

theorem length_recalculate_direct (db : List Node) (ph lang : Nat) :
    (recalculate_direct db ph lang).length = db.length := by
  simp [recalculate_direct, mapPos]

theorem length_recalculate (v : Vendor) (db : List Node) (ph lang : Nat) :
    (recalculate_plugin_positions v db ph lang).length = db.length := by
  cases v <;> simp [recalculate_plugin_positions, recalculate_staged, recalculate_direct, mapPos]

/-- C3: for every (placeholder, language) scope, the staged (sqlite temp-table)
and direct (correlated-subquery) renumbering strategies agree on every table
state whose row ids are unique (the table's primary-key constraint), and under
either strategy every scope row is assigned `1 + #{scope rows with strictly
smaller current position}` while rows outside the scope are untouched. -/
theorem renumber_strategies_agree (db : List Node) (ph lang : Nat) (h : UniqueIds db) :
    recalculate_staged db ph lang = recalculate_direct db ph lang
    ∧ ∀ (v : Vendor) (i : Nat) (hi : i < db.length)
        (hi2 : i < (recalculate_plugin_positions v db ph lang).length),
        ((recalculate_plugin_positions v db ph lang)[i]).position
          = (if inScope ph lang db[i] = true
             then 1 + ((posList db ph lang).countP
                  (fun q => decide (q < db[i].position)) : Int)
             else db[i].position) := by
  refine ⟨recalculate_staged_eq_direct ph lang h, ?_⟩
  intro v i hi hi2
  have hv := @recalculate_eq_direct v db ph lang h
  have hid : i < (recalculate_direct db ph lang).length := by
    rw [length_recalculate_direct]; exact hi
  have hgoal : ((recalculate_direct db ph lang)[i]).position
      = (if inScope ph lang db[i] = true
         then 1 + ((posList db ph lang).countP
              (fun q => decide (q < db[i].position)) : Int)
         else db[i].position) := by
    unfold recalculate_direct
    rw [getElem_mapPos _ _ _ hi (by rw [length_mapPos]; exact hi)]
    by_cases hs : inScope ph lang db[i] = true <;> simp [hs, rankIn]
  rw [← hgoal]
  exact congrArg Node.position
    (List.getElem_of_eq hv (by rw [length_recalculate]; exact hi))

/-- C3 witness: a concrete two-row scope with positions [5, 2]; both
strategies renumber it to [2, 1]. -/
theorem renumber_strategies_agree_witness :
    recalculate_staged [⟨1, 0, 0, none, 5⟩, ⟨2, 0, 0, none, 2⟩] 0 0
      = recalculate_direct [⟨1, 0, 0, none, 5⟩, ⟨2, 0, 0, none, 2⟩] 0 0
    ∧ (((recalculate_plugin_positions .sqlite
        [⟨1, 0, 0, none, 5⟩, ⟨2, 0, 0, none, 2⟩] 0 0).get ⟨0, by decide⟩).position = 2) := by
  have h := renumber_strategies_agree [⟨1, 0, 0, none, 5⟩, ⟨2, 0, 0, none, 2⟩] 0 0 (by decide)
  refine ⟨h.1, ?_⟩
  exact (h.2 .sqlite 0 (by decide) (by decide)).trans (by decide)

/-- C8 counterexample: with a negative offset, `_shift_plugin_positions` can
drop a shifted row below an unshifted one — on the two-row scope at positions
[1, 2], shifting from start 2 by offset -5 sends the second row to -3, below
the first; the relative order of the two rows flips. -/
theorem shift_reorders_on_negative_offset : ¬ shiftPreservesOrderClaim := by
  intro h
  have h2 := h [⟨1, 0, 0, none, 1⟩, ⟨2, 0, 0, none, 2⟩] 0 0 2 (-5) 0 1
    (by decide) (by decide) (by decide) (by decide) (by decide) (by decide) (by decide)
  revert h2
  decide

/-- C8 amended: `_shift_plugin_positions` adds the offset to exactly the scope
rows with `position ≥ start` and leaves every other row unchanged, for every
integer offset; and it preserves the relative position order of any two scope
rows whenever the offset is nonnegative (as in every use the engine makes of
it).  A negative offset can reorder rows, as the counterexample shows. -/
theorem getElem_shift (db : List Node) (ph lang : Nat) (start off : Int) (i : Nat)
    (hi : i < db.length)
    (hi2 : i < (shift_plugin_positions db ph lang start off).length) :
    (shift_plugin_positions db ph lang start off)[i]
      = { db[i] with position :=
          (if (inScope ph lang db[i] = true ∧ start ≤ db[i].position)
           then db[i].position + off else db[i].position) } := by
  unfold shift_plugin_positions
  rw [getElem_mapPos _ _ _ hi (by rw [length_mapPos]; exact hi)]
  by_cases h1 : inScope ph lang db[i] = true <;>
    by_cases h2 : start ≤ db[i].position <;> simp [h1, h2]

theorem shift_pointwise_formula_and_order (db : List Node) (ph lang : Nat) (start off : Int) :
    (∀ (i : Nat) (hi : i < db.length)
        (hi2 : i < (shift_plugin_positions db ph lang start off).length),
      (shift_plugin_positions db ph lang start off)[i]
        = { db[i] with position :=
            (if (inScope ph lang db[i] = true ∧ start ≤ db[i].position)
             then db[i].position + off else db[i].position) })
    ∧ (0 ≤ off →
      ∀ (i j : Nat) (hi : i < db.length) (hj : j < db.length)
        (hi2 : i < (shift_plugin_positions db ph lang start off).length)
        (hj2 : j < (shift_plugin_positions db ph lang start off).length),
        inScope ph lang db[i] = true → inScope ph lang db[j] = true →
        db[i].position < db[j].position →
        ((shift_plugin_positions db ph lang start off)[i]).position
          < ((shift_plugin_positions db ph lang start off)[j]).position) := by
  have hpt := getElem_shift db ph lang start off
  refine ⟨hpt, ?_⟩
  intro hoff i j hi hj hi2 hj2 hsi hsj hlt
  rw [hpt i hi hi2, hpt j hj hj2]
  simp only [hsi, hsj, true_and]
  by_cases h2 : start ≤ db[i].position <;> by_cases h3 : start ≤ db[j].position <;>
    simp [h2, h3] <;> omega

/-- C8 amended witness: on the scope [1, 2, 3], shifting from start 2 by +7
rewrites row 1 to position 9 and keeps row 0 below row 2. -/
theorem shift_pointwise_formula_and_order_witness :
    (((shift_plugin_positions [⟨1, 0, 0, none, 1⟩, ⟨2, 0, 0, none, 2⟩, ⟨3, 0, 0, none, 3⟩]
        0 0 2 7).get ⟨1, by decide⟩).position = 9)
    ∧ ((shift_plugin_positions [⟨1, 0, 0, none, 1⟩, ⟨2, 0, 0, none, 2⟩, ⟨3, 0, 0, none, 3⟩]
        0 0 2 7).get ⟨0, by decide⟩).position
      < ((shift_plugin_positions [⟨1, 0, 0, none, 1⟩, ⟨2, 0, 0, none, 2⟩, ⟨3, 0, 0, none, 3⟩]
        0 0 2 7).get ⟨2, by decide⟩).position := by
  have h := shift_pointwise_formula_and_order
    [⟨1, 0, 0, none, 1⟩, ⟨2, 0, 0, none, 2⟩, ⟨3, 0, 0, none, 3⟩] 0 0 2 7
  constructor
  · exact (congrArg Node.position (h.1 1 (by decide) (by decide))).trans (by decide)
  · exact h.2 (by decide) 0 2 (by decide) (by decide) (by decide) (by decide) (by decide)
      (by decide) (by decide)

/-- C9: a move request whose target parent does not belong to the target
placeholder's scope, or whose node language mismatches the target scope's
language, is rejected by the validation layer before any shift is issued; the
error carries the table unchanged (no partial mutation). -/
theorem invalid_move_rejected (v : Vendor) (db : List Node) (ph : Nat) (plugin : Node)
    (target_position : Int) (target_ph target_lang : Nat) (target_plugin : Option Nat)
    (h : plugin.language ≠ target_lang ∨
      ∃ pid, target_plugin = some pid ∧
        ∀ n ∈ db, ¬ (n.id = pid ∧ inScope target_ph target_lang n = true)) :
    move_plugin_checked v db ph plugin target_position target_ph target_lang target_plugin
      = Except.error db := by
  unfold move_plugin_checked
  have hv : valid_move_request db plugin target_ph target_plugin target_lang = false := by
    unfold valid_move_request
    rcases h with h | ⟨pid, rfl, hall⟩
    · have hb : (plugin.language == target_lang) = false := by
        simp [h]
      rw [hb, Bool.false_and]
    · have hb : db.any (fun n => n.id == pid && inScope target_ph target_lang n) = false := by
        rw [List.any_eq_false]
        intro n hn
        have hnot := hall n hn
        simp only [Bool.and_eq_true, beq_iff_eq, not_and]
        intro h1 h2
        exact hnot ⟨h1, h2⟩
      show (plugin.language == target_lang
        && db.any (fun n => n.id == pid && inScope target_ph target_lang n)) = false
      rw [hb, Bool.and_false]
  simp [hv]

/-- C9 witness: a language-mismatching request (plugin language 0, target
scope language 1) is rejected with the one-row table unchanged. -/
theorem invalid_move_rejected_witness :
    move_plugin_checked .other [⟨1, 0, 0, none, 1⟩] 0 ⟨1, 0, 0, none, 1⟩ 1 5 1 none
      = Except.error [⟨1, 0, 0, none, 1⟩] :=
  invalid_move_rejected .other [⟨1, 0, 0, none, 1⟩] 0 ⟨1, 0, 0, none, 1⟩ 1 5 1 none
    (Or.inl (by decide))

/-- C10 counterexample: with caching enabled and the single contribution
`MAX_EXPIRATION_TTL + 5` (usable and positive), the source returns
`MAX_EXPIRATION_TTL`, not the minimum contributed TTL — the claim's
"otherwise returns the minimum contributed TTL" fails. -/
theorem cache_expiration_uncapped_min_false : ¬ cacheExpirationClaim := by
  intro h
  have h5 := (h true true [CacheContribution.intLike (MAX_EXPIRATION_TTL + 5)]).2.2.2.2
  have h6 := h5 rfl rfl (by decide) (MAX_EXPIRATION_TTL + 5) (by decide)
  revert h6
  decide

/-- C10 amended: `get_cache_expiration` always returns a TTL between
`EXPIRE_NOW` and `MAX_EXPIRATION_TTL`; it returns `EXPIRE_NOW` when caching is
disabled or some usable contribution is ≤ 0, `MAX_EXPIRATION_TTL` when no
contribution is usable, and otherwise the minimum contributed TTL capped at
`MAX_EXPIRATION_TTL` (clamped to `EXPIRE_NOW` from below). -/
theorem cache_expiration_spec (cp pc : Bool) (cs : List CacheContribution) :
    (EXPIRE_NOW ≤ get_cache_expiration cp pc cs
      ∧ get_cache_expiration cp pc cs ≤ MAX_EXPIRATION_TTL)
    ∧ ((cp = false ∨ pc = false) → get_cache_expiration cp pc cs = EXPIRE_NOW)
    ∧ ((∃ t ∈ usableTTLs cs, t ≤ 0) → get_cache_expiration cp pc cs = EXPIRE_NOW)
    ∧ (cp = true → pc = true → usableTTLs cs = [] →
        get_cache_expiration cp pc cs = MAX_EXPIRATION_TTL)
    ∧ (cp = true → pc = true → ∀ m, minTTL (usableTTLs cs) = some m →
        get_cache_expiration cp pc cs = max EXPIRE_NOW (min MAX_EXPIRATION_TTL m)) := by
  have hE : EXPIRE_NOW = 0 := rfl
  have hM : MAX_EXPIRATION_TTL = 31536000 := by decide
  have henabled : get_cache_expiration true true cs =
      (if (usableTTLs cs).foldl min MAX_EXPIRATION_TTL ≤ 0 then EXPIRE_NOW
       else (usableTTLs cs).foldl min MAX_EXPIRATION_TTL) := by
    unfold get_cache_expiration
    simp only [Bool.not_true, Bool.or_self, Bool.false_eq_true, if_false]
    exact cacheExpirationLoop_eq cs MAX_EXPIRATION_TTL (by rw [hM]; omega)
  have hdis : (cp = false ∨ pc = false) →
      get_cache_expiration cp pc cs = EXPIRE_NOW := by
    intro hor
    unfold get_cache_expiration
    rcases hor with rfl | rfl
    · simp
    · simp
  refine ⟨?_, hdis, ?_, ?_, ?_⟩
  · cases cp with
    | false =>
      rw [hdis (Or.inl rfl)]
      exact ⟨le_refl _, by rw [hE, hM]; omega⟩
    | true => cases pc with
      | false =>
        rw [hdis (Or.inr rfl)]
        exact ⟨le_refl _, by rw [hE, hM]; omega⟩
      | true =>
        rw [henabled]
        have hle := foldl_min_le_init (usableTTLs cs) MAX_EXPIRATION_TTL
        by_cases hz : (usableTTLs cs).foldl min MAX_EXPIRATION_TTL ≤ 0
        · rw [if_pos hz]
          exact ⟨le_refl _, by rw [hE, hM]; omega⟩
        · rw [if_neg hz]
          constructor
          · rw [hE]; omega
          · exact hle
  · rintro ⟨t, ht, ht0⟩
    cases cp with
    | false => exact hdis (Or.inl rfl)
    | true => cases pc with
      | false => exact hdis (Or.inr rfl)
      | true =>
        rw [henabled]
        have hle := foldl_min_le_mem ht MAX_EXPIRATION_TTL
        rw [if_pos (by omega)]
  · rintro rfl rfl hus
    rw [henabled, hus]
    simp only [List.foldl_nil]
    rw [if_neg (by rw [hM]; omega)]
  · rintro rfl rfl m hm
    rw [henabled]
    rw [foldl_min_minTTL hm]
    by_cases hz : min MAX_EXPIRATION_TTL m ≤ 0
    · rw [if_pos hz]
      rw [hE] at *
      omega
    · rw [if_neg hz]
      rw [hE] at *
      omega

theorem posList_append (a b : List Node) (ph lang : Nat) :
    posList (a ++ b) ph lang = posList a ph lang ++ posList b ph lang := by
  simp [posList, scope, List.filter_append]

theorem ids_mapPos (g : Node → Int) (db : List Node) :
    (mapPos g db).map Node.id = db.map Node.id := by
  simp [mapPos, List.map_map]

theorem pos_mem_posList {db : List Node} {ph lang : Nat} {n : Node}
    (h : n ∈ db) (hs : inScope ph lang n = true) :
    n.position ∈ posList db ph lang :=
  List.mem_map.2 ⟨n, mem_scope_of_mem h hs, rfl⟩

theorem getElem_recalculate_direct (db : List Node) (ph lang : Nat) (i : Nat)
    (hi : i < db.length)
    (hi2 : i < (recalculate_direct db ph lang).length) :
    (recalculate_direct db ph lang)[i]
      = { db[i] with position :=
          (if inScope ph lang db[i] = true
           then rankIn (posList db ph lang) db[i].position else db[i].position) } := by
  unfold recalculate_direct
  rw [getElem_mapPos _ _ _ hi (by rw [length_mapPos]; exact hi)]

theorem countP_gShift_append (ps : List Int) (K c : Int)
    (hperm : ps.Perm (rangeFrom 1 ps.length))
    (hK1 : 1 ≤ K) (hK2 : K ≤ (ps.length : Int)) :
    (((ps.map (fun q => if K ≤ q then q + (ps.length : Int) else q)) ++ [K]).countP
        (fun q => decide (q < c)) : Int)
      = min (max (c - 1) 0) (K - 1)
        + min (max (c - (ps.length : Int) - K) 0) ((ps.length : Int) - K + 1)
        + (if K < c then 1 else 0) := by
  set N : Int := (ps.length : Int) with hN
  set k1 := (K - 1).toNat with hk1
  set k2 := (N - K + 1).toNat with hk2
  have hsplit : rangeFrom 1 ps.length = rangeFrom 1 k1 ++ rangeFrom (1 + (k1 : Int)) k2 := by
    rw [rangeFrom_append]
    congr 1
    omega
  have hmap := (hperm.map (fun q => if K ≤ q then q + N else q)).countP_eq
    (fun q => decide (q < c))
  rw [List.countP_append, hmap]
  rw [hsplit, List.map_append, List.countP_append]
  have hseg1 : ((rangeFrom 1 k1).map (fun q => if K ≤ q then q + N else q)).countP
      (fun q => decide (q < c)) = (rangeFrom 1 k1).countP (fun q => decide (q < c)) := by
    rw [List.countP_map]
    refine List.countP_congr (fun x hx => ?_)
    have hb := mem_rangeFrom.1 hx
    have hxK : ¬ K ≤ x := by omega
    simp [hxK]
  have hseg2 : ((rangeFrom (1 + (k1 : Int)) k2).map (fun q => if K ≤ q then q + N else q)).countP
      (fun q => decide (q < c))
      = (rangeFrom (1 + (k1 : Int)) k2).countP (fun q => decide (q < c - N)) := by
    rw [List.countP_map]
    refine List.countP_congr (fun x hx => ?_)
    have hb := mem_rangeFrom.1 hx
    have hxK : K ≤ x := by omega
    simp only [Function.comp_apply, if_pos hxK, decide_eq_true_eq]
    omega
  have hsing : ∀ hc : Decidable (K < c), (([K].countP (fun q => decide (q < c)) : Nat) : Int)
      = if K < c then 1 else 0 := by
    intro hc
    by_cases h : K < c <;> simp [h]
  rw [hseg1, hseg2]
  push_cast
  rw [show (((rangeFrom 1 k1).countP fun q => decide (q < c)) : Int)
      = min (max (c - 1) 0) k1 from countP_rangeFrom_lt 1 k1 c]
  rw [show (((rangeFrom (1 + (k1 : Int)) k2).countP fun q => decide (q < c - N)) : Int)
      = min (max ((c - N) - (1 + (k1 : Int))) 0) k2 from countP_rangeFrom_lt _ k2 (c - N)]
  by_cases hc : K < c
  · rw [if_pos hc]
    have h1 : (List.countP (fun q => decide (q < c)) [K] : Int) = 1 := by simp [hc]
    rw [h1]
    omega
  · rw [if_neg hc]
    have h1 : (List.countP (fun q => decide (q < c)) [K] : Int) = 0 := by simp [hc]
    rw [h1]
    omega

theorem add_plugin_shift_case (v : Vendor) (db : List Node) (ph : Nat) (inst : Node)
    (h : inst.position - lastPos0 db ph inst.language < 1) :
    add_plugin v db ph inst
      = recalculate_plugin_positions v
          ((shift_plugin_positions db ph inst.language inst.position
              (lastPos0 db ph inst.language)) ++ [inst]) ph inst.language := by
  unfold add_plugin
  simp [h]

theorem add_plugin_append_case (v : Vendor) (db : List Node) (ph : Nat) (inst : Node)
    (h : ¬ (inst.position - lastPos0 db ph inst.language < 1)) :
    add_plugin v db ph inst = db ++ [inst] := by
  unfold add_plugin
  simp [h]

theorem length_add_plugin (v : Vendor) (db : List Node) (ph : Nat) (inst : Node) :
    (add_plugin v db ph inst).length = db.length + 1 := by
  by_cases h : inst.position - lastPos0 db ph inst.language < 1
  · rw [add_plugin_shift_case v db ph inst h, length_recalculate]
    simp [length_shift]
  · rw [add_plugin_append_case v db ph inst h]
    simp

theorem uniqueIds_shift_append {db : List Node} {inst : Node} (ph lang : Nat)
    (start off : Int) (hids : UniqueIds db) (hfresh : inst.id ∉ db.map Node.id) :
    UniqueIds (shift_plugin_positions db ph lang start off ++ [inst]) := by
  unfold UniqueIds
  rw [List.map_append]
  unfold shift_plugin_positions
  rw [ids_mapPos]
  refine List.nodup_append.2 ⟨hids, List.nodup_singleton _, ?_⟩
  intro x hx hx2
  rcases List.mem_singleton.1 hx2 with rfl
  exact hfresh hx

theorem getElem_append_singleton (a : List Node) (x : Node) (i : Nat) (hi : i = a.length)
    (hi2 : i < (a ++ [x]).length) :
    (a ++ [x])[i] = x := by
  subst hi
  simp

/-- C4: order preservation on add — on a scope at dense positions 1..N, adding
a fresh row with declared position K (1 ≤ K ≤ N+1) persists the new row at
final position K, leaves every other column of every row unchanged, keeps
rows outside the scope and scope rows at positions below K unmoved, and moves
each scope row at position ≥ K to its former position plus one (so relative
order is preserved and exactly K-1 rows end below the new one). -/
theorem add_plugin_order_preserving (v : Vendor) (db : List Node) (ph : Nat) (inst : Node)
    (hids : UniqueIds db) (hfresh : inst.id ∉ db.map Node.id)
    (hdense : Dense db ph inst.language) (hph : inst.placeholder = ph)
    (hK1 : 1 ≤ inst.position)
    (hK2 : inst.position ≤ ((posList db ph inst.language).length : Int) + 1)
    (hL : db.length < (add_plugin v db ph inst).length) :
    ((add_plugin v db ph inst).length = db.length + 1)
    ∧ ((add_plugin v db ph inst)[db.length]).id = inst.id
    ∧ ((add_plugin v db ph inst)[db.length]).position = inst.position
    ∧ ∀ (i : Nat) (hi : i < db.length) (hi2 : i < (add_plugin v db ph inst).length),
        ((add_plugin v db ph inst)[i]).id = db[i].id
        ∧ ((add_plugin v db ph inst)[i]).parent = db[i].parent
        ∧ ((add_plugin v db ph inst)[i]).placeholder = db[i].placeholder
        ∧ ((add_plugin v db ph inst)[i]).language = db[i].language
        ∧ ((add_plugin v db ph inst)[i]).position
            = (if (inScope ph inst.language db[i] = true ∧ inst.position ≤ db[i].position)
               then db[i].position + 1 else db[i].position) := by
  have hlen := length_add_plugin v db ph inst
  have hlast : lastPos0 db ph inst.language = ((posList db ph inst.language).length : Int) :=
    dense_lastPos0 hdense
  have hinstsc : inScope ph inst.language inst = true := by
    simp [inScope, hph]
  by_cases hsh : inst.position - lastPos0 db ph inst.language < 1
  · -- occupied territory: shift then renumber
    have hKN : inst.position ≤ ((posList db ph inst.language).length : Int) := by
      rw [hlast] at hsh; omega
    have heq := add_plugin_shift_case v db ph inst hsh
    have hids2 : UniqueIds (shift_plugin_positions db ph inst.language inst.position
        (lastPos0 db ph inst.language) ++ [inst]) :=
      uniqueIds_shift_append ph inst.language inst.position _ hids hfresh
    have heq2 : add_plugin v db ph inst
        = recalculate_direct (shift_plugin_positions db ph inst.language inst.position
            (lastPos0 db ph inst.language) ++ [inst]) ph inst.language := by
      rw [heq]; exact recalculate_eq_direct v ph inst.language hids2
    have hlen1 : (shift_plugin_positions db ph inst.language inst.position
        (lastPos0 db ph inst.language)).length = db.length := length_shift db ph _ _ _
    have hlen2 : (shift_plugin_positions db ph inst.language inst.position
        (lastPos0 db ph inst.language) ++ [inst]).length = db.length + 1 := by
      simp [hlen1]
    have hpl1 : posList (shift_plugin_positions db ph inst.language inst.position
        (lastPos0 db ph inst.language)) ph inst.language
        = (posList db ph inst.language).map
            (fun q => if inst.position ≤ q
              then q + ((posList db ph inst.language).length : Int) else q) := by
      rw [posList_shift, hlast]
    have hplinst : posList [inst] ph inst.language = [inst.position] := by
      simp [posList, scope, hinstsc]
    have hpl2 : posList (shift_plugin_positions db ph inst.language inst.position
          (lastPos0 db ph inst.language) ++ [inst]) ph inst.language
        = (posList db ph inst.language).map
            (fun q => if inst.position ≤ q
              then q + ((posList db ph inst.language).length : Int) else q)
          ++ [inst.position] := by
      rw [posList_append, hpl1, hplinst]
    have hrank : ∀ c, rankIn (posList (shift_plugin_positions db ph inst.language inst.position
          (lastPos0 db ph inst.language) ++ [inst]) ph inst.language) c
        = 1 + (min (max (c - 1) 0) (inst.position - 1)
            + min (max (c - ((posList db ph inst.language).length : Int) - inst.position) 0)
                (((posList db ph inst.language).length : Int) - inst.position + 1)
            + (if inst.position < c then 1 else 0)) := by
      intro c
      unfold rankIn
      rw [hpl2, countP_gShift_append (posList db ph inst.language) inst.position c
        hdense hK1 hKN]
    have hb2 : db.length < (shift_plugin_positions db ph inst.language inst.position
        (lastPos0 db ph inst.language) ++ [inst]).length := by omega
    have hdb2last : (shift_plugin_positions db ph inst.language inst.position
        (lastPos0 db ph inst.language) ++ [inst])[db.length] = inst :=
      getElem_append_singleton _ inst db.length hlen1.symm hb2
    have hdb2i : ∀ (i : Nat) (hi : i < db.length)
        (hi2 : i < (shift_plugin_positions db ph inst.language inst.position
          (lastPos0 db ph inst.language) ++ [inst]).length),
        (shift_plugin_positions db ph inst.language inst.position
          (lastPos0 db ph inst.language) ++ [inst])[i]
        = { db[i] with position :=
            (if (inScope ph inst.language db[i] = true ∧ inst.position ≤ db[i].position)
             then db[i].position + ((posList db ph inst.language).length : Int)
             else db[i].position) } := by
      intro i hi hi2
      rw [List.getElem_append_left (by omega : i < (shift_plugin_positions db ph
        inst.language inst.position (lastPos0 db ph inst.language)).length)]
      rw [getElem_shift db ph inst.language inst.position _ i hi
        (by rw [length_shift]; exact hi), hlast]
    refine ⟨hlen, ?_, ?_, ?_⟩
    · rw [List.getElem_of_eq heq2 (by rw [length_add_plugin]; omega),
        getElem_recalculate_direct _ ph inst.language db.length (by omega)
          (by rw [length_recalculate_direct]; omega), hdb2last]
    · rw [List.getElem_of_eq heq2 (by rw [length_add_plugin]; omega),
        getElem_recalculate_direct _ ph inst.language db.length (by omega)
          (by rw [length_recalculate_direct]; omega), hdb2last]
      simp only [hinstsc, if_true]
      show rankIn _ inst.position = inst.position
      rw [hrank inst.position]
      rw [if_neg (by omega : ¬ inst.position < inst.position)]
      omega
    · intro i hi hi2
      have hmain := List.getElem_of_eq heq2
        (show i < (add_plugin v db ph inst).length by rw [length_add_plugin]; omega)
      rw [hmain, getElem_recalculate_direct _ ph inst.language i (by omega)
        (by rw [length_recalculate_direct]; omega), hdb2i i hi (by omega)]
      by_cases hs : inScope ph inst.language db[i] = true
      · have hq : db[i].position ∈ posList db ph inst.language :=
          pos_mem_posList (List.getElem_mem hi) hs
        have hqb := dense_mem_bounds hdense hq
        by_cases hKq : inst.position ≤ db[i].position
        · refine ⟨rfl, rfl, rfl, rfl, ?_⟩
          simp only [inScope_set_position, hs, hKq, and_self, if_true, true_and]
          rw [hrank]
          rw [if_pos (by omega : inst.position
            < db[i].position + ((posList db ph inst.language).length : Int))]
          omega
        · refine ⟨rfl, rfl, rfl, rfl, ?_⟩
          simp only [inScope_set_position, hs, hKq, and_false, if_false, true_and]
          rw [hrank]
          rw [if_neg (by omega : ¬ inst.position < db[i].position)]
          omega
      · have hsf : inScope ph inst.language db[i] = false := by
          cases hb : inScope ph inst.language db[i]
          · rfl
          · exact absurd hb hs
        simp [hsf]
  · -- strict append past the end
    have heq := add_plugin_append_case v db ph inst hsh
    have hKN : inst.position = ((posList db ph inst.language).length : Int) + 1 := by
      rw [hlast] at hsh; omega
    refine ⟨hlen, ?_, ?_, ?_⟩
    · rw [List.getElem_of_eq heq (by rw [length_add_plugin]; omega),
        getElem_append_singleton db inst db.length rfl (by simp)]
    · rw [List.getElem_of_eq heq (by rw [length_add_plugin]; omega),
        getElem_append_singleton db inst db.length rfl (by simp)]
    · intro i hi hi2
      have hmain := List.getElem_of_eq heq
        (show i < (add_plugin v db ph inst).length by rw [length_add_plugin]; omega)
      rw [hmain, List.getElem_append_left hi]
      by_cases hs : inScope ph inst.language db[i] = true
      · have hq : db[i].position ∈ posList db ph inst.language :=
          pos_mem_posList (List.getElem_mem hi) hs
        have hqb := dense_mem_bounds hdense hq
        refine ⟨rfl, rfl, rfl, rfl, ?_⟩
        rw [if_neg (by omega : ¬ (inScope ph inst.language db[i] = true
          ∧ inst.position ≤ db[i].position))]
      · refine ⟨rfl, rfl, rfl, rfl, ?_⟩
        rw [if_neg (fun hc => hs hc.1)]

/-- C4 witness: the spec's concrete scenario — flat scope [1,2,3,4,5], add a
fresh row at declared position 3: the new row lands at 3, the former
position-3 row at 4, the former position-5 row at 6. -/
theorem add_plugin_order_preserving_witness :
    (((add_plugin .other
        [⟨1, 0, 0, none, 1⟩, ⟨2, 0, 0, none, 2⟩, ⟨3, 0, 0, none, 3⟩,
          ⟨4, 0, 0, none, 4⟩, ⟨5, 0, 0, none, 5⟩]
        0 ⟨9, 0, 0, none, 3⟩).get ⟨5, by decide⟩).position = 3)
    ∧ (((add_plugin .other
        [⟨1, 0, 0, none, 1⟩, ⟨2, 0, 0, none, 2⟩, ⟨3, 0, 0, none, 3⟩,
          ⟨4, 0, 0, none, 4⟩, ⟨5, 0, 0, none, 5⟩]
        0 ⟨9, 0, 0, none, 3⟩).get ⟨2, by decide⟩).position = 4)
    ∧ (((add_plugin .other
        [⟨1, 0, 0, none, 1⟩, ⟨2, 0, 0, none, 2⟩, ⟨3, 0, 0, none, 3⟩,
          ⟨4, 0, 0, none, 4⟩, ⟨5, 0, 0, none, 5⟩]
        0 ⟨9, 0, 0, none, 3⟩).get ⟨4, by decide⟩).position = 6) := by
  have h := add_plugin_order_preserving .other
    [⟨1, 0, 0, none, 1⟩, ⟨2, 0, 0, none, 2⟩, ⟨3, 0, 0, none, 3⟩,
      ⟨4, 0, 0, none, 4⟩, ⟨5, 0, 0, none, 5⟩]
    0 ⟨9, 0, 0, none, 3⟩ (by decide) (by decide) (by decide) (by decide)
    (by decide) (by decide) (by decide)
  refine ⟨h.2.2.1, ?_, ?_⟩
  · exact ((h.2.2.2 2 (by decide) (by decide)).2.2.2.2).trans (by decide)
  · exact ((h.2.2.2 4 (by decide) (by decide)).2.2.2.2).trans (by decide)

theorem contains_iff {l : List Nat} {a : Nat} : l.contains a = true ↔ a ∈ l := by
  simp [List.contains]

theorem descStep_nodup {ls : List (Nat × Option Nat)} {s : List Nat}
    (hls : (ls.map Prod.fst).Nodup) (hs : s.Nodup) : (descStep ls s).Nodup := by
  unfold descStep
  refine List.nodup_append.2 ⟨hs, ?_, ?_⟩
  · exact List.Nodup.sublist (List.Sublist.map Prod.fst (List.filter_sublist ls)) hls
  · intro i hi hi2
    rcases List.mem_map.1 hi2 with ⟨e, he, rfl⟩
    have hkeep := List.of_mem_filter he
    simp only [Bool.and_eq_true, Bool.not_eq_eq_eq_not, Bool.not_true] at hkeep
    have hcont : s.contains e.1 = true := contains_iff.2 hi
    rw [hkeep.1] at hcont
    cases hcont

theorem descStep_mem {ls : List (Nat × Option Nat)} {s : List Nat} {i : Nat}
    (hi : i ∈ descStep ls s) : i ∈ s ∨ i ∈ ls.map Prod.fst := by
  unfold descStep at hi
  rcases List.mem_append.1 hi with h | h
  · exact Or.inl h
  · rcases List.mem_map.1 h with ⟨e, he, rfl⟩
    exact Or.inr (List.mem_map.2 ⟨e, List.mem_of_mem_filter he, rfl⟩)

theorem descIter_nodup {ls : List (Nat × Option Nat)} (fuel : Nat) {s : List Nat}
    (hls : (ls.map Prod.fst).Nodup) (hs : s.Nodup) : (descIter ls fuel s).Nodup := by
  induction fuel generalizing s with
  | zero => exact hs
  | succ k ih => exact ih (descStep_nodup hls hs)

theorem descIter_mem {ls : List (Nat × Option Nat)} (fuel : Nat) {s : List Nat} {i : Nat}
    (hi : i ∈ descIter ls fuel s) : i ∈ s ∨ i ∈ ls.map Prod.fst := by
  induction fuel generalizing s with
  | zero => exact Or.inl hi
  | succ k ih =>
    rcases ih hi with h | h
    · rcases descStep_mem h with h2 | h2
      · exact Or.inl h2
      · exact Or.inr h2
    · exact Or.inr h

theorem links_map_fst (db : List Node) : (links db).map Prod.fst = db.map Node.id := by
  simp [links, List.map_map]

theorem descIds_nodup {db : List Node} (h : UniqueIds db) (root : Nat) :
    (descIds db root).Nodup := by
  unfold descIds
  refine List.Nodup.filter _ ?_
  refine descIter_nodup db.length ?_ (List.nodup_singleton root)
  rw [links_map_fst]
  exact h

theorem descIds_mem_ids {db : List Node} {root i : Nat} (hi : i ∈ descIds db root) :
    i ∈ db.map Node.id := by
  unfold descIds at hi
  have hmem := List.mem_of_mem_filter hi
  have hne := List.of_mem_filter hi
  simp only [ne_eq, bne_iff_ne] at hne
  rcases descIter_mem db.length hmem with h | h
  · rcases List.mem_singleton.1 h with rfl
    exact absurd rfl hne
  · rw [links_map_fst] at h
    exact h

theorem row_eq_of_id {db : List Node} (hids : UniqueIds db) {n m : Node}
    (hn : n ∈ db) (hm : m ∈ db) (h : n.id = m.id) : n = m :=
  List.inj_on_of_nodup_map hids hn hm h

theorem row_eq_of_pos {db : List Node} {ph lang : Nat}
    (hnodup : (posList db ph lang).Nodup) {n m : Node}
    (hn : n ∈ scope db ph lang) (hm : m ∈ scope db ph lang)
    (h : n.position = m.position) : n = m :=
  List.inj_on_of_nodup_map hnodup hn hm h

theorem countP_or_split {α : Type} (l : List α) (f g : α → Bool)
    (hdisj : ∀ a ∈ l, ¬(f a = true ∧ g a = true)) :
    l.countP (fun a => f a || g a) = l.countP f + l.countP g := by
  induction l with
  | nil => rfl
  | cons a t ih =>
    have ih2 := ih (fun b hb => hdisj b (List.mem_cons_of_mem a hb))
    have hd := hdisj a (List.mem_cons_self a t)
    simp only [List.countP_cons, ih2]
    by_cases hf : f a = true <;> by_cases hg : g a = true <;>
      simp [hf, hg] at hd ⊢ <;> omega

theorem countP_id_eq_one {db : List Node} (hids : UniqueIds db) {i : Nat}
    (hi : i ∈ db.map Node.id) :
    db.countP (fun n => n.id == i) = 1 := by
  unfold UniqueIds at hids
  induction db with
  | nil => cases hi
  | cons a t ih =>
    simp only [List.map_cons, List.nodup_cons] at hids
    simp only [List.countP_cons]
    rcases List.mem_cons.1 hi with rfl | hmem
    · have hz : t.countP (fun n => n.id == a.id) = 0 := by
        rw [List.countP_eq_zero]
        intro m hm
        simp only [beq_iff_eq]
        intro hc
        exact hids.1 (List.mem_map.2 ⟨m, hm, hc⟩)
      simp [hz]
    · have hne : (a.id == i) = false := by
        simp only [beq_eq_false_iff_ne, ne_eq]
        intro hc
        rw [hc] at hids
        exact hids.1 hmem
      rw [ih hids.2 hmem, hne]
      simp

theorem count_rows_with_ids {db : List Node} (hids : UniqueIds db) {is : List Nat}
    (hnodup : is.Nodup) (hsub : ∀ i ∈ is, i ∈ db.map Node.id) :
    db.countP (fun n => is.contains n.id) = is.length := by
  induction is with
  | nil => simp [List.countP_eq_zero]
  | cons i rest ih =>
    simp only [List.nodup_cons] at hnodup
    have hsplit : db.countP (fun n => (i :: rest).contains n.id)
        = db.countP (fun n => n.id == i) + db.countP (fun n => rest.contains n.id) := by
      have hcongr : ∀ n ∈ db, ((i :: rest).contains n.id)
          = ((fun n : Node => n.id == i) n || (fun n : Node => rest.contains n.id) n) := by
        intro n _
        simp only [List.contains_cons]
      rw [List.countP_congr (fun n hn => by rw [hcongr n hn])]
      refine countP_or_split db _ _ ?_
      rintro a _ ⟨h1, h2⟩
      simp only [beq_iff_eq] at h1
      rw [h1] at h2
      exact hnodup.1 (contains_iff.1 h2)
    rw [hsplit, countP_id_eq_one hids (hsub i (List.mem_cons_self i rest)),
      ih hnodup.2 (fun j hj => hsub j (List.mem_cons_of_mem i hj))]
    simp [Nat.add_comm]

theorem subperm_full {l : List Int} {a : Int} {k : Nat} (hn : l.Nodup)
    (hlen : l.length = k) (hsub : ∀ x ∈ l, x ∈ rangeFrom a k) :
    ∀ y ∈ rangeFrom a k, y ∈ l := by
  have hsp : List.Subperm l (rangeFrom a k) := hn.subperm hsub
  have hperm : l.Perm (rangeFrom a k) :=
    hsp.perm_of_length_le (by rw [rangeFrom_length, hlen])
  intro y hy
  exact hperm.mem_iff.2 hy

theorem nodup_shift_map {qs : List Int} (hn : qs.Nodup) {s L : Int} (hL : 0 ≤ L) :
    (qs.map (fun q => if s ≤ q then q + L else q)).Nodup := by
  refine List.Nodup.map_on ?_ hn
  intro x hx y hy hxy
  by_cases h1 : s ≤ x <;> by_cases h2 : s ≤ y <;> simp [h1, h2] at hxy <;> omega

theorem uniqueIds_filter {db : List Node} (h : UniqueIds db) (keep : Node → Bool) :
    UniqueIds (db.filter keep) :=
  List.Nodup.sublist (List.Sublist.map Node.id (List.filter_sublist db)) h

theorem scope_filter (db : List Node) (keep : Node → Bool) (ph lang : Nat) :
    scope (db.filter keep) ph lang = (scope db ph lang).filter keep := by
  unfold scope
  rw [List.filter_filter, List.filter_filter]
  refine List.filter_congr ?_
  intro n _
  rw [Bool.and_comm]

theorem filter_map_pos (s : List Node) (keep : Node → Bool) (pp : Int → Bool)
    (h : ∀ n ∈ s, keep n = pp n.position) :
    (s.filter keep).map Node.position = (s.map Node.position).filter pp := by
  induction s with
  | nil => rfl
  | cons a t ih =>
    have ha := h a (List.mem_cons_self a t)
    have iht := ih (fun n hn => h n (List.mem_cons_of_mem _ hn))
    simp only [List.filter_cons, List.map_cons]
    rw [ha]
    by_cases hc : pp a.position = true <;> simp [hc, iht]

theorem posList_filter {db : List Node} {ph lang : Nat} {keep : Node → Bool} {pp : Int → Bool}
    (h : ∀ n ∈ scope db ph lang, keep n = pp n.position) :
    posList (db.filter keep) ph lang = (posList db ph lang).filter pp := by
  unfold posList
  rw [scope_filter, filter_map_pos _ keep pp h]

/-- Subtree-block consequences of the invariants at node `x`: the block
`[x.position, x.position + d]` lies inside `[1, N]`, and a scope row belongs
to `{x} ∪ descendants(x)` exactly when its position lies in the block. -/
theorem subtree_block {db : List Node} {ph lang : Nat} {x : Node}
    (hids : UniqueIds db) (hdense : Dense db ph lang)
    (hx : x ∈ db) (hxs : inScope ph lang x = true)
    (hcontig : ContigAt db ph lang x) :
    x.position + ((descIds db x.id).length : Int) ≤ ((posList db ph lang).length : Int)
    ∧ ∀ n ∈ scope db ph lang,
        ((n.id = x.id ∨ n.id ∈ descIds db x.id)
          ↔ (x.position ≤ n.position
              ∧ n.position ≤ x.position + ((descIds db x.id).length : Int))) := by
  have hnodupP := dense_nodup hdense
  have hxb := dense_mem_bounds hdense (pos_mem_posList hx hxs)
  have hcount : db.countP (fun n => (descIds db x.id).contains n.id)
      = (descIds db x.id).length :=
    count_rows_with_ids hids (descIds_nodup hids x.id) (fun i hi => descIds_mem_ids hi)
  have hscope_count : (scope db ph lang).countP (fun n => (descIds db x.id).contains n.id)
      = db.countP (fun n => (descIds db x.id).contains n.id) := by
    unfold scope
    rw [List.countP_filter]
    refine List.countP_congr (fun n hn => ?_)
    by_cases hc : (descIds db x.id).contains n.id = true
    · have hmem := contains_iff.1 hc
      have hsc := ((hcontig n hn).1 hmem).1
      rw [hc, hsc]
      simp
    · have hcf : (descIds db x.id).contains n.id = false := by
        cases hb : (descIds db x.id).contains n.id
        · rfl
        · exact absurd hb hc
      rw [hcf, Bool.false_and]
  have hdr_len : ((scope db ph lang).filter
      (fun m => (descIds db x.id).contains m.id)).length = (descIds db x.id).length := by
    rw [← List.countP_eq_length_filter, hscope_count, hcount]
  have hdr_posmem : ∀ n ∈ (scope db ph lang).filter
      (fun m => (descIds db x.id).contains m.id),
      x.position < n.position
        ∧ n.position ≤ x.position + ((descIds db x.id).length : Int) := by
    intro n hn
    have hk := List.of_mem_filter hn
    exact ((hcontig n (mem_scope_mem (List.mem_of_mem_filter hn))).1
      (contains_iff.1 hk)).2
  have hfill : ∀ y ∈ rangeFrom (x.position + 1) (descIds db x.id).length,
      y ∈ ((scope db ph lang).filter
        (fun m => (descIds db x.id).contains m.id)).map Node.position := by
    refine subperm_full ?_ ?_ ?_
    · refine List.Nodup.sublist ?_ hnodupP
      exact List.Sublist.map Node.position (List.filter_sublist _)
    · rw [List.length_map, hdr_len]
    · intro y hy
      rcases List.mem_map.1 hy with ⟨n, hn, rfl⟩
      have := hdr_posmem n hn
      exact mem_rangeFrom.2 (by omega)
  have hpd : x.position + ((descIds db x.id).length : Int)
      ≤ ((posList db ph lang).length : Int) := by
    by_cases hd0 : (descIds db x.id).length = 0
    · rw [hd0]
      push_cast
      omega
    · have hy : x.position + ((descIds db x.id).length : Int)
          ∈ rangeFrom (x.position + 1) (descIds db x.id).length :=
        mem_rangeFrom.2 (by omega)
      have hmem := hfill _ hy
      rcases List.mem_map.1 hmem with ⟨n, hn, hpos⟩
      have hnf := List.mem_of_mem_filter hn
      have hnp : n.position ∈ posList db ph lang :=
        pos_mem_posList (mem_scope_mem hnf) (mem_scope_inScope hnf)
      have := dense_mem_bounds hdense hnp
      omega
  refine ⟨hpd, ?_⟩
  intro n hn
  constructor
  · rintro (h | h)
    · have he : n = x := row_eq_of_id hids (mem_scope_mem hn) hx h
      rw [he]
      constructor
      · exact le_refl _
      · omega
    · have := (hcontig n (mem_scope_mem hn)).1 h
      exact ⟨by omega, this.2.2⟩
  · rintro ⟨h1, h2⟩
    by_cases he : n.position = x.position
    · left
      have hne : n = x := row_eq_of_pos hnodupP hn (mem_scope_of_mem hx hxs) he
      rw [hne]
    · right
      exact (hcontig n (mem_scope_mem hn)).2 ⟨mem_scope_inScope hn, by omega, h2⟩

theorem countP_survivor_shift (ps : List Int) (p dI L c : Int)
    (hperm : ps.Perm (rangeFrom 1 ps.length))
    (hp : 1 ≤ p) (hd : 0 ≤ dI) (hpd : p + dI ≤ (ps.length : Int)) (hL : 0 ≤ L) :
    (((ps.filter (fun q => decide (q < p ∨ p + dI < q))).map
        (fun q => if p ≤ q then q + L else q)).countP (fun q => decide (q < c)) : Int)
      = min (max (c - 1) 0) (p - 1)
        + min (max (c - L - (p + dI + 1)) 0) ((ps.length : Int) - p - dI) := by
  rw [List.countP_map, List.countP_filter]
  rw [hperm.countP_eq]
  set k1 := (p - 1).toNat with hk1
  set k2 := (dI + 1).toNat with hk2
  set k3 := ((ps.length : Int) - p - dI).toNat with hk3
  have hsplit : rangeFrom 1 ps.length
      = (rangeFrom 1 k1 ++ rangeFrom (1 + (k1 : Int)) k2)
        ++ rangeFrom (1 + ((k1 + k2 : Nat) : Int)) k3 := by
    have h1 : rangeFrom 1 k1 ++ rangeFrom (1 + (k1 : Int)) k2 = rangeFrom 1 (k1 + k2) :=
      rangeFrom_append 1 k1 k2
    have h2 : rangeFrom 1 (k1 + k2) ++ rangeFrom (1 + ((k1 + k2 : Nat) : Int)) k3
        = rangeFrom 1 ((k1 + k2) + k3) := rangeFrom_append 1 (k1 + k2) k3
    rw [h1, h2]
    congr 1
    omega
  simp only [Function.comp]
  rw [hsplit, List.countP_append, List.countP_append]
  have hseg1 : (rangeFrom 1 k1).countP (fun y =>
      decide ((if p ≤ y then y + L else y) < c) && decide (y < p ∨ p + dI < y))
      = (rangeFrom 1 k1).countP (fun q => decide (q < c)) := by
    refine List.countP_congr (fun y hy => ?_)
    have hb := mem_rangeFrom.1 hy
    rw [if_neg (by omega : ¬ p ≤ y)]
    simp only [Bool.and_eq_true, decide_eq_true_eq]
    omega
  have hseg2 : (rangeFrom (1 + (k1 : Int)) k2).countP (fun y =>
      decide ((if p ≤ y then y + L else y) < c) && decide (y < p ∨ p + dI < y)) = 0 := by
    rw [List.countP_eq_zero]
    intro y hy
    have hb := mem_rangeFrom.1 hy
    simp only [Bool.and_eq_true, decide_eq_true_eq, not_and]
    intro _
    omega
  have hseg3 : (rangeFrom (1 + ((k1 + k2 : Nat) : Int)) k3).countP (fun y =>
      decide ((if p ≤ y then y + L else y) < c) && decide (y < p ∨ p + dI < y))
      = (rangeFrom (1 + ((k1 + k2 : Nat) : Int)) k3).countP
          (fun q => decide (q < c - L)) := by
    refine List.countP_congr (fun y hy => ?_)
    have hb := mem_rangeFrom.1 hy
    have hbk : 1 + ((k1 : Int) + (k2 : Int)) ≤ y := by
      have := hb.1
      push_cast at this
      omega
    rw [if_pos (by omega : p ≤ y)]
    simp only [Bool.and_eq_true, decide_eq_true_eq]
    omega
  rw [hseg1, hseg2, hseg3]
  push_cast
  rw [show (((rangeFrom 1 k1).countP fun q => decide (q < c)) : Int)
      = min (max (c - 1) 0) k1 from countP_rangeFrom_lt 1 k1 c]
  rw [show (((rangeFrom (1 + ((k1 : Int) + (k2 : Int))) k3).countP
        fun q => decide (q < c - L)) : Int)
      = min (max ((c - L) - (1 + ((k1 : Int) + (k2 : Int)))) 0) k3
      from countP_rangeFrom_lt _ k3 (c - L)]
  omega

theorem uniqueIds_shift {db : List Node} (h : UniqueIds db) (ph lang : Nat)
    (start off : Int) : UniqueIds (shift_plugin_positions db ph lang start off) := by
  unfold UniqueIds shift_plugin_positions
  rw [ids_mapPos]
  exact h

theorem delete_keep_eq {db : List Node} {ph : Nat} {x : Node}
    (hids : UniqueIds db) (hdense : Dense db ph x.language)
    (hx : x ∈ db) (hxs : inScope ph x.language x = true)
    (hchar : ∀ n ∈ scope db ph x.language,
        ((n.id = x.id ∨ n.id ∈ descIds db x.id)
          ↔ (x.position ≤ n.position
              ∧ n.position ≤ x.position + ((descIds db x.id).length : Int)))) :
    ∀ n ∈ scope db ph x.language,
      (!(n.id == x.id || (descIds db x.id).contains n.id))
        = decide (n.position < x.position
            ∨ x.position + ((descIds db x.id).length : Int) < n.position) := by
  intro n hn
  have hchar' := hchar n hn
  by_cases hin : n.id = x.id ∨ n.id ∈ descIds db x.id
  · have hb : (n.id == x.id || (descIds db x.id).contains n.id) = true := by
      rcases hin with h | h
      · simp [h]
      · rw [contains_iff.2 h, Bool.or_true]
    have hrange := hchar'.1 hin
    rw [hb]
    have : decide (n.position < x.position
        ∨ x.position + ((descIds db x.id).length : Int) < n.position) = false := by
      simp only [decide_eq_false_iff_not, not_or, not_lt]
      omega
    rw [this]
    rfl
  · have h1 : (n.id == x.id) = false := by
      cases hb : (n.id == x.id)
      · rfl
      · exact absurd (Or.inl (by simpa using hb)) hin
    have h2 : (descIds db x.id).contains n.id = false := by
      cases hb : (descIds db x.id).contains n.id
      · rfl
      · exact absurd (Or.inr (contains_iff.1 hb)) hin
    have hrange : ¬ (x.position ≤ n.position
        ∧ n.position ≤ x.position + ((descIds db x.id).length : Int)) :=
      fun hcc => hin (hchar'.2 hcc)
    rw [h1, h2]
    have : decide (n.position < x.position
        ∨ x.position + ((descIds db x.id).length : Int) < n.position) = true := by
      simp only [decide_eq_true_eq]
      omega
    rw [this]
    rfl

theorem delete_survivor_length {db : List Node} {ph lang : Nat} {p dI : Int}
    (hdense : Dense db ph lang) (hp : 1 ≤ p) (hd : 0 ≤ dI)
    (hpd : p + dI ≤ ((posList db ph lang).length : Int)) :
    ((((posList db ph lang).filter
        (fun q => decide (q < p ∨ p + dI < q))).length : Int))
      = ((posList db ph lang).length : Int) - (1 + dI) := by
  rw [← List.countP_eq_length_filter]
  have hperm : (posList db ph lang).Perm
      (rangeFrom 1 (posList db ph lang).length) := hdense
  rw [hperm.countP_eq]
  set k1 := (p - 1).toNat with hk1
  set k2 := (dI + 1).toNat with hk2
  set k3 := (((posList db ph lang).length : Int) - p - dI).toNat with hk3
  have hsplit : rangeFrom 1 (posList db ph lang).length
      = (rangeFrom 1 k1 ++ rangeFrom (1 + (k1 : Int)) k2)
        ++ rangeFrom (1 + ((k1 + k2 : Nat) : Int)) k3 := by
    have h1 : rangeFrom 1 k1 ++ rangeFrom (1 + (k1 : Int)) k2 = rangeFrom 1 (k1 + k2) :=
      rangeFrom_append 1 k1 k2
    have h2 : rangeFrom 1 (k1 + k2) ++ rangeFrom (1 + ((k1 + k2 : Nat) : Int)) k3
        = rangeFrom 1 ((k1 + k2) + k3) := rangeFrom_append 1 (k1 + k2) k3
    rw [h1, h2]
    congr 1
    omega
  rw [hsplit, List.countP_append, List.countP_append]
  have hseg1 : (rangeFrom 1 k1).countP (fun q => decide (q < p ∨ p + dI < q))
      = k1 := by
    have hfull : (rangeFrom 1 k1).countP (fun q => decide (q < p ∨ p + dI < q))
        = (rangeFrom 1 k1).length := by
      rw [List.countP_eq_length]
      intro y hy
      have hb := mem_rangeFrom.1 hy
      simp only [decide_eq_true_eq]
      omega
    rw [hfull, rangeFrom_length]
  have hseg2 : (rangeFrom (1 + (k1 : Int)) k2).countP
      (fun q => decide (q < p ∨ p + dI < q)) = 0 := by
    rw [List.countP_eq_zero]
    intro y hy
    have hb := mem_rangeFrom.1 hy
    simp only [decide_eq_true_eq, not_or]
    omega
  have hseg3 : (rangeFrom (1 + ((k1 + k2 : Nat) : Int)) k3).countP
      (fun q => decide (q < p ∨ p + dI < q)) = k3 := by
    have hfull : (rangeFrom (1 + ((k1 + k2 : Nat) : Int)) k3).countP
        (fun q => decide (q < p ∨ p + dI < q))
        = (rangeFrom (1 + ((k1 + k2 : Nat) : Int)) k3).length := by
      rw [List.countP_eq_length]
      intro y hy
      have hb := mem_rangeFrom.1 hy
      have hbk : 1 + ((k1 : Int) + (k2 : Int)) ≤ y := by
        have := hb.1
        push_cast at this
        omega
      simp only [decide_eq_true_eq]
      omega
    rw [hfull, rangeFrom_length]
  rw [hseg1, hseg2, hseg3]
  push_cast
  omega

/-- C5: delete — on a scope satisfying the invariants, `delete_plugin` removes
the node and its whole descendant set, keeps every other column of every
surviving row, leaves rows outside the scope and scope rows below the removed
block unmoved, closes the survivors above the block down by the block size
1+d, and leaves the scope dense 1..N-(1+d). -/
theorem delete_plugin_spec (v : Vendor) (db : List Node) (ph : Nat) (x : Node)
    (hids : UniqueIds db) (hdense : Dense db ph x.language)
    (hx : x ∈ db) (hxs : inScope ph x.language x = true)
    (hcontig : ContigAt db ph x.language x) :
    (∀ n ∈ delete_plugin v db ph x, n.id ≠ x.id ∧ n.id ∉ descIds db x.id)
    ∧ (∀ n ∈ db, n.id ≠ x.id → n.id ∉ descIds db x.id →
        ∃ n' ∈ delete_plugin v db ph x, n'.id = n.id ∧ n'.parent = n.parent
          ∧ n'.placeholder = n.placeholder ∧ n'.language = n.language
          ∧ n'.position = (if (inScope ph x.language n = true
                ∧ x.position + ((descIds db x.id).length : Int) < n.position)
              then n.position - (1 + ((descIds db x.id).length : Int))
              else n.position))
    ∧ Dense (delete_plugin v db ph x) ph x.language
    ∧ ((posList (delete_plugin v db ph x) ph x.language).length : Int)
        = ((posList db ph x.language).length : Int)
          - (1 + ((descIds db x.id).length : Int)) := by
  obtain ⟨hpd, hchar⟩ := subtree_block hids hdense hx hxs hcontig
  have hperm : (posList db ph x.language).Perm
      (rangeFrom 1 (posList db ph x.language).length) := hdense
  have hnodupP := dense_nodup hdense
  have hxb := dense_mem_bounds hdense (pos_mem_posList hx hxs)
  have hd0 : (0 : Int) ≤ ((descIds db x.id).length : Int) := by positivity
  have hkeep := delete_keep_eq hids hdense hx hxs hchar
  have hpl1 : posList (db.filter
        (fun n => !(n.id == x.id || (descIds db x.id).contains n.id))) ph x.language
      = (posList db ph x.language).filter
          (fun q => decide (q < x.position
            ∨ x.position + ((descIds db x.id).length : Int) < q)) :=
    posList_filter hkeep
  have hsurvlen := delete_survivor_length hdense hxb.1 hd0 hpd
  have hkeepof : ∀ n ∈ db, n.id ≠ x.id → n.id ∉ descIds db x.id →
      (!(n.id == x.id || (descIds db x.id).contains n.id)) = true := by
    intro n _ hne hnd
    have h1 : (n.id == x.id) = false := by
      cases hb : (n.id == x.id)
      · rfl
      · exact absurd (by simpa using hb) hne
    have h2 : (descIds db x.id).contains n.id = false := by
      cases hb : (descIds db x.id).contains n.id
      · rfl
      · exact absurd (contains_iff.1 hb) hnd
    rw [h1, h2]
    rfl
  have hof : ∀ n ∈ db.filter
      (fun n => !(n.id == x.id || (descIds db x.id).contains n.id)),
      n.id ≠ x.id ∧ n.id ∉ descIds db x.id := by
    intro n hn
    have hk := List.of_mem_filter hn
    have hb : (n.id == x.id || (descIds db x.id).contains n.id) = false := by
      cases hb2 : (n.id == x.id || (descIds db x.id).contains n.id)
      · rfl
      · rw [hb2] at hk
        cases hk
    have h1 : (n.id == x.id) = false := by
      cases hb2 : (n.id == x.id)
      · rfl
      · rw [hb2] at hb
        simp at hb
    have h2 : (descIds db x.id).contains n.id = false := by
      cases hb2 : (descIds db x.id).contains n.id
      · rfl
      · rw [hb2] at hb
        simp at hb
    constructor
    · intro hc
      rw [hc] at h1
      simp at h1
    · intro hc
      rw [contains_iff.2 hc] at h2
      cases h2
  cases hmax : maxPos (posList (db.filter
      (fun n => !(n.id == x.id || (descIds db x.id).contains n.id))) ph x.language) with
  | none =>
    have hD : delete_plugin v db ph x = db.filter
        (fun n => !(n.id == x.id || (descIds db x.id).contains n.id)) := by
      simp only [delete_plugin, hmax]
    have hempty : posList (db.filter
        (fun n => !(n.id == x.id || (descIds db x.id).contains n.id))) ph x.language
        = [] := maxPos_eq_none.1 hmax
    refine ⟨?_, ?_, ?_, ?_⟩
    · intro n hn
      rw [hD] at hn
      exact hof n hn
    · intro n hn hne hnd
      have hn1 : n ∈ db.filter
          (fun n => !(n.id == x.id || (descIds db x.id).contains n.id)) :=
        List.mem_filter.2 ⟨hn, hkeepof n hn hne hnd⟩
      by_cases hsc : inScope ph x.language n = true
      · exfalso
        have := pos_mem_posList hn1 hsc
        rw [hempty] at this
        cases this
      · refine ⟨n, by rw [hD]; exact hn1, rfl, rfl, rfl, rfl, ?_⟩
        rw [if_neg (fun hc => hsc hc.1)]
    · unfold Dense
      rw [hD, hempty]
      simp [rangeFrom]
    · rw [hD, hempty]
      have hz : (((posList db ph x.language).filter
          (fun q => decide (q < x.position
            ∨ x.position + ((descIds db x.id).length : Int) < q))).length : Int) = 0 := by
        rw [← hpl1, hempty]
        rfl
      simp only [List.length_nil, Nat.cast_zero]
      omega
  | some L =>
    have hD : delete_plugin v db ph x = recalculate_plugin_positions v
        (shift_plugin_positions (db.filter
          (fun n => !(n.id == x.id || (descIds db x.id).contains n.id)))
          ph x.language x.position L) ph x.language := by
      simp only [delete_plugin, hmax]
    have hids1 : UniqueIds (db.filter
        (fun n => !(n.id == x.id || (descIds db x.id).contains n.id))) :=
      uniqueIds_filter hids _
    have hids2 : UniqueIds (shift_plugin_positions (db.filter
        (fun n => !(n.id == x.id || (descIds db x.id).contains n.id)))
        ph x.language x.position L) := uniqueIds_shift hids1 ph x.language x.position L
    have hDd : delete_plugin v db ph x = recalculate_direct
        (shift_plugin_positions (db.filter
          (fun n => !(n.id == x.id || (descIds db x.id).contains n.id)))
          ph x.language x.position L) ph x.language := by
      rw [hD, recalculate_eq_direct v ph x.language hids2]
    have hLmem : L ∈ posList db ph x.language := by
      have := (maxPos_spec.1 hmax).1
      rw [hpl1] at this
      exact List.mem_of_mem_filter this
    have hLb := dense_mem_bounds hdense hLmem
    have hL0 : (0 : Int) ≤ L := by omega
    have hplS : posList (shift_plugin_positions (db.filter
        (fun n => !(n.id == x.id || (descIds db x.id).contains n.id)))
        ph x.language x.position L) ph x.language
        = ((posList db ph x.language).filter
            (fun q => decide (q < x.position
              ∨ x.position + ((descIds db x.id).length : Int) < q))).map
          (fun q => if x.position ≤ q then q + L else q) := by
      rw [posList_shift, hpl1]
    have hrank : ∀ c, rankIn (posList (shift_plugin_positions (db.filter
        (fun n => !(n.id == x.id || (descIds db x.id).contains n.id)))
        ph x.language x.position L) ph x.language) c
        = 1 + (min (max (c - 1) 0) (x.position - 1)
            + min (max (c - L - (x.position + ((descIds db x.id).length : Int) + 1)) 0)
                (((posList db ph x.language).length : Int)
                  - x.position - ((descIds db x.id).length : Int))) := by
      intro c
      unfold rankIn
      rw [hplS, countP_survivor_shift (posList db ph x.language) x.position
        ((descIds db x.id).length : Int) L c hperm hxb.1 hd0 hpd hL0]
    refine ⟨?_, ?_, ?_, ?_⟩
    · intro n hn
      rw [hDd] at hn
      unfold recalculate_direct mapPos at hn
      rcases List.mem_map.1 hn with ⟨m1, hm1, rfl⟩
      unfold shift_plugin_positions mapPos at hm1
      rcases List.mem_map.1 hm1 with ⟨m0, hm0, rfl⟩
      exact hof m0 hm0
    · intro n hn hne hnd
      have hn1 : n ∈ db.filter
          (fun n => !(n.id == x.id || (descIds db x.id).contains n.id)) :=
        List.mem_filter.2 ⟨hn, hkeepof n hn hne hnd⟩
      have hmem1 := mem_mapPos (fun n =>
        if inScope ph x.language n && decide (x.position ≤ n.position)
        then n.position + L else n.position) hn1
      have hmem2 := mem_mapPos (fun m =>
        if inScope ph x.language m
        then rankIn (posList (shift_plugin_positions (db.filter
          (fun n => !(n.id == x.id || (descIds db x.id).contains n.id)))
          ph x.language x.position L) ph x.language) m.position
        else m.position) hmem1
      dsimp only at hmem2
      rw [inScope_set_position] at hmem2
      rw [hDd]
      unfold recalculate_direct shift_plugin_positions
      by_cases hsc : inScope ph x.language n = true
      · have hq : n.position ∈ posList db ph x.language :=
          pos_mem_posList hn hsc
        have hqb := dense_mem_bounds hdense hq
        have hout : n.position < x.position
            ∨ x.position + ((descIds db x.id).length : Int) < n.position := by
          have hk := hkeep n (mem_scope_of_mem hn hsc)
          rw [hkeepof n hn hne hnd] at hk
          exact of_decide_eq_true hk.symm
        rcases hout with hlt | hgt
        · have hA : (if inScope ph x.language n && decide (x.position ≤ n.position)
              then n.position + L else n.position) = n.position := by
            rw [if_neg]
            simp only [Bool.and_eq_true, decide_eq_true_eq, not_and]
            intro _
            omega
          rw [hA] at hmem2
          have hval : (if inScope ph x.language n = true
              then rankIn (posList (shift_plugin_positions (db.filter
                (fun n => !(n.id == x.id || (descIds db x.id).contains n.id)))
                ph x.language x.position L) ph x.language) n.position
              else n.position) = n.position := by
            rw [if_pos hsc, hrank]
            omega
          rw [hval] at hmem2
          rw [show (if (inScope ph x.language n = true
              ∧ x.position + ((descIds db x.id).length : Int) < n.position)
              then n.position - (1 + ((descIds db x.id).length : Int))
              else n.position) = n.position from if_neg (by omega)]
          exact ⟨_, hmem2, rfl, rfl, rfl, rfl, rfl⟩
        · have hA : (if inScope ph x.language n && decide (x.position ≤ n.position)
              then n.position + L else n.position) = n.position + L := by
            rw [if_pos]
            simp only [Bool.and_eq_true, decide_eq_true_eq]
            exact ⟨hsc, by omega⟩
          rw [hA] at hmem2
          have hval : (if inScope ph x.language n = true
              then rankIn (posList (shift_plugin_positions (db.filter
                (fun n => !(n.id == x.id || (descIds db x.id).contains n.id)))
                ph x.language x.position L) ph x.language) (n.position + L)
              else n.position + L)
              = n.position - (1 + ((descIds db x.id).length : Int)) := by
            rw [if_pos hsc, hrank]
            omega
          rw [hval] at hmem2
          rw [show (if (inScope ph x.language n = true
              ∧ x.position + ((descIds db x.id).length : Int) < n.position)
              then n.position - (1 + ((descIds db x.id).length : Int))
              else n.position)
              = n.position - (1 + ((descIds db x.id).length : Int))
            from if_pos ⟨hsc, hgt⟩]
          exact ⟨_, hmem2, rfl, rfl, rfl, rfl, rfl⟩
      · have hscf : inScope ph x.language n = false := by
          cases hb : inScope ph x.language n
          · rfl
          · exact absurd hb hsc
        have hA : (if inScope ph x.language n && decide (x.position ≤ n.position)
            then n.position + L else n.position) = n.position := by
          rw [if_neg]
          simp [hscf]
        rw [hA] at hmem2
        have hval : (if inScope ph x.language n = true
            then rankIn (posList (shift_plugin_positions (db.filter
              (fun n => !(n.id == x.id || (descIds db x.id).contains n.id)))
              ph x.language x.position L) ph x.language) n.position
            else n.position) = n.position := by
          rw [if_neg (fun hc => hsc hc)]
        rw [hval] at hmem2
        rw [show (if (inScope ph x.language n = true
            ∧ x.position + ((descIds db x.id).length : Int) < n.position)
            then n.position - (1 + ((descIds db x.id).length : Int))
            else n.position) = n.position from if_neg (fun hc => hsc hc.1)]
        exact ⟨_, hmem2, rfl, rfl, rfl, rfl, rfl⟩
    · rw [hDd]
      refine dense_recalculate_direct ?_
      rw [hplS]
      refine nodup_shift_map (List.Nodup.filter _ hnodupP) hL0
    · rw [hDd, posList_recalculate_direct, List.length_map, hplS, List.length_map]
      exact hsurvlen

/-- C5 witness: the spec's concrete scenario — in a six-row scope the node at
position 3 carries descendants at 4 and 5; deleting it leaves the survivors
dense, with the row formerly at position 6 now at position 3. -/
theorem delete_plugin_spec_witness :
    (∃ n' ∈ delete_plugin .other
        [⟨1, 0, 0, none, 1⟩, ⟨2, 0, 0, none, 2⟩, ⟨3, 0, 0, none, 3⟩,
          ⟨4, 0, 0, some 3, 4⟩, ⟨5, 0, 0, some 4, 5⟩, ⟨6, 0, 0, none, 6⟩]
        0 ⟨3, 0, 0, none, 3⟩,
      n'.id = 6 ∧ n'.position = 3)
    ∧ Dense (delete_plugin .other
        [⟨1, 0, 0, none, 1⟩, ⟨2, 0, 0, none, 2⟩, ⟨3, 0, 0, none, 3⟩,
          ⟨4, 0, 0, some 3, 4⟩, ⟨5, 0, 0, some 4, 5⟩, ⟨6, 0, 0, none, 6⟩]
        0 ⟨3, 0, 0, none, 3⟩) 0 0 := by
  have h := delete_plugin_spec .other
    [⟨1, 0, 0, none, 1⟩, ⟨2, 0, 0, none, 2⟩, ⟨3, 0, 0, none, 3⟩,
      ⟨4, 0, 0, some 3, 4⟩, ⟨5, 0, 0, some 4, 5⟩, ⟨6, 0, 0, none, 6⟩]
    0 ⟨3, 0, 0, none, 3⟩ (by decide) (by decide) (by decide) (by decide) (by decide)
  constructor
  · obtain ⟨n', hmem, hid, _, _, _, hpos⟩ :=
      h.2.1 ⟨6, 0, 0, none, 6⟩ (by decide) (by decide) (by decide)
    refine ⟨n', hmem, ?_, ?_⟩
    · rw [hid]
    · rw [hpos]
      decide
  · exact h.2.2.1

/-- C10 amended witness: enabled caching with contributions {50s, a skipped
None, 40s} yields 40; a sole over-cap contribution yields the cap. -/
theorem cache_expiration_spec_witness :
    get_cache_expiration true true
      [CacheContribution.intLike 50, CacheContribution.null, CacheContribution.timedelta 40] = 40
    ∧ get_cache_expiration true true
      [CacheContribution.intLike (MAX_EXPIRATION_TTL + 5)] = MAX_EXPIRATION_TTL := by
  constructor
  · have h := (cache_expiration_spec true true
      [CacheContribution.intLike 50, CacheContribution.null,
        CacheContribution.timedelta 40]).2.2.2.2 rfl rfl 40 (by decide)
    rw [h]
    decide
  · have h := (cache_expiration_spec true true
      [CacheContribution.intLike (MAX_EXPIRATION_TTL + 5)]).2.2.2.2 rfl rfl
        (MAX_EXPIRATION_TTL + 5) (by decide)
    rw [h]
    decide

theorem shiftL_comp_eq (p dI T L q : Int) (hT : 1 ≤ T) (hTp : T < p) (hd : 0 ≤ dI)
    (hpd : p + dI ≤ L) (h1 : 1 ≤ q) (h2 : q ≤ L) :
    shiftL2 p dI L (shiftL1 p dI T L q) = moveSL p dI T L q := by
  unfold shiftL1 shiftL2 moveSL
  by_cases hc : T ≤ q ∧ ¬(p ≤ q ∧ q ≤ p + dI)
  · rw [if_pos hc, if_neg (by omega : ¬ (q + L ≤ p + dI)),
      if_neg (by omega : ¬ (q < T ∨ (p ≤ q ∧ q ≤ p + dI)))]
  · rw [if_neg hc, if_pos (by omega : q ≤ p + dI),
      if_pos (by omega : q < T ∨ (p ≤ q ∧ q ≤ p + dI))]

theorem shiftR_comp_eq (p dI T L q : Int) (hp : 1 ≤ p) (hpT : p ≤ T) (hd : 0 ≤ dI)
    (hTd : T + dI ≤ L) (h1 : 1 ≤ q) (h2 : q ≤ L) :
    shiftR2 p L (shiftR1 p dI T L q) = moveSR p dI T L q := by
  unfold shiftR1 shiftR2 moveSR
  by_cases hc : q ≤ T + dI ∧ ¬(p ≤ q ∧ q ≤ p + dI)
  · rw [if_pos hc, if_neg (by omega : ¬ (p ≤ q - L)),
      if_neg (by omega : ¬ ((p ≤ q ∧ q ≤ p + dI) ∨ T + dI < q))]
  · rw [if_neg hc, if_pos (by omega : p ≤ q),
      if_pos (by omega : (p ≤ q ∧ q ≤ p + dI) ∨ T + dI < q)]

theorem nodup_moveSL {ps : List Int} (hperm : ps.Perm (rangeFrom 1 ps.length))
    (p dI T L : Int) (hL : (ps.length : Int) ≤ L) :
    (ps.map (moveSL p dI T L)).Nodup := by
  have hnd : ps.Nodup := hperm.nodup_iff.2 (rangeFrom_nodup 1 _)
  refine List.Nodup.map_on ?_ hnd
  intro q1 hq1 q2 hq2 heq
  have hb1 := mem_rangeFrom.1 (hperm.mem_iff.1 hq1)
  have hb2 := mem_rangeFrom.1 (hperm.mem_iff.1 hq2)
  unfold moveSL at heq
  by_cases c1 : q1 < T ∨ (p ≤ q1 ∧ q1 ≤ p + dI)
  · by_cases c2 : q2 < T ∨ (p ≤ q2 ∧ q2 ≤ p + dI)
    · rw [if_pos c1, if_pos c2] at heq
      omega
    · rw [if_pos c1, if_neg c2] at heq
      omega
  · by_cases c2 : q2 < T ∨ (p ≤ q2 ∧ q2 ≤ p + dI)
    · rw [if_neg c1, if_pos c2] at heq
      omega
    · rw [if_neg c1, if_neg c2] at heq
      omega

theorem nodup_moveSR {ps : List Int} (hperm : ps.Perm (rangeFrom 1 ps.length))
    (p dI T L : Int) (hL : (ps.length : Int) ≤ L) :
    (ps.map (moveSR p dI T L)).Nodup := by
  have hnd : ps.Nodup := hperm.nodup_iff.2 (rangeFrom_nodup 1 _)
  refine List.Nodup.map_on ?_ hnd
  intro q1 hq1 q2 hq2 heq
  have hb1 := mem_rangeFrom.1 (hperm.mem_iff.1 hq1)
  have hb2 := mem_rangeFrom.1 (hperm.mem_iff.1 hq2)
  unfold moveSR at heq
  by_cases c1 : (p ≤ q1 ∧ q1 ≤ p + dI) ∨ T + dI < q1
  · by_cases c2 : (p ≤ q2 ∧ q2 ≤ p + dI) ∨ T + dI < q2
    · rw [if_pos c1, if_pos c2] at heq
      omega
    · rw [if_pos c1, if_neg c2] at heq
      omega
  · by_cases c2 : (p ≤ q2 ∧ q2 ≤ p + dI) ∨ T + dI < q2
    · rw [if_neg c1, if_pos c2] at heq
      omega
    · rw [if_neg c1, if_neg c2] at heq
      omega

theorem countP_moveSL (ps : List Int) (p dI T L c : Int)
    (hperm : ps.Perm (rangeFrom 1 ps.length))
    (hT : 1 ≤ T) (hTp : T < p) (hd : 0 ≤ dI)
    (hpd : p + dI ≤ (ps.length : Int)) (hL : (ps.length : Int) ≤ L) :
    ((ps.map (moveSL p dI T L)).countP (fun q => decide (q < c)) : Int)
      = min (max (c + L - 1) 0) (T - 1)
        + min (max (c - L - T) 0) (p - T)
        + min (max (c + L - p) 0) (dI + 1)
        + min (max (c - L - (p + dI + 1)) 0) ((ps.length : Int) - p - dI) := by
  rw [List.countP_map]
  rw [hperm.countP_eq]
  set k1 := (T - 1).toNat with hk1
  set k2 := (p - T).toNat with hk2
  set k3 := (dI + 1).toNat with hk3
  set k4 := ((ps.length : Int) - p - dI).toNat with hk4
  have hsplit : rangeFrom 1 ps.length
      = ((rangeFrom 1 k1 ++ rangeFrom (1 + (k1 : Int)) k2)
          ++ rangeFrom (1 + ((k1 + k2 : Nat) : Int)) k3)
        ++ rangeFrom (1 + ((k1 + k2 + k3 : Nat) : Int)) k4 := by
    have h1 : rangeFrom 1 k1 ++ rangeFrom (1 + (k1 : Int)) k2 = rangeFrom 1 (k1 + k2) :=
      rangeFrom_append 1 k1 k2
    have h2 : rangeFrom 1 (k1 + k2) ++ rangeFrom (1 + ((k1 + k2 : Nat) : Int)) k3
        = rangeFrom 1 ((k1 + k2) + k3) := rangeFrom_append 1 (k1 + k2) k3
    have h3 : rangeFrom 1 ((k1 + k2) + k3)
          ++ rangeFrom (1 + ((k1 + k2 + k3 : Nat) : Int)) k4
        = rangeFrom 1 (((k1 + k2) + k3) + k4) := rangeFrom_append 1 ((k1 + k2) + k3) k4
    rw [h1, h2, h3]
    congr 1
    omega
  simp only [Function.comp_def]
  rw [hsplit, List.countP_append, List.countP_append, List.countP_append]
  have hseg1 : (rangeFrom 1 k1).countP (fun y => decide (moveSL p dI T L y < c))
      = (rangeFrom 1 k1).countP (fun q => decide (q < c + L)) := by
    refine List.countP_congr (fun y hy => ?_)
    have hb := mem_rangeFrom.1 hy
    unfold moveSL
    rw [if_pos (by omega : y < T ∨ (p ≤ y ∧ y ≤ p + dI))]
    simp only [decide_eq_true_eq]
    omega
  have hseg2 : (rangeFrom (1 + (k1 : Int)) k2).countP
        (fun y => decide (moveSL p dI T L y < c))
      = (rangeFrom (1 + (k1 : Int)) k2).countP (fun q => decide (q < c - L)) := by
    refine List.countP_congr (fun y hy => ?_)
    have hb := mem_rangeFrom.1 hy
    unfold moveSL
    rw [if_neg (by omega : ¬ (y < T ∨ (p ≤ y ∧ y ≤ p + dI)))]
    simp only [decide_eq_true_eq]
    omega
  have hseg3 : (rangeFrom (1 + ((k1 + k2 : Nat) : Int)) k3).countP
        (fun y => decide (moveSL p dI T L y < c))
      = (rangeFrom (1 + ((k1 + k2 : Nat) : Int)) k3).countP
          (fun q => decide (q < c + L)) := by
    refine List.countP_congr (fun y hy => ?_)
    have hb := mem_rangeFrom.1 hy
    have hbk : 1 + ((k1 : Int) + (k2 : Int)) ≤ y ∧ y < 1 + ((k1 : Int) + (k2 : Int)) + k3 := by
      constructor
      · have := hb.1
        push_cast at this
        omega
      · have := hb.2
        push_cast at this
        omega
    unfold moveSL
    rw [if_pos (by omega : y < T ∨ (p ≤ y ∧ y ≤ p + dI))]
    simp only [decide_eq_true_eq]
    omega
  have hseg4 : (rangeFrom (1 + ((k1 + k2 + k3 : Nat) : Int)) k4).countP
        (fun y => decide (moveSL p dI T L y < c))
      = (rangeFrom (1 + ((k1 + k2 + k3 : Nat) : Int)) k4).countP
          (fun q => decide (q < c - L)) := by
    refine List.countP_congr (fun y hy => ?_)
    have hb := mem_rangeFrom.1 hy
    have hbk : 1 + ((k1 : Int) + (k2 : Int) + (k3 : Int)) ≤ y := by
      have := hb.1
      push_cast at this
      omega
    unfold moveSL
    rw [if_neg (by omega : ¬ (y < T ∨ (p ≤ y ∧ y ≤ p + dI)))]
    simp only [decide_eq_true_eq]
    omega
  rw [hseg1, hseg2, hseg3, hseg4]
  push_cast
  rw [show (((rangeFrom 1 k1).countP fun q => decide (q < c + L)) : Int)
      = min (max ((c + L) - 1) 0) k1 from countP_rangeFrom_lt 1 k1 (c + L)]
  rw [show (((rangeFrom (1 + (k1 : Int)) k2).countP fun q => decide (q < c - L)) : Int)
      = min (max ((c - L) - (1 + (k1 : Int))) 0) k2
      from countP_rangeFrom_lt (1 + (k1 : Int)) k2 (c - L)]
  rw [show (((rangeFrom (1 + ((k1 : Int) + (k2 : Int))) k3).countP
        fun q => decide (q < c + L)) : Int)
      = min (max ((c + L) - (1 + ((k1 : Int) + (k2 : Int)))) 0) k3
      from countP_rangeFrom_lt (1 + ((k1 : Int) + (k2 : Int))) k3 (c + L)]
  rw [show (((rangeFrom (1 + ((k1 : Int) + (k2 : Int) + (k3 : Int))) k4).countP
        fun q => decide (q < c - L)) : Int)
      = min (max ((c - L) - (1 + ((k1 : Int) + (k2 : Int) + (k3 : Int)))) 0) k4
      from countP_rangeFrom_lt (1 + ((k1 : Int) + (k2 : Int) + (k3 : Int))) k4 (c - L)]
  have e1 : (k1 : Int) = T - 1 := by omega
  have e2 : (k2 : Int) = p - T := by omega
  have e3 : (k3 : Int) = dI + 1 := by omega
  have e4 : (k4 : Int) = (ps.length : Int) - p - dI := by omega
  rw [e1, e2, e3, e4]
  rw [show (c - L) - (1 + (T - 1)) = c - L - T from by ring]
  rw [show (c + L) - (1 + ((T - 1) + (p - T))) = c + L - p from by ring]
  rw [show (c - L) - (1 + ((T - 1) + (p - T) + (dI + 1))) = c - L - (p + dI + 1) from by ring]

theorem countP_moveSR (ps : List Int) (p dI T L c : Int)
    (hperm : ps.Perm (rangeFrom 1 ps.length))
    (hp : 1 ≤ p) (hpT : p ≤ T) (hd : 0 ≤ dI)
    (hTd : T + dI ≤ (ps.length : Int)) (hL : (ps.length : Int) ≤ L) :
    ((ps.map (moveSR p dI T L)).countP (fun q => decide (q < c)) : Int)
      = min (max (c + L - 1) 0) (p - 1)
        + min (max (c - L - p) 0) (dI + 1)
        + min (max (c + L - (p + dI + 1)) 0) (T - p)
        + min (max (c - L - (T + dI + 1)) 0) ((ps.length : Int) - T - dI) := by
  rw [List.countP_map]
  rw [hperm.countP_eq]
  set k1 := (p - 1).toNat with hk1
  set k2 := (dI + 1).toNat with hk2
  set k3 := (T - p).toNat with hk3
  set k4 := ((ps.length : Int) - T - dI).toNat with hk4
  have hsplit : rangeFrom 1 ps.length
      = ((rangeFrom 1 k1 ++ rangeFrom (1 + (k1 : Int)) k2)
          ++ rangeFrom (1 + ((k1 + k2 : Nat) : Int)) k3)
        ++ rangeFrom (1 + ((k1 + k2 + k3 : Nat) : Int)) k4 := by
    have h1 : rangeFrom 1 k1 ++ rangeFrom (1 + (k1 : Int)) k2 = rangeFrom 1 (k1 + k2) :=
      rangeFrom_append 1 k1 k2
    have h2 : rangeFrom 1 (k1 + k2) ++ rangeFrom (1 + ((k1 + k2 : Nat) : Int)) k3
        = rangeFrom 1 ((k1 + k2) + k3) := rangeFrom_append 1 (k1 + k2) k3
    have h3 : rangeFrom 1 ((k1 + k2) + k3)
          ++ rangeFrom (1 + ((k1 + k2 + k3 : Nat) : Int)) k4
        = rangeFrom 1 (((k1 + k2) + k3) + k4) := rangeFrom_append 1 ((k1 + k2) + k3) k4
    rw [h1, h2, h3]
    congr 1
    omega
  simp only [Function.comp_def]
  rw [hsplit, List.countP_append, List.countP_append, List.countP_append]
  have hseg1 : (rangeFrom 1 k1).countP (fun y => decide (moveSR p dI T L y < c))
      = (rangeFrom 1 k1).countP (fun q => decide (q < c + L)) := by
    refine List.countP_congr (fun y hy => ?_)
    have hb := mem_rangeFrom.1 hy
    unfold moveSR
    rw [if_neg (by omega : ¬ ((p ≤ y ∧ y ≤ p + dI) ∨ T + dI < y))]
    simp only [decide_eq_true_eq]
    omega
  have hseg2 : (rangeFrom (1 + (k1 : Int)) k2).countP
        (fun y => decide (moveSR p dI T L y < c))
      = (rangeFrom (1 + (k1 : Int)) k2).countP (fun q => decide (q < c - L)) := by
    refine List.countP_congr (fun y hy => ?_)
    have hb := mem_rangeFrom.1 hy
    unfold moveSR
    rw [if_pos (by omega : (p ≤ y ∧ y ≤ p + dI) ∨ T + dI < y)]
    simp only [decide_eq_true_eq]
    omega
  have hseg3 : (rangeFrom (1 + ((k1 + k2 : Nat) : Int)) k3).countP
        (fun y => decide (moveSR p dI T L y < c))
      = (rangeFrom (1 + ((k1 + k2 : Nat) : Int)) k3).countP
          (fun q => decide (q < c + L)) := by
    refine List.countP_congr (fun y hy => ?_)
    have hb := mem_rangeFrom.1 hy
    have hbk : 1 + ((k1 : Int) + (k2 : Int)) ≤ y ∧ y < 1 + ((k1 : Int) + (k2 : Int)) + k3 := by
      constructor
      · have := hb.1
        push_cast at this
        omega
      · have := hb.2
        push_cast at this
        omega
    unfold moveSR
    rw [if_neg (by omega : ¬ ((p ≤ y ∧ y ≤ p + dI) ∨ T + dI < y))]
    simp only [decide_eq_true_eq]
    omega
  have hseg4 : (rangeFrom (1 + ((k1 + k2 + k3 : Nat) : Int)) k4).countP
        (fun y => decide (moveSR p dI T L y < c))
      = (rangeFrom (1 + ((k1 + k2 + k3 : Nat) : Int)) k4).countP
          (fun q => decide (q < c - L)) := by
    refine List.countP_congr (fun y hy => ?_)
    have hb := mem_rangeFrom.1 hy
    have hbk : 1 + ((k1 : Int) + (k2 : Int) + (k3 : Int)) ≤ y := by
      have := hb.1
      push_cast at this
      omega
    unfold moveSR
    rw [if_pos (by omega : (p ≤ y ∧ y ≤ p + dI) ∨ T + dI < y)]
    simp only [decide_eq_true_eq]
    omega
  rw [hseg1, hseg2, hseg3, hseg4]
  push_cast
  rw [show (((rangeFrom 1 k1).countP fun q => decide (q < c + L)) : Int)
      = min (max ((c + L) - 1) 0) k1 from countP_rangeFrom_lt 1 k1 (c + L)]
  rw [show (((rangeFrom (1 + (k1 : Int)) k2).countP fun q => decide (q < c - L)) : Int)
      = min (max ((c - L) - (1 + (k1 : Int))) 0) k2
      from countP_rangeFrom_lt (1 + (k1 : Int)) k2 (c - L)]
  rw [show (((rangeFrom (1 + ((k1 : Int) + (k2 : Int))) k3).countP
        fun q => decide (q < c + L)) : Int)
      = min (max ((c + L) - (1 + ((k1 : Int) + (k2 : Int)))) 0) k3
      from countP_rangeFrom_lt (1 + ((k1 : Int) + (k2 : Int))) k3 (c + L)]
  rw [show (((rangeFrom (1 + ((k1 : Int) + (k2 : Int) + (k3 : Int))) k4).countP
        fun q => decide (q < c - L)) : Int)
      = min (max ((c - L) - (1 + ((k1 : Int) + (k2 : Int) + (k3 : Int)))) 0) k4
      from countP_rangeFrom_lt (1 + ((k1 : Int) + (k2 : Int) + (k3 : Int))) k4 (c - L)]
  have e1 : (k1 : Int) = p - 1 := by omega
  have e2 : (k2 : Int) = dI + 1 := by omega
  have e3 : (k3 : Int) = T - p := by omega
  have e4 : (k4 : Int) = (ps.length : Int) - T - dI := by omega
  rw [e1, e2, e3, e4]
  rw [show (c - L) - (1 + (p - 1)) = c - L - p from by ring]
  rw [show (c + L) - (1 + ((p - 1) + (dI + 1))) = c + L - (p + dI + 1) from by ring]
  rw [show (c - L) - (1 + ((p - 1) + (dI + 1) + (T - p))) = c - L - (T + dI + 1) from by ring]

theorem rank_moveSL (ps : List Int) (p dI T L q : Int)
    (hperm : ps.Perm (rangeFrom 1 ps.length))
    (hT : 1 ≤ T) (hTp : T < p) (hd : 0 ≤ dI)
    (hpd : p + dI ≤ (ps.length : Int)) (hL : (ps.length : Int) ≤ L)
    (h1 : 1 ≤ q) (h2 : q ≤ (ps.length : Int)) :
    rankIn (ps.map (moveSL p dI T L)) (moveSL p dI T L q) = movePos p dI T q := by
  unfold rankIn
  rw [countP_moveSL ps p dI T L (moveSL p dI T L q) hperm hT hTp hd hpd hL]
  unfold moveSL movePos
  by_cases hc : q < T ∨ (p ≤ q ∧ q ≤ p + dI)
  · rw [if_pos hc]
    by_cases hb : p ≤ q ∧ q ≤ p + dI
    · rw [if_pos hb]
      omega
    · rw [if_neg hb, if_neg (by omega : ¬ (T ≤ q ∧ q < p)),
        if_neg (by omega : ¬ (p + dI < q ∧ q ≤ T + dI))]
      omega
  · rw [if_neg hc, if_neg (by omega : ¬ (p ≤ q ∧ q ≤ p + dI))]
    by_cases hm : T ≤ q ∧ q < p
    · rw [if_pos hm]
      omega
    · rw [if_neg hm, if_neg (by omega : ¬ (p + dI < q ∧ q ≤ T + dI))]
      omega

theorem mem_mapPos_inv {g : Node → Int} {db : List Node} {n : Node} (h : n ∈ mapPos g db) :
    ∃ m ∈ db, n = { m with position := g m } := by
  unfold mapPos at h
  rcases List.mem_map.1 h with ⟨m, hm, he⟩
  exact ⟨m, hm, he.symm⟩

theorem ite_decide {α : Type} (P : Prop) [Decidable P] (a b : α) :
    (if decide P then a else b) = if P then a else b := by
  by_cases h : P <;> simp [h]

theorem ite_and_not_decide {α : Type} (P1 P2 P3 : Prop) [Decidable P1] [Decidable P2]
    [Decidable P3] (a b : α) :
    (if decide P1 && !(decide P2 && decide P3) then a else b)
      = if P1 ∧ ¬(P2 ∧ P3) then a else b := by
  by_cases h1 : P1 <;> by_cases h2 : P2 <;> by_cases h3 : P3 <;> simp [h1, h2, h3]

theorem inScope_set_parent (ph lang : Nat) (n : Node) (pa : Option Nat) :
    inScope ph lang { n with parent := pa } = inScope ph lang n := rfl

theorem inScope_fields (ph lang : Nat) (n : Node) (a : Nat) (b : Option Nat) (c : Int) :
    inScope ph lang ⟨a, n.placeholder, n.language, b, c⟩ = inScope ph lang n := rfl

theorem node_ext {a b : Node} (h1 : a.id = b.id) (h2 : a.placeholder = b.placeholder)
    (h3 : a.language = b.language) (h4 : a.parent = b.parent)
    (h5 : a.position = b.position) : a = b := by
  cases a
  cases b
  simp_all

theorem mapPos_mapPos_parent {db : List Node} {x : Node} (hids : UniqueIds db) (hx : x ∈ db)
    (g1 g2 : Node → Int) :
    ∀ n ∈ mapPos g2 (mapPos g1 db), n.id = x.id → n.parent = x.parent := by
  intro n hn hid
  rcases mem_mapPos_inv hn with ⟨m, hm, rfl⟩
  rcases mem_mapPos_inv hm with ⟨k, hk, rfl⟩
  have hkx : k = x := row_eq_of_id hids hk hx hid
  rw [hkx]

theorem parent_update_eq {db1 : List Node} {x : Node} {par : Option Nat}
    (h : ∀ n ∈ db1, n.id = x.id → n.parent = x.parent) :
    (if x.parent == par then db1
     else db1.map (fun n => if n.id == x.id then { n with parent := par } else n))
    = db1.map (fun n => if n.id == x.id then { n with parent := par } else n) := by
  by_cases hpp : x.parent = par
  · rw [if_pos (by simpa using hpp)]
    symm
    have hmap : ∀ n ∈ db1, (if n.id == x.id then { n with parent := par } else n) = n := by
      intro n hn
      by_cases hid : n.id = x.id
      · rw [if_pos (by simpa using hid), ← hpp, ← h n hn hid]
      · rw [if_neg (by simpa using hid)]
    calc db1.map (fun n => if n.id == x.id then { n with parent := par } else n)
        = db1.map id := List.map_congr_left hmap
      _ = db1 := List.map_id db1
  · rw [if_neg (by simpa using hpp)]

theorem uniqueIds_mapPos {db : List Node} (h : UniqueIds db) (g : Node → Int) :
    UniqueIds (mapPos g db) := by
  unfold UniqueIds
  rw [ids_mapPos]
  exact h

theorem uniqueIds_map_parent {db : List Node} (h : UniqueIds db) (xid : Nat)
    (par : Option Nat) :
    UniqueIds (db.map (fun n => if n.id == xid then { n with parent := par } else n)) := by
  unfold UniqueIds
  rw [List.map_map]
  have hcongr : ∀ n ∈ db,
      (Node.id ∘ fun n => if n.id == xid then { n with parent := par } else n) n
        = Node.id n := by
    intro n hn
    simp only [Function.comp_def]
    by_cases hid : n.id == xid
    · rw [if_pos hid]
    · rw [if_neg hid]
  rw [List.map_congr_left hcongr]
  exact h

theorem scope_map_parent (xid : Nat) (par : Option Nat) (ph lang : Nat) (db : List Node) :
    scope (db.map (fun n => if n.id == xid then { n with parent := par } else n)) ph lang
      = (scope db ph lang).map (fun n => if n.id == xid then { n with parent := par } else n) := by
  unfold scope
  induction db with
  | nil => rfl
  | cons a t ih =>
    simp only [List.map_cons, List.filter_cons]
    have hsc : inScope ph lang (if a.id == xid then { a with parent := par } else a)
        = inScope ph lang a := by
      by_cases hid : a.id == xid
      · rw [if_pos hid]
        rfl
      · rw [if_neg hid]
    rw [hsc]
    by_cases h : inScope ph lang a
    · rw [if_pos h, if_pos h, List.map_cons, ih]
    · rw [if_neg h, if_neg h, ih]

theorem posList_map_parent (xid : Nat) (par : Option Nat) (ph lang : Nat) (db : List Node) :
    posList (db.map (fun n => if n.id == xid then { n with parent := par } else n)) ph lang
      = posList db ph lang := by
  unfold posList
  rw [scope_map_parent, List.map_map]
  refine List.map_congr_left ?_
  intro n hn
  simp only [Function.comp_def]
  by_cases hid : n.id == xid
  · rw [if_pos hid]
  · rw [if_neg hid]

theorem getElem_map_parent (l : List Node) (xid : Nat) (par : Option Nat) (i : Nat)
    (hi : i < l.length)
    (hi2 : i < (l.map (fun n => if n.id == xid then { n with parent := par } else n)).length) :
    (l.map (fun n => if n.id == xid then { n with parent := par } else n))[i]
      = (if l[i].id = xid then { l[i] with parent := par } else l[i]) := by
  rw [List.getElem_map]
  by_cases hid : l[i].id = xid
  · rw [if_pos (by simpa using hid), if_pos hid]
  · rw [if_neg (by simpa using hid), if_neg hid]

theorem posList_map_of_posFun (f : Node → Node) (gp : Int → Int) (ph lang : Nat)
    (hsc : ∀ n, inScope ph lang (f n) = inScope ph lang n) :
    ∀ db : List Node, (∀ n ∈ db, inScope ph lang n = true → (f n).position = gp n.position) →
      posList (db.map f) ph lang = (posList db ph lang).map gp := by
  intro db
  induction db with
  | nil => intro _; rfl
  | cons a t ih =>
    intro hpos
    unfold posList scope at ih ⊢
    simp only [List.map_cons, List.filter_cons, hsc a]
    by_cases h : inScope ph lang a
    · simp only [h, if_true, List.map_cons]
      rw [hpos a (List.mem_cons_self a t) h]
      rw [ih (fun n hn hs => hpos n (List.mem_cons_of_mem a hn) hs)]
    · simp only [h, if_false]
      exact ih (fun n hn hs => hpos n (List.mem_cons_of_mem a hn) hs)

theorem rank_moveSR (ps : List Int) (p dI T L q : Int)
    (hperm : ps.Perm (rangeFrom 1 ps.length))
    (hp : 1 ≤ p) (hpT : p ≤ T) (hd : 0 ≤ dI)
    (hTd : T + dI ≤ (ps.length : Int)) (hL : (ps.length : Int) ≤ L)
    (h1 : 1 ≤ q) (h2 : q ≤ (ps.length : Int)) :
    rankIn (ps.map (moveSR p dI T L)) (moveSR p dI T L q) = movePos p dI T q := by
  unfold rankIn
  rw [countP_moveSR ps p dI T L (moveSR p dI T L q) hperm hp hpT hd hTd hL]
  unfold moveSR movePos
  by_cases hc : (p ≤ q ∧ q ≤ p + dI) ∨ T + dI < q
  · rw [if_pos hc]
    by_cases hb : p ≤ q ∧ q ≤ p + dI
    · rw [if_pos hb]
      omega
    · rw [if_neg hb, if_neg (by omega : ¬ (T ≤ q ∧ q < p)),
        if_neg (by omega : ¬ (p + dI < q ∧ q ≤ T + dI))]
      omega
  · rw [if_neg hc, if_neg (by omega : ¬ (p ≤ q ∧ q ≤ p + dI))]
    by_cases hm : p + dI < q ∧ q ≤ T + dI
    · rw [if_pos hm]
      omega
    · rw [if_neg hm, if_neg (by omega : ¬ (T ≤ q ∧ q < p))]
      omega

theorem move_within_eq_map (v : Vendor) (db : List Node) (ph : Nat) (x : Node)
    (T : Int) (par : Option Nat)
    (hids : UniqueIds db) (hdense : Dense db ph x.language)
    (hx : x ∈ db) (hxs : inScope ph x.language x = true)
    (hcontig : ContigAt db ph x.language x)
    (hT1 : 1 ≤ T)
    (hTd : T + ((descIds db x.id).length : Int) ≤ ((posList db ph x.language).length : Int)) :
    move_plugin_within v db ph x T par
      = db.map (fun n =>
          { n with
            parent := if n.id = x.id then par else n.parent,
            position := if inScope ph x.language n = true
              then movePos x.position ((descIds db x.id).length : Int) T n.position
              else n.position }) := by
  have hNval : lastPos0 db ph x.language = ((posList db ph x.language).length : Int) :=
    dense_lastPos0 hdense
  have hperm : (posList db ph x.language).Perm
      (rangeFrom 1 (posList db ph x.language).length) := hdense
  have hpx := dense_mem_bounds hdense (pos_mem_posList hx hxs)
  have hpd := (subtree_block hids hdense hx hxs hcontig).1
  have hd0 : (0 : Int) ≤ ((descIds db x.id).length : Int) := Int.natCast_nonneg _
  by_cases hdir : T < x.position
  · -- leftwards move: inflate the rows from the target up, deflate block and lower rows
    have hpt1 : ∀ n ∈ db, inScope ph x.language n = true →
        (if inScope ph x.language n && decide (T ≤ n.position)
            && !(decide (x.position ≤ n.position)
              && decide (n.position ≤ x.position + ((descIds db x.id).length : Int)))
         then n.position + lastPos0 db ph x.language else n.position)
        = shiftL1 x.position ((descIds db x.id).length : Int) T ((posList db ph x.language).length : Int) n.position := by
      intro n hn hs
      simp only [hs, Bool.true_and]
      rw [ite_and_not_decide, hNval]
      rfl
    have hpt2 : ∀ n : Node, inScope ph x.language n = true →
        (if inScope ph x.language n && decide (n.position ≤ x.position + ((descIds db x.id).length : Int))
         then n.position - lastPos0 db ph x.language else n.position)
        = shiftL2 x.position ((descIds db x.id).length : Int) ((posList db ph x.language).length : Int) n.position := by
      intro n hs
      simp only [hs, Bool.true_and]
      rw [ite_decide, hNval]
      rfl
    have hps1 : posList (mapPos (fun n =>
            if inScope ph x.language n && decide (T ≤ n.position)
                && !(decide (x.position ≤ n.position)
                  && decide (n.position ≤ x.position + ((descIds db x.id).length : Int)))
            then n.position + lastPos0 db ph x.language else n.position) db) ph x.language
        = (posList db ph x.language).map (shiftL1 x.position ((descIds db x.id).length : Int) T ((posList db ph x.language).length : Int)) :=
      posList_mapPos_of_posFun _ _ db ph x.language hpt1
    have hPL : posList ((mapPos (fun n =>
            if inScope ph x.language n && decide (n.position ≤ x.position + ((descIds db x.id).length : Int))
            then n.position - lastPos0 db ph x.language else n.position) (mapPos (fun n =>
            if inScope ph x.language n && decide (T ≤ n.position)
                && !(decide (x.position ≤ n.position)
                  && decide (n.position ≤ x.position + ((descIds db x.id).length : Int)))
            then n.position + lastPos0 db ph x.language else n.position) db)).map (fun n => if n.id == x.id then { n with parent := par } else n)) ph x.language
        = (posList db ph x.language).map (moveSL x.position ((descIds db x.id).length : Int) T ((posList db ph x.language).length : Int)) := by
      rw [posList_map_parent x.id par ph x.language]
      rw [posList_mapPos_of_posFun _ _ (mapPos (fun n =>
            if inScope ph x.language n && decide (T ≤ n.position)
                && !(decide (x.position ≤ n.position)
                  && decide (n.position ≤ x.position + ((descIds db x.id).length : Int)))
            then n.position + lastPos0 db ph x.language else n.position) db) ph x.language
        (fun n _ hs => hpt2 n hs)]
      rw [hps1, List.map_map]
      refine List.map_congr_left ?_
      intro q hq
      have hqb := dense_mem_bounds hdense hq
      simp only [Function.comp_def]
      exact shiftL_comp_eq x.position ((descIds db x.id).length : Int) T ((posList db ph x.language).length : Int) q hT1 hdir hd0 hpd hqb.1 hqb.2
    have h1 : move_plugin_within v db ph x T par
        = recalculate_plugin_positions v
            ((mapPos (fun n =>
            if inScope ph x.language n && decide (n.position ≤ x.position + ((descIds db x.id).length : Int))
            then n.position - lastPos0 db ph x.language else n.position) (mapPos (fun n =>
            if inScope ph x.language n && decide (T ≤ n.position)
                && !(decide (x.position ≤ n.position)
                  && decide (n.position ≤ x.position + ((descIds db x.id).length : Int)))
            then n.position + lastPos0 db ph x.language else n.position) db)).map (fun n => if n.id == x.id then { n with parent := par } else n)) ph x.language := by
      simp only [move_plugin_within]
      rw [if_pos (show (decide (T < x.position)) = true from by simpa using hdir)]
      rw [parent_update_eq (mapPos_mapPos_parent hids hx _ _)]
    have hU3 : UniqueIds ((mapPos (fun n =>
            if inScope ph x.language n && decide (n.position ≤ x.position + ((descIds db x.id).length : Int))
            then n.position - lastPos0 db ph x.language else n.position) (mapPos (fun n =>
            if inScope ph x.language n && decide (T ≤ n.position)
                && !(decide (x.position ≤ n.position)
                  && decide (n.position ≤ x.position + ((descIds db x.id).length : Int)))
            then n.position + lastPos0 db ph x.language else n.position) db)).map (fun n => if n.id == x.id then { n with parent := par } else n)) :=
      uniqueIds_map_parent (uniqueIds_mapPos (uniqueIds_mapPos hids _) _) x.id par
    rw [h1, recalculate_eq_direct v ph x.language hU3]
    have hiBlen : ((mapPos (fun n =>
            if inScope ph x.language n && decide (n.position ≤ x.position + ((descIds db x.id).length : Int))
            then n.position - lastPos0 db ph x.language else n.position) (mapPos (fun n =>
            if inScope ph x.language n && decide (T ≤ n.position)
                && !(decide (x.position ≤ n.position)
                  && decide (n.position ≤ x.position + ((descIds db x.id).length : Int)))
            then n.position + lastPos0 db ph x.language else n.position) db)).map (fun n => if n.id == x.id then { n with parent := par } else n)).length = db.length := by
      simp only [List.length_map, length_mapPos]
    refine List.ext_getElem ?_ ?_
    · rw [length_recalculate_direct, hiBlen, List.length_map]
    · intro i h1i h2i
      have hi : i < db.length := by
        rw [List.length_map] at h2i
        exact h2i
      have hiB : i < ((mapPos (fun n =>
            if inScope ph x.language n && decide (n.position ≤ x.position + ((descIds db x.id).length : Int))
            then n.position - lastPos0 db ph x.language else n.position) (mapPos (fun n =>
            if inScope ph x.language n && decide (T ≤ n.position)
                && !(decide (x.position ≤ n.position)
                  && decide (n.position ≤ x.position + ((descIds db x.id).length : Int)))
            then n.position + lastPos0 db ph x.language else n.position) db)).map (fun n => if n.id == x.id then { n with parent := par } else n)).length := by
        rw [hiBlen]
        exact hi
      have hiM2 : i < (mapPos (fun n =>
            if inScope ph x.language n && decide (n.position ≤ x.position + ((descIds db x.id).length : Int))
            then n.position - lastPos0 db ph x.language else n.position) (mapPos (fun n =>
            if inScope ph x.language n && decide (T ≤ n.position)
                && !(decide (x.position ≤ n.position)
                  && decide (n.position ≤ x.position + ((descIds db x.id).length : Int)))
            then n.position + lastPos0 db ph x.language else n.position) db)).length := by
        simp only [length_mapPos]
        exact hi
      have hiM1 : i < (mapPos (fun n =>
            if inScope ph x.language n && decide (T ≤ n.position)
                && !(decide (x.position ≤ n.position)
                  && decide (n.position ≤ x.position + ((descIds db x.id).length : Int)))
            then n.position + lastPos0 db ph x.language else n.position) db).length := by
        simp only [length_mapPos]
        exact hi
      rw [getElem_recalculate_direct _ ph x.language i hiB
        (by rw [length_recalculate_direct]; exact hiB)]
      rw [hPL]
      rw [getElem_map_parent _ x.id par i hiM2 hiB]
      rw [getElem_mapPos _ _ i hiM1 hiM2]
      rw [getElem_mapPos _ _ i hi hiM1]
      rw [List.getElem_map]
      dsimp only
      by_cases hid : db[i].id = x.id
      · rw [if_pos hid]
        by_cases hsc : inScope ph x.language db[i] = true
        · have hqb := dense_mem_bounds hdense
            (pos_mem_posList (List.getElem_mem hi) hsc)
          have hA1 := hpt1 db[i] (List.getElem_mem hi) hsc
          rw [hA1]
          have hA2 := hpt2
            { db[i] with position := shiftL1 x.position ((descIds db x.id).length : Int) T ((posList db ph x.language).length : Int) db[i].position }
            (by rw [inScope_set_position]; exact hsc)
          dsimp only at hA2
          rw [hA2, shiftL_comp_eq x.position ((descIds db x.id).length : Int) T ((posList db ph x.language).length : Int) db[i].position hT1 hdir hd0 hpd hqb.1 hqb.2]
          dsimp only
          simp only [inScope_fields]
          rw [if_pos hid, if_pos hsc, if_pos hsc]
          rw [rank_moveSL (posList db ph x.language) x.position ((descIds db x.id).length : Int) T ((posList db ph x.language).length : Int) db[i].position
            hperm hT1 hdir hd0 hpd (le_refl _) hqb.1 hqb.2]
        · have hdx : db[i] = x := row_eq_of_id hids (List.getElem_mem hi) hx hid
          rw [hdx] at hsc
          exact absurd hxs hsc
      · rw [if_neg hid]
        by_cases hsc : inScope ph x.language db[i] = true
        · have hqb := dense_mem_bounds hdense
            (pos_mem_posList (List.getElem_mem hi) hsc)
          have hA1 := hpt1 db[i] (List.getElem_mem hi) hsc
          rw [hA1]
          have hA2 := hpt2
            { db[i] with position := shiftL1 x.position ((descIds db x.id).length : Int) T ((posList db ph x.language).length : Int) db[i].position }
            (by rw [inScope_set_position]; exact hsc)
          dsimp only at hA2
          rw [hA2, shiftL_comp_eq x.position ((descIds db x.id).length : Int) T ((posList db ph x.language).length : Int) db[i].position hT1 hdir hd0 hpd hqb.1 hqb.2]
          dsimp only
          simp only [inScope_fields]
          rw [if_neg hid, if_pos hsc, if_pos hsc]
          rw [rank_moveSL (posList db ph x.language) x.position ((descIds db x.id).length : Int) T ((posList db ph x.language).length : Int) db[i].position
            hperm hT1 hdir hd0 hpd (le_refl _) hqb.1 hqb.2]
        · have hscf : inScope ph x.language db[i] = false := by
            cases hval : inScope ph x.language db[i]
            · rfl
            · exact absurd hval hsc
          dsimp only
          simp only [inScope_fields, hscf, Bool.false_and, Bool.false_eq_true, if_false]
          rw [if_neg hid]
  · -- rightwards move
    have hpT : x.position ≤ T := by omega
    have hpt1 : ∀ n ∈ db, inScope ph x.language n = true →
        (if inScope ph x.language n && decide (n.position ≤ T + ((descIds db x.id).length : Int))
            && !(decide (x.position ≤ n.position)
              && decide (n.position ≤ x.position + ((descIds db x.id).length : Int)))
         then n.position - lastPos0 db ph x.language else n.position)
        = shiftR1 x.position ((descIds db x.id).length : Int) T ((posList db ph x.language).length : Int) n.position := by
      intro n hn hs
      simp only [hs, Bool.true_and]
      rw [ite_and_not_decide, hNval]
      rfl
    have hpt2 : ∀ n : Node, inScope ph x.language n = true →
        (if inScope ph x.language n && decide (x.position ≤ n.position)
         then n.position + lastPos0 db ph x.language else n.position)
        = shiftR2 x.position ((posList db ph x.language).length : Int) n.position := by
      intro n hs
      simp only [hs, Bool.true_and]
      rw [ite_decide, hNval]
      rfl
    have hps1 : posList (mapPos (fun n =>
            if inScope ph x.language n && decide (n.position ≤ T + ((descIds db x.id).length : Int))
                && !(decide (x.position ≤ n.position)
                  && decide (n.position ≤ x.position + ((descIds db x.id).length : Int)))
            then n.position - lastPos0 db ph x.language else n.position) db) ph x.language
        = (posList db ph x.language).map (shiftR1 x.position ((descIds db x.id).length : Int) T ((posList db ph x.language).length : Int)) :=
      posList_mapPos_of_posFun _ _ db ph x.language hpt1
    have hPL : posList ((mapPos (fun n =>
            if inScope ph x.language n && decide (x.position ≤ n.position)
            then n.position + lastPos0 db ph x.language else n.position) (mapPos (fun n =>
            if inScope ph x.language n && decide (n.position ≤ T + ((descIds db x.id).length : Int))
                && !(decide (x.position ≤ n.position)
                  && decide (n.position ≤ x.position + ((descIds db x.id).length : Int)))
            then n.position - lastPos0 db ph x.language else n.position) db)).map (fun n => if n.id == x.id then { n with parent := par } else n)) ph x.language
        = (posList db ph x.language).map (moveSR x.position ((descIds db x.id).length : Int) T ((posList db ph x.language).length : Int)) := by
      rw [posList_map_parent x.id par ph x.language]
      rw [posList_mapPos_of_posFun _ _ (mapPos (fun n =>
            if inScope ph x.language n && decide (n.position ≤ T + ((descIds db x.id).length : Int))
                && !(decide (x.position ≤ n.position)
                  && decide (n.position ≤ x.position + ((descIds db x.id).length : Int)))
            then n.position - lastPos0 db ph x.language else n.position) db) ph x.language
        (fun n _ hs => hpt2 n hs)]
      rw [hps1, List.map_map]
      refine List.map_congr_left ?_
      intro q hq
      have hqb := dense_mem_bounds hdense hq
      simp only [Function.comp_def]
      exact shiftR_comp_eq x.position ((descIds db x.id).length : Int) T ((posList db ph x.language).length : Int) q hpx.1 hpT hd0 hTd hqb.1 hqb.2
    have h1 : move_plugin_within v db ph x T par
        = recalculate_plugin_positions v
            ((mapPos (fun n =>
            if inScope ph x.language n && decide (x.position ≤ n.position)
            then n.position + lastPos0 db ph x.language else n.position) (mapPos (fun n =>
            if inScope ph x.language n && decide (n.position ≤ T + ((descIds db x.id).length : Int))
                && !(decide (x.position ≤ n.position)
                  && decide (n.position ≤ x.position + ((descIds db x.id).length : Int)))
            then n.position - lastPos0 db ph x.language else n.position) db)).map (fun n => if n.id == x.id then { n with parent := par } else n)) ph x.language := by
      simp only [move_plugin_within]
      rw [if_neg (show ¬ (decide (T < x.position)) = true from by simpa using hdir)]
      rw [parent_update_eq (mapPos_mapPos_parent hids hx _ _)]
    have hU3 : UniqueIds ((mapPos (fun n =>
            if inScope ph x.language n && decide (x.position ≤ n.position)
            then n.position + lastPos0 db ph x.language else n.position) (mapPos (fun n =>
            if inScope ph x.language n && decide (n.position ≤ T + ((descIds db x.id).length : Int))
                && !(decide (x.position ≤ n.position)
                  && decide (n.position ≤ x.position + ((descIds db x.id).length : Int)))
            then n.position - lastPos0 db ph x.language else n.position) db)).map (fun n => if n.id == x.id then { n with parent := par } else n)) :=
      uniqueIds_map_parent (uniqueIds_mapPos (uniqueIds_mapPos hids _) _) x.id par
    rw [h1, recalculate_eq_direct v ph x.language hU3]
    have hiBlen : ((mapPos (fun n =>
            if inScope ph x.language n && decide (x.position ≤ n.position)
            then n.position + lastPos0 db ph x.language else n.position) (mapPos (fun n =>
            if inScope ph x.language n && decide (n.position ≤ T + ((descIds db x.id).length : Int))
                && !(decide (x.position ≤ n.position)
                  && decide (n.position ≤ x.position + ((descIds db x.id).length : Int)))
            then n.position - lastPos0 db ph x.language else n.position) db)).map (fun n => if n.id == x.id then { n with parent := par } else n)).length = db.length := by
      simp only [List.length_map, length_mapPos]
    refine List.ext_getElem ?_ ?_
    · rw [length_recalculate_direct, hiBlen, List.length_map]
    · intro i h1i h2i
      have hi : i < db.length := by
        rw [List.length_map] at h2i
        exact h2i
      have hiB : i < ((mapPos (fun n =>
            if inScope ph x.language n && decide (x.position ≤ n.position)
            then n.position + lastPos0 db ph x.language else n.position) (mapPos (fun n =>
            if inScope ph x.language n && decide (n.position ≤ T + ((descIds db x.id).length : Int))
                && !(decide (x.position ≤ n.position)
                  && decide (n.position ≤ x.position + ((descIds db x.id).length : Int)))
            then n.position - lastPos0 db ph x.language else n.position) db)).map (fun n => if n.id == x.id then { n with parent := par } else n)).length := by
        rw [hiBlen]
        exact hi
      have hiM2 : i < (mapPos (fun n =>
            if inScope ph x.language n && decide (x.position ≤ n.position)
            then n.position + lastPos0 db ph x.language else n.position) (mapPos (fun n =>
            if inScope ph x.language n && decide (n.position ≤ T + ((descIds db x.id).length : Int))
                && !(decide (x.position ≤ n.position)
                  && decide (n.position ≤ x.position + ((descIds db x.id).length : Int)))
            then n.position - lastPos0 db ph x.language else n.position) db)).length := by
        simp only [length_mapPos]
        exact hi
      have hiM1 : i < (mapPos (fun n =>
            if inScope ph x.language n && decide (n.position ≤ T + ((descIds db x.id).length : Int))
                && !(decide (x.position ≤ n.position)
                  && decide (n.position ≤ x.position + ((descIds db x.id).length : Int)))
            then n.position - lastPos0 db ph x.language else n.position) db).length := by
        simp only [length_mapPos]
        exact hi
      rw [getElem_recalculate_direct _ ph x.language i hiB
        (by rw [length_recalculate_direct]; exact hiB)]
      rw [hPL]
      rw [getElem_map_parent _ x.id par i hiM2 hiB]
      rw [getElem_mapPos _ _ i hiM1 hiM2]
      rw [getElem_mapPos _ _ i hi hiM1]
      rw [List.getElem_map]
      dsimp only
      by_cases hid : db[i].id = x.id
      · rw [if_pos hid]
        by_cases hsc : inScope ph x.language db[i] = true
        · have hqb := dense_mem_bounds hdense
            (pos_mem_posList (List.getElem_mem hi) hsc)
          have hA1 := hpt1 db[i] (List.getElem_mem hi) hsc
          rw [hA1]
          have hA2 := hpt2
            { db[i] with position := shiftR1 x.position ((descIds db x.id).length : Int) T ((posList db ph x.language).length : Int) db[i].position }
            (by rw [inScope_set_position]; exact hsc)
          dsimp only at hA2
          rw [hA2, shiftR_comp_eq x.position ((descIds db x.id).length : Int) T ((posList db ph x.language).length : Int) db[i].position hpx.1 hpT hd0 hTd hqb.1 hqb.2]
          dsimp only
          simp only [inScope_fields]
          rw [if_pos hid, if_pos hsc, if_pos hsc]
          rw [rank_moveSR (posList db ph x.language) x.position ((descIds db x.id).length : Int) T ((posList db ph x.language).length : Int) db[i].position
            hperm hpx.1 hpT hd0 hTd (le_refl _) hqb.1 hqb.2]
        · have hdx : db[i] = x := row_eq_of_id hids (List.getElem_mem hi) hx hid
          rw [hdx] at hsc
          exact absurd hxs hsc
      · rw [if_neg hid]
        by_cases hsc : inScope ph x.language db[i] = true
        · have hqb := dense_mem_bounds hdense
            (pos_mem_posList (List.getElem_mem hi) hsc)
          have hA1 := hpt1 db[i] (List.getElem_mem hi) hsc
          rw [hA1]
          have hA2 := hpt2
            { db[i] with position := shiftR1 x.position ((descIds db x.id).length : Int) T ((posList db ph x.language).length : Int) db[i].position }
            (by rw [inScope_set_position]; exact hsc)
          dsimp only at hA2
          rw [hA2, shiftR_comp_eq x.position ((descIds db x.id).length : Int) T ((posList db ph x.language).length : Int) db[i].position hpx.1 hpT hd0 hTd hqb.1 hqb.2]
          dsimp only
          simp only [inScope_fields]
          rw [if_neg hid, if_pos hsc, if_pos hsc]
          rw [rank_moveSR (posList db ph x.language) x.position ((descIds db x.id).length : Int) T ((posList db ph x.language).length : Int) db[i].position
            hperm hpx.1 hpT hd0 hTd (le_refl _) hqb.1 hqb.2]
        · have hscf : inScope ph x.language db[i] = false := by
            cases hval : inScope ph x.language db[i]
            · rfl
            · exact absurd hval hsc
          dsimp only
          simp only [inScope_fields, hscf, Bool.false_and, Bool.false_eq_true, if_false]
          rw [if_neg hid]

theorem movePos_round (p dI T q : Int) (hd : 0 ≤ dI) :
    movePos T dI p (movePos p dI T q) = q := by
  unfold movePos
  by_cases h1 : p ≤ q ∧ q ≤ p + dI
  · rw [if_pos h1, if_pos (by omega : T ≤ q - p + T ∧ q - p + T ≤ T + dI)]
    omega
  · rw [if_neg h1]
    by_cases h2 : T ≤ q ∧ q < p
    · rw [if_pos h2, if_neg (by omega : ¬ (T ≤ q + dI + 1 ∧ q + dI + 1 ≤ T + dI)),
        if_neg (by omega : ¬ (p ≤ q + dI + 1 ∧ q + dI + 1 < T)),
        if_pos (by omega : T + dI < q + dI + 1 ∧ q + dI + 1 ≤ p + dI)]
      omega
    · rw [if_neg h2]
      by_cases h3 : p + dI < q ∧ q ≤ T + dI
      · rw [if_pos h3, if_neg (by omega : ¬ (T ≤ q - dI - 1 ∧ q - dI - 1 ≤ T + dI)),
          if_pos (by omega : p ≤ q - dI - 1 ∧ q - dI - 1 < T)]
        omega
      · rw [if_neg h3, if_neg (by omega : ¬ (T ≤ q ∧ q ≤ T + dI)),
          if_neg (by omega : ¬ (p ≤ q ∧ q < T)), if_neg (by omega : ¬ (T + dI < q ∧ q ≤ p + dI))]

theorem uniqueIds_map_of_id (db : List Node) (f : Node → Node)
    (hf : ∀ n, (f n).id = n.id) (h : UniqueIds db) : UniqueIds (db.map f) := by
  unfold UniqueIds
  rw [List.map_map]
  have hmc : List.map (Node.id ∘ f) db = List.map Node.id db :=
    List.map_congr_left (fun n _ => hf n)
  rw [hmc]
  exact h

theorem posList_move_within (v : Vendor) (db : List Node) (ph : Nat) (x : Node)
    (T : Int) (par : Option Nat)
    (hids : UniqueIds db) (hdense : Dense db ph x.language)
    (hx : x ∈ db) (hxs : inScope ph x.language x = true)
    (hcontig : ContigAt db ph x.language x)
    (hT1 : 1 ≤ T)
    (hTd : T + ((descIds db x.id).length : Int) ≤ ((posList db ph x.language).length : Int)) :
    posList (move_plugin_within v db ph x T par) ph x.language
      = (posList db ph x.language).map (movePos x.position ((descIds db x.id).length : Int) T) := by
  rw [move_within_eq_map v db ph x T par hids hdense hx hxs hcontig hT1 hTd]
  refine posList_map_of_posFun _ _ ph x.language (fun n => ?_) db ?_
  · rfl
  · intro n hn hs
    dsimp only
    rw [if_pos hs]

theorem dense_move_within (v : Vendor) (db : List Node) (ph : Nat) (x : Node)
    (T : Int) (par : Option Nat)
    (hids : UniqueIds db) (hdense : Dense db ph x.language)
    (hx : x ∈ db) (hxs : inScope ph x.language x = true)
    (hcontig : ContigAt db ph x.language x)
    (hT1 : 1 ≤ T)
    (hTd : T + ((descIds db x.id).length : Int) ≤ ((posList db ph x.language).length : Int)) :
    Dense (move_plugin_within v db ph x T par) ph x.language := by
  unfold Dense
  rw [posList_move_within v db ph x T par hids hdense hx hxs hcontig hT1 hTd]
  rw [List.length_map]
  have hperm : (posList db ph x.language).Perm (rangeFrom 1 (posList db ph x.language).length) := hdense
  have hd0 : (0 : Int) ≤ ((descIds db x.id).length : Int) := Int.natCast_nonneg _
  have hpd := (subtree_block hids hdense hx hxs hcontig).1
  by_cases hdir : T < x.position
  · have hcg : ∀ q ∈ posList db ph x.language,
        movePos x.position ((descIds db x.id).length : Int) T q
          = rankIn ((posList db ph x.language).map (moveSL x.position ((descIds db x.id).length : Int) T ((posList db ph x.language).length : Int)))
              (moveSL x.position ((descIds db x.id).length : Int) T ((posList db ph x.language).length : Int) q) := by
      intro q hq
      have hqb := dense_mem_bounds hdense hq
      exact (rank_moveSL (posList db ph x.language) x.position ((descIds db x.id).length : Int) T ((posList db ph x.language).length : Int) q
        hperm hT1 hdir hd0 hpd (le_refl _) hqb.1 hqb.2).symm
    rw [List.map_congr_left hcg]
    have hstep : (posList db ph x.language).map
          (fun q => rankIn ((posList db ph x.language).map (moveSL x.position ((descIds db x.id).length : Int) T ((posList db ph x.language).length : Int)))
            (moveSL x.position ((descIds db x.id).length : Int) T ((posList db ph x.language).length : Int) q))
        = ((posList db ph x.language).map (moveSL x.position ((descIds db x.id).length : Int) T ((posList db ph x.language).length : Int))).map
            (rankIn ((posList db ph x.language).map (moveSL x.position ((descIds db x.id).length : Int) T ((posList db ph x.language).length : Int)))) := by
      rw [List.map_map]
      rfl
    rw [hstep]
    have hp2 := ranks_perm (nodup_moveSL hperm x.position ((descIds db x.id).length : Int) T ((posList db ph x.language).length : Int) (le_refl _))
    rw [List.length_map] at hp2
    exact hp2
  · have hpT : x.position ≤ T := by omega
    have hcg : ∀ q ∈ posList db ph x.language,
        movePos x.position ((descIds db x.id).length : Int) T q
          = rankIn ((posList db ph x.language).map (moveSR x.position ((descIds db x.id).length : Int) T ((posList db ph x.language).length : Int)))
              (moveSR x.position ((descIds db x.id).length : Int) T ((posList db ph x.language).length : Int) q) := by
      intro q hq
      have hqb := dense_mem_bounds hdense hq
      have hpx := dense_mem_bounds hdense (pos_mem_posList hx hxs)
      exact (rank_moveSR (posList db ph x.language) x.position ((descIds db x.id).length : Int) T ((posList db ph x.language).length : Int) q
        hperm hpx.1 hpT hd0 hTd (le_refl _) hqb.1 hqb.2).symm
    rw [List.map_congr_left hcg]
    have hstep : (posList db ph x.language).map
          (fun q => rankIn ((posList db ph x.language).map (moveSR x.position ((descIds db x.id).length : Int) T ((posList db ph x.language).length : Int)))
            (moveSR x.position ((descIds db x.id).length : Int) T ((posList db ph x.language).length : Int) q))
        = ((posList db ph x.language).map (moveSR x.position ((descIds db x.id).length : Int) T ((posList db ph x.language).length : Int))).map
            (rankIn ((posList db ph x.language).map (moveSR x.position ((descIds db x.id).length : Int) T ((posList db ph x.language).length : Int)))) := by
      rw [List.map_map]
      rfl
    rw [hstep]
    have hp2 := ranks_perm (nodup_moveSR hperm x.position ((descIds db x.id).length : Int) T ((posList db ph x.language).length : Int) (le_refl _))
    rw [List.length_map] at hp2
    exact hp2

/-- C7: on a scope satisfying the invariants, moving node `x` (same placeholder,
same parent) to a valid position `T` and then moving it back to its original
position restores the table exactly: every node ends at its original position
with all other columns intact. -/
theorem move_plugin_round_trip (v : Vendor) (db : List Node) (ph : Nat) (x : Node)
    (T : Int)
    (hids : UniqueIds db) (hdense : Dense db ph x.language)
    (hx : x ∈ db) (hxs : inScope ph x.language x = true)
    (hcontig : ContigAt db ph x.language x)
    (hT1 : 1 ≤ T)
    (hTd : T + ((descIds db x.id).length : Int) ≤ ((posList db ph x.language).length : Int)) :
    move_plugin v (move_plugin v db ph x T none x.parent) ph
      { x with position := T } x.position none x.parent = db := by
  show move_plugin_within v (move_plugin_within v db ph x T x.parent) ph
      { x with position := T } x.position x.parent = db
  have hD := move_within_eq_map v db ph x T x.parent hids hdense hx hxs hcontig hT1 hTd
  have hpx := dense_mem_bounds hdense (pos_mem_posList hx hxs)
  have hd0 : (0 : Int) ≤ ((descIds db x.id).length : Int) := Int.natCast_nonneg _
  have hpd := (subtree_block hids hdense hx hxs hcontig).1
  have hidsD : UniqueIds (move_plugin_within v db ph x T x.parent) := by
    rw [hD]
    exact uniqueIds_map_of_id db _ (fun n => rfl) hids
  have hlenD : (move_plugin_within v db ph x T x.parent).length = db.length := by
    rw [hD]
    exact List.length_map _ _
  have hlinks : links (move_plugin_within v db ph x T x.parent) = links db := by
    rw [hD]
    unfold links
    rw [List.map_map]
    refine List.map_congr_left ?_
    intro n hn
    simp only [Function.comp_def]
    by_cases hid : n.id = x.id
    · rw [if_pos hid]
      have hnx : n = x := row_eq_of_id hids hn hx hid
      rw [hnx]
    · rw [if_neg hid]
  have hdids : descIds (move_plugin_within v db ph x T x.parent) x.id = descIds db x.id := by
    unfold descIds
    rw [hlinks, hlenD]
  have hplen := posList_move_within v db ph x T x.parent hids hdense hx hxs hcontig hT1 hTd
  have hdenseD := dense_move_within v db ph x T x.parent hids hdense hx hxs hcontig hT1 hTd
  have hxD : { x with position := T } ∈ (move_plugin_within v db ph x T x.parent) := by
    rw [hD]
    refine List.mem_map.2 ⟨x, hx, ?_⟩
    refine node_ext rfl rfl rfl ?_ ?_
    · dsimp only
      rw [if_pos rfl]
    · dsimp only
      rw [if_pos hxs]
      unfold movePos
      rw [if_pos (⟨le_refl _, by omega⟩ : x.position ≤ x.position
        ∧ x.position ≤ x.position + ((descIds db x.id).length : Int))]
      omega
  have hxsD : inScope ph x.language { x with position := T } = true := by
    rw [inScope_set_position]
    exact hxs
  have hcontigD : ContigAt (move_plugin_within v db ph x T x.parent) ph x.language { x with position := T } := by
    unfold ContigAt
    rw [hdids]
    intro n hnD
    rw [hD] at hnD
    rcases List.mem_map.1 hnD with ⟨m, hm, rfl⟩
    dsimp only
    simp only [inScope_fields]
    have hchar := hcontig m hm
    by_cases hsc : inScope ph x.language m = true
    · rw [if_pos hsc]
      have hqb := dense_mem_bounds hdense (pos_mem_posList hm hsc)
      constructor
      · intro hmem
        have hh := (hchar.1 hmem).2
        refine ⟨hsc, ?_, ?_⟩
        · unfold movePos
          rw [if_pos (by omega : x.position ≤ m.position
            ∧ m.position ≤ x.position + ((descIds db x.id).length : Int))]
          omega
        · unfold movePos
          rw [if_pos (by omega : x.position ≤ m.position
            ∧ m.position ≤ x.position + ((descIds db x.id).length : Int))]
          omega
      · rintro ⟨-, h2, h3⟩
        have hblock : x.position < m.position ∧ m.position ≤ x.position + ((descIds db x.id).length : Int) := by
          by_cases hb : x.position ≤ m.position ∧ m.position ≤ x.position + ((descIds db x.id).length : Int)
          · constructor
            · by_cases he : m.position = x.position
              · exfalso
                unfold movePos at h2
                rw [if_pos hb] at h2
                omega
              · omega
            · exact hb.2
          · exfalso
            unfold movePos at h2 h3
            rw [if_neg hb] at h2 h3
            by_cases hm2 : T ≤ m.position ∧ m.position < x.position
            · rw [if_pos hm2] at h2 h3
              omega
            · rw [if_neg hm2] at h2 h3
              by_cases hm3 : x.position + ((descIds db x.id).length : Int) < m.position
                  ∧ m.position ≤ T + ((descIds db x.id).length : Int)
              · rw [if_pos hm3] at h2 h3
                omega
              · rw [if_neg hm3] at h2 h3
                omega
        exact hchar.2 ⟨hsc, hblock.1, hblock.2⟩
    · rw [if_neg hsc]
      constructor
      · intro hmem
        exact absurd (hchar.1 hmem).1 hsc
      · rintro ⟨hs, -, -⟩
        exact absurd hs hsc
  have hAd : x.position + ((descIds (move_plugin_within v db ph x T x.parent) x.id).length : Int)
      ≤ ((posList (move_plugin_within v db ph x T x.parent) ph x.language).length : Int) := by
    rw [hdids, hplen, List.length_map]
    exact hpd
  rw [move_within_eq_map v (move_plugin_within v db ph x T x.parent) ph { x with position := T } x.position x.parent
    hidsD hdenseD hxD hxsD hcontigD hpx.1 hAd]
  rw [hdids]
  rw [hD]
  rw [List.map_map]
  refine (List.map_congr_left ?_).trans (List.map_id db)
  intro n hn
  simp only [Function.comp_def]
  refine node_ext rfl rfl rfl ?_ ?_
  · by_cases hid : n.id = x.id
    · rw [if_pos hid]
      have hnx : n = x := row_eq_of_id hids hn hx hid
      rw [hnx]
      rfl
    · rw [if_neg hid, if_neg hid]
      rfl
  · simp only [inScope_fields]
    by_cases hsc : inScope ph x.language n = true
    · rw [if_pos hsc, if_pos hsc]
      exact movePos_round x.position ((descIds db x.id).length : Int) T n.position hd0
    · rw [if_neg hsc, if_neg hsc]
      rfl

/-- Witness for the round-trip theorem: in the three-row scope with positions
[1, 2, 3], node 1 moves to position 2 and back, and the table returns exactly
to its original state. -/
theorem move_plugin_round_trip_witness :
    (UniqueIds ([⟨1, 0, 0, none, 1⟩, ⟨2, 0, 0, none, 2⟩, ⟨3, 0, 0, none, 3⟩] : List Node)
        ∧ Dense ([⟨1, 0, 0, none, 1⟩, ⟨2, 0, 0, none, 2⟩, ⟨3, 0, 0, none, 3⟩] : List Node) 0 0
        ∧ ContigAt ([⟨1, 0, 0, none, 1⟩, ⟨2, 0, 0, none, 2⟩, ⟨3, 0, 0, none, 3⟩] : List Node) 0 0 ⟨1, 0, 0, none, 1⟩)
    ∧ move_plugin Vendor.other
        (move_plugin Vendor.other ([⟨1, 0, 0, none, 1⟩, ⟨2, 0, 0, none, 2⟩, ⟨3, 0, 0, none, 3⟩] : List Node)
          0 ⟨1, 0, 0, none, 1⟩ 2 none none) 0
        ⟨1, 0, 0, none, 2⟩ 1 none none
      = ([⟨1, 0, 0, none, 1⟩, ⟨2, 0, 0, none, 2⟩, ⟨3, 0, 0, none, 3⟩] : List Node) :=
  ⟨⟨by decide, by decide, by decide⟩,
    move_plugin_round_trip Vendor.other ([⟨1, 0, 0, none, 1⟩, ⟨2, 0, 0, none, 2⟩, ⟨3, 0, 0, none, 3⟩] : List Node) 0 ⟨1, 0, 0, none, 1⟩ 2
      (by decide) (by decide) (by decide) (by decide) (by decide) (by decide)
      (by decide)⟩

theorem countP_posList (db : List Node) (ph lang : Nat) (f : Int → Bool) :
    (posList db ph lang).countP f
      = db.countP (fun n => inScope ph lang n && f n.position) := by
  unfold posList scope
  rw [List.countP_map, List.countP_filter]
  refine List.countP_congr (fun n hn => ?_)
  simp only [Function.comp_apply, Bool.and_eq_true]
  exact and_comm

theorem countP_rangeFrom_eq (a : Int) (n : Nat) (c : Int) :
    ((rangeFrom a n).countP (fun x => decide (x = c)) : Int)
      = if a ≤ c ∧ c < a + (n : Int) then 1 else 0 := by
  induction n generalizing a with
  | zero =>
    simp only [rangeFrom, List.countP_nil, Nat.cast_zero]
    rw [if_neg (by omega)]
  | succ k ih =>
    simp only [rangeFrom, List.countP_cons]
    push_cast
    rw [ih (a + 1)]
    by_cases h : a = c
    · rw [if_pos (show (decide (a = c)) = true from by simp [h])]
      rw [if_neg (by omega : ¬ (a + 1 ≤ c ∧ c < a + 1 + (k : Int)))]
      rw [if_pos (by omega : a ≤ c ∧ c < a + ((k : Int) + 1))]
      omega
    · rw [if_neg (show ¬ (decide (a = c)) = true from by simp [h])]
      by_cases hc : a + 1 ≤ c ∧ c < a + 1 + (k : Int)
      · rw [if_pos hc, if_pos (by omega : a ≤ c ∧ c < a + ((k : Int) + 1))]
        omega
      · rw [if_neg hc, if_neg (by omega : ¬ (a ≤ c ∧ c < a + ((k : Int) + 1)))]
        omega

theorem filter_fst_map_parent_irrel {s : List Nat} {rid : Nat} {pa : Option Nat}
    (hrid : rid ∈ s) :
    ∀ ls : List (Nat × Option Nat),
      ((ls.map (fun e => if e.1 == rid then (e.1, pa) else e)).filter
          (fun e => !s.contains e.1
            && (match e.2 with | some p => s.contains p | none => false))).map Prod.fst
        = (ls.filter (fun e => !s.contains e.1
            && (match e.2 with | some p => s.contains p | none => false))).map Prod.fst := by
  intro ls
  induction ls with
  | nil => rfl
  | cons e t ih =>
    simp only [List.map_cons, List.filter_cons]
    by_cases he : e.1 == rid
    · rw [if_pos he]
      have hc : s.contains e.1 = true := by
        rw [contains_iff]
        rw [show e.1 = rid from by simpa using he]
        exact hrid
      rw [show ((e.1, pa).1 : Nat) = e.1 from rfl] at *
      simp only [hc, Bool.not_true, Bool.false_and, Bool.false_eq_true, if_false]
      exact ih
    · rw [if_neg he]
      by_cases hk : (!s.contains e.1
          && (match e.2 with | some p => s.contains p | none => false)) = true
      · rw [if_pos hk, if_pos hk, List.map_cons, List.map_cons, ih]
      · rw [if_neg hk, if_neg hk, ih]

theorem descStep_parent_irrel {ls : List (Nat × Option Nat)} {s : List Nat} {rid : Nat}
    {pa : Option Nat} (hrid : rid ∈ s) :
    descStep (ls.map (fun e => if e.1 == rid then (e.1, pa) else e)) s = descStep ls s := by
  unfold descStep
  rw [filter_fst_map_parent_irrel hrid ls]

theorem descIter_parent_irrel (fuel : Nat) {ls : List (Nat × Option Nat)} {s : List Nat}
    {rid : Nat} {pa : Option Nat} (hrid : rid ∈ s) :
    descIter (ls.map (fun e => if e.1 == rid then (e.1, pa) else e)) fuel s
      = descIter ls fuel s := by
  induction fuel generalizing s with
  | zero => rfl
  | succ k ih =>
    show descIter (ls.map (fun e => if e.1 == rid then (e.1, pa) else e)) k
        (descStep (ls.map (fun e => if e.1 == rid then (e.1, pa) else e)) s)
      = descIter ls k (descStep ls s)
    rw [descStep_parent_irrel hrid]
    exact ih (List.mem_append_left _ hrid)

theorem links_mapPos (g : Node → Int) (db : List Node) : links (mapPos g db) = links db := by
  unfold links mapPos
  rw [List.map_map]
  rfl

theorem descIds_mapPos (g : Node → Int) (db : List Node) (root : Nat) :
    descIds (mapPos g db) root = descIds db root := by
  unfold descIds
  rw [links_mapPos, length_mapPos]

theorem descIds_shift (db : List Node) (ph lang : Nat) (start off : Int) (root : Nat) :
    descIds (shift_plugin_positions db ph lang start off) root = descIds db root := by
  unfold shift_plugin_positions
  rw [descIds_mapPos]

theorem links_map_row_parent (db : List Node) (xid : Nat) (tpar : Option Nat) (tph : Nat) :
    links (db.map (fun n =>
        if n.id == xid then { n with parent := tpar, placeholder := tph } else n))
      = (links db).map (fun e => if e.1 == xid then (e.1, tpar) else e) := by
  unfold links
  rw [List.map_map, List.map_map]
  refine List.map_congr_left ?_
  intro n hn
  simp only [Function.comp_def]
  by_cases hid : n.id == xid
  · rw [if_pos hid, if_pos hid]
  · rw [if_neg hid, if_neg hid]

theorem descIds_row_update (db : List Node) (xid : Nat) (tpar : Option Nat) (tph : Nat) :
    descIds (db.map (fun n =>
        if n.id == xid then { n with parent := tpar, placeholder := tph } else n)) xid
      = descIds db xid := by
  unfold descIds
  rw [links_map_row_parent, List.length_map,
    descIter_parent_irrel _ (List.mem_cons_self xid [])]

theorem cross_stage_eq_map (db : List Node) (ph tph : Nat) (x : Node)
    (T S2 TO2 : Int) (tpar : Option Nat) (hne : tph ≠ ph) :
    (((shift_plugin_positions (shift_plugin_positions db tph x.language T TO2)
          ph x.language x.position S2).map
        (fun n => if n.id == x.id then { n with parent := tpar, placeholder := tph } else n)).map
      (fun n => if n.id != x.id
          && (descIds (((shift_plugin_positions (shift_plugin_positions db tph x.language T TO2)
          ph x.language x.position S2).map
              (fun n => if n.id == x.id then { n with parent := tpar, placeholder := tph } else n))) x.id).contains n.id
        then { n with placeholder := tph } else n))
      = db.map (fun n =>
          { n with
            placeholder := if n.id = x.id ∨ n.id ∈ descIds db x.id then tph
              else n.placeholder,
            parent := if n.id = x.id then tpar else n.parent,
            position :=
              if inScope ph x.language n && decide (x.position ≤ n.position)
              then n.position + S2
              else if inScope tph x.language n && decide (T ≤ n.position)
              then n.position + TO2
              else n.position }) := by
  rw [descIds_row_update, descIds_shift, descIds_shift]
  unfold shift_plugin_positions mapPos
  rw [List.map_map, List.map_map, List.map_map]
  refine List.map_congr_left ?_
  intro n hn
  simp only [Function.comp_def]
  simp only [inScope_set_position]
  have hpos : (if
        (inScope ph x.language n
          && decide (x.position ≤
            (if inScope tph x.language n && decide (T ≤ n.position)
             then n.position + TO2 else n.position))) = true
      then (if inScope tph x.language n && decide (T ≤ n.position)
             then n.position + TO2 else n.position) + S2
      else (if inScope tph x.language n && decide (T ≤ n.position)
             then n.position + TO2 else n.position))
      = (if inScope ph x.language n && decide (x.position ≤ n.position)
         then n.position + S2
         else if inScope tph x.language n && decide (T ≤ n.position)
         then n.position + TO2
         else n.position) := by
    by_cases hsp : inScope ph x.language n = true
    · have hst : inScope tph x.language n = false := by
        simp only [inScope, Bool.and_eq_true, beq_iff_eq] at hsp
        have hnp : n.placeholder ≠ tph := by omega
        simp [inScope, hnp]
      simp only [hsp, hst, Bool.true_and, Bool.false_and, Bool.false_eq_true, if_false]
    · have hspf : inScope ph x.language n = false := by
        cases hv : inScope ph x.language n
        · rfl
        · exact absurd hv hsp
      simp only [hspf, Bool.false_and, Bool.false_eq_true, if_false]
  by_cases hid : (n.id == x.id) = true
  · have hidp : n.id = x.id := by simpa using hid
    rw [if_pos hid]
    have hbne : (n.id != x.id) = false := by simp [hidp]
    simp only [hbne, Bool.false_and, Bool.false_eq_true, if_false]
    refine node_ext rfl ?_ rfl ?_ ?_
    · dsimp only
      rw [if_pos (Or.inl hidp)]
    · dsimp only
      rw [if_pos hidp]
    · dsimp only
      exact hpos
  · have hidp : ¬ n.id = x.id := by simpa using hid
    rw [if_neg hid]
    have hbne : (n.id != x.id) = true := by simpa using hidp
    simp only [hbne, Bool.true_and]
    by_cases hdsc : ((descIds db x.id).contains n.id) = true
    · rw [if_pos hdsc]
      refine node_ext rfl ?_ rfl ?_ ?_
      · dsimp only
        rw [if_pos (Or.inr (contains_iff.1 hdsc))]
      · dsimp only
        rw [if_neg hidp]
      · dsimp only
        exact hpos
    · rw [if_neg hdsc]
      refine node_ext rfl ?_ rfl ?_ ?_
      · dsimp only
        rw [if_neg (show ¬ (n.id = x.id ∨ n.id ∈ descIds db x.id) from
          fun h => h.elim hidp (fun hm => hdsc (contains_iff.2 hm)))]
      · dsimp only
        rw [if_neg hidp]
      · dsimp only
        exact hpos

theorem inScope_disjoint {ph tph lang : Nat} (hne : tph ≠ ph) {n : Node}
    (h : inScope ph lang n = true) : inScope tph lang n = false := by
  simp only [inScope, Bool.and_eq_true, beq_iff_eq] at h
  have hnp : n.placeholder ≠ tph := by omega
  simp [inScope, hnp]

theorem cross_source_count (db : List Node) (ph tph : Nat) (x : Node)
    (T S2 TO2 : Int) (tpar : Option Nat) (φ : Int → Bool)
    (hne : tph ≠ ph)
    (hchar : ∀ n ∈ scope db ph x.language,
        ((n.id = x.id ∨ n.id ∈ descIds db x.id)
          ↔ (x.position ≤ n.position
              ∧ n.position ≤ x.position + ((descIds db x.id).length : Int)))) :
    (posList (db.map (fun n =>
          { n with
            placeholder := if n.id = x.id ∨ n.id ∈ descIds db x.id then tph
              else n.placeholder,
            parent := if n.id = x.id then tpar else n.parent,
            position :=
              if inScope ph x.language n && decide (x.position ≤ n.position)
              then n.position + S2
              else if inScope tph x.language n && decide (T ≤ n.position)
              then n.position + TO2
              else n.position })) ph x.language).countP φ
      = (posList db ph x.language).countP
          (fun q => if q < x.position then φ q
                    else if x.position + ((descIds db x.id).length : Int) < q
                    then φ (q + S2) else false) := by
  rw [countP_posList, countP_posList, List.countP_map]
  refine List.countP_congr (fun n hn => ?_)
  simp only [Function.comp_def]
  conv_lhs => rw [Bool.and_eq_true]
  conv_rhs => rw [Bool.and_eq_true]
  by_cases hsub : n.id = x.id ∨ n.id ∈ descIds db x.id
  · constructor
    · rintro ⟨h1, -⟩
      exfalso
      simp only [inScope, Bool.and_eq_true, beq_iff_eq] at h1
      rw [if_pos hsub] at h1
      exact hne h1.1
    · rintro ⟨h1, h2⟩
      exfalso
      have hblk := (hchar n (mem_scope_of_mem hn h1)).1 hsub
      rw [if_neg (by omega : ¬ n.position < x.position),
        if_neg (by omega : ¬ x.position + ((descIds db x.id).length : Int) < n.position)] at h2
      exact Bool.false_ne_true h2
  · constructor
    · rintro ⟨h1, h2⟩
      have h1' : inScope ph x.language n = true := by
        simp only [inScope, Bool.and_eq_true, beq_iff_eq] at h1 ⊢
        rw [if_neg hsub] at h1
        exact h1
      have hst : inScope tph x.language n = false := inScope_disjoint hne h1'
      refine ⟨h1', ?_⟩
      by_cases hpq : x.position ≤ n.position
      · have hq2 : x.position + ((descIds db x.id).length : Int) < n.position := by
          by_contra hcon
          exact hsub ((hchar n (mem_scope_of_mem hn h1')).2 ⟨hpq, by omega⟩)
        rw [if_neg (by omega : ¬ n.position < x.position), if_pos hq2]
        have hcond : (inScope ph x.language n
            && decide (x.position ≤ n.position)) = true := by
          rw [h1', decide_eq_true hpq]
          rfl
        rw [if_pos hcond] at h2
        exact h2
      · have hcond1 : (inScope ph x.language n
            && decide (x.position ≤ n.position)) = false := by
          rw [decide_eq_false hpq, Bool.and_false]
        have hcond2 : (inScope tph x.language n
            && decide (T ≤ n.position)) = false := by
          rw [hst, Bool.false_and]
        rw [if_neg (by simp [hcond1]), if_neg (by simp [hcond2])] at h2
        rw [if_pos (by omega : n.position < x.position)]
        exact h2
    · rintro ⟨h1, h2⟩
      have hst : inScope tph x.language n = false := inScope_disjoint hne h1
      refine ⟨?_, ?_⟩
      · simp only [inScope, Bool.and_eq_true, beq_iff_eq] at h1 ⊢
        rw [if_neg hsub]
        exact h1
      · by_cases hq1 : n.position < x.position
        · rw [if_pos hq1] at h2
          have hcond1 : (inScope ph x.language n
              && decide (x.position ≤ n.position)) = false := by
            rw [decide_eq_false (by omega : ¬ x.position ≤ n.position), Bool.and_false]
          have hcond2 : (inScope tph x.language n
              && decide (T ≤ n.position)) = false := by
            rw [hst, Bool.false_and]
          rw [if_neg (by simp [hcond1]), if_neg (by simp [hcond2])]
          exact h2
        · by_cases hq2 : x.position + ((descIds db x.id).length : Int) < n.position
          · rw [if_neg hq1, if_pos hq2] at h2
            have hcond : (inScope ph x.language n
                && decide (x.position ≤ n.position)) = true := by
              rw [h1, decide_eq_true (by omega : x.position ≤ n.position)]
              rfl
            rw [if_pos hcond]
            exact h2
          · rw [if_neg hq1, if_neg hq2] at h2
            exact absurd h2 (by simp)

theorem cross_target_count (db : List Node) (ph tph : Nat) (x : Node)
    (T S2 TO2 : Int) (tpar : Option Nat) (φ : Int → Bool)
    (hne : tph ≠ ph) (hids : UniqueIds db)
    (hx : x ∈ db) (hxs : inScope ph x.language x = true)
    (hcontig : ContigAt db ph x.language x)
    (hchar : ∀ n ∈ scope db ph x.language,
        ((n.id = x.id ∨ n.id ∈ descIds db x.id)
          ↔ (x.position ≤ n.position
              ∧ n.position ≤ x.position + ((descIds db x.id).length : Int)))) :
    (posList (db.map (fun n =>
          { n with
            placeholder := if n.id = x.id ∨ n.id ∈ descIds db x.id then tph
              else n.placeholder,
            parent := if n.id = x.id then tpar else n.parent,
            position :=
              if inScope ph x.language n && decide (x.position ≤ n.position)
              then n.position + S2
              else if inScope tph x.language n && decide (T ≤ n.position)
              then n.position + TO2
              else n.position })) tph x.language).countP φ
      = (posList db tph x.language).countP
          (fun q => if T ≤ q then φ (q + TO2) else φ q)
        + (posList db ph x.language).countP
          (fun q => if x.position ≤ q ∧ q ≤ x.position + ((descIds db x.id).length : Int)
                    then φ (q + S2) else false) := by
  rw [countP_posList, countP_posList, countP_posList, List.countP_map]
  rw [← countP_or_split db _ _ ?hdisj]
  case hdisj =>
    intro n hn
    rintro ⟨hA, hB⟩
    rw [Bool.and_eq_true] at hA hB
    rw [inScope_disjoint hne hB.1] at hA
    exact Bool.false_ne_true hA.1
  refine List.countP_congr (fun n hn => ?_)
  simp only [Function.comp_def]
  conv_lhs => rw [Bool.and_eq_true]
  conv_rhs => rw [Bool.or_eq_true, Bool.and_eq_true, Bool.and_eq_true]
  by_cases hsub : n.id = x.id ∨ n.id ∈ descIds db x.id
  · have hsrc : inScope ph x.language n = true := by
      rcases hsub with hid | hdsc
      · have hnx : n = x := row_eq_of_id hids hn hx hid
        rw [hnx]
        exact hxs
      · exact ((hcontig n hn).1 hdsc).1
    have hst : inScope tph x.language n = false := inScope_disjoint hne hsrc
    have hblk := (hchar n (mem_scope_of_mem hn hsrc)).1 hsub
    have hlang : n.language = x.language := by
      simp only [inScope, Bool.and_eq_true, beq_iff_eq] at hsrc
      exact hsrc.2
    have hcond : (inScope ph x.language n
        && decide (x.position ≤ n.position)) = true := by
      rw [hsrc, decide_eq_true hblk.1]
      rfl
    constructor
    · rintro ⟨-, h2⟩
      right
      refine ⟨hsrc, ?_⟩
      rw [if_pos hblk]
      rw [if_pos hcond] at h2
      exact h2
    · rintro (⟨h1, -⟩ | ⟨-, h2⟩)
      · rw [hst] at h1
        exact absurd h1 (by simp)
      · rw [if_pos hblk] at h2
        refine ⟨?_, ?_⟩
        · simp only [inScope, Bool.and_eq_true, beq_iff_eq]
          rw [if_pos hsub]
          exact ⟨rfl, hlang⟩
        · rw [if_pos hcond]
          exact h2
  · by_cases htg : inScope tph x.language n = true
    · have hsrcf : inScope ph x.language n = false := by
        cases hvv : inScope ph x.language n
        · rfl
        · rw [inScope_disjoint (fun h => hne h.symm) htg] at hvv
          exact absurd hvv (by simp)
      have hcond1 : (inScope ph x.language n
          && decide (x.position ≤ n.position)) = false := by
        rw [hsrcf, Bool.false_and]
      constructor
      · rintro ⟨-, h2⟩
        left
        refine ⟨htg, ?_⟩
        rw [if_neg (by simp [hcond1])] at h2
        by_cases hTq : T ≤ n.position
        · have hcond2 : (inScope tph x.language n
              && decide (T ≤ n.position)) = true := by
            rw [htg, decide_eq_true hTq]
            rfl
          rw [if_pos hcond2] at h2
          rw [if_pos hTq]
          exact h2
        · have hcond2 : (inScope tph x.language n
              && decide (T ≤ n.position)) = false := by
            rw [decide_eq_false hTq, Bool.and_false]
          rw [if_neg (by simp [hcond2])] at h2
          rw [if_neg hTq]
          exact h2
      · rintro (⟨-, h2⟩ | ⟨h1, -⟩)
        · refine ⟨?_, ?_⟩
          · simp only [inScope, Bool.and_eq_true, beq_iff_eq] at htg ⊢
            rw [if_neg hsub]
            exact htg
          · rw [if_neg (by simp [hcond1])]
            by_cases hTq : T ≤ n.position
            · have hcond2 : (inScope tph x.language n
                  && decide (T ≤ n.position)) = true := by
                rw [htg, decide_eq_true hTq]
                rfl
              rw [if_pos hcond2]
              rw [if_pos hTq] at h2
              exact h2
            · have hcond2 : (inScope tph x.language n
                  && decide (T ≤ n.position)) = false := by
                rw [decide_eq_false hTq, Bool.and_false]
              rw [if_neg (by simp [hcond2])]
              rw [if_neg hTq] at h2
              exact h2
        · rw [hsrcf] at h1
          exact absurd h1 (by simp)
    · constructor
      · rintro ⟨h1, -⟩
        refine absurd ?_ htg
        simp only [inScope, Bool.and_eq_true, beq_iff_eq] at h1 ⊢
        rw [if_neg hsub] at h1
        exact h1
      · rintro (⟨h1, -⟩ | ⟨h1, h2⟩)
        · exact absurd h1 htg
        · exfalso
          by_cases hb : x.position ≤ n.position
              ∧ n.position ≤ x.position + ((descIds db x.id).length : Int)
          · exact hsub ((hchar n (mem_scope_of_mem hn h1)).2 hb)
          · rw [if_neg hb] at h2
            exact Bool.false_ne_true h2

theorem countP_src_lt (ps : List Int) (p D S2 c : Int)
    (hperm : ps.Perm (rangeFrom 1 ps.length))
    (hp : 1 ≤ p) (hd : 0 ≤ D) (hpd : p + D ≤ (ps.length : Int)) :
    ((ps.countP (fun q => if q < p then decide (q < c)
        else if p + D < q then decide (q + S2 < c) else false)) : Int)
      = min (max (c - 1) 0) (p - 1)
        + min (max (c - S2 - (p + D + 1)) 0) ((ps.length : Int) - p - D) := by
  rw [hperm.countP_eq]
  set k1 := (p - 1).toNat with hk1
  set k2 := (D + 1).toNat with hk2
  set k3 := ((ps.length : Int) - p - D).toNat with hk3
  have hsplit : rangeFrom 1 ps.length
      = (rangeFrom 1 k1 ++ rangeFrom (1 + (k1 : Int)) k2)
        ++ rangeFrom (1 + ((k1 + k2 : Nat) : Int)) k3 := by
    have h1 : rangeFrom 1 k1 ++ rangeFrom (1 + (k1 : Int)) k2 = rangeFrom 1 (k1 + k2) :=
      rangeFrom_append 1 k1 k2
    have h2 : rangeFrom 1 (k1 + k2) ++ rangeFrom (1 + ((k1 + k2 : Nat) : Int)) k3
        = rangeFrom 1 ((k1 + k2) + k3) := rangeFrom_append 1 (k1 + k2) k3
    rw [h1, h2]
    congr 1
    omega
  rw [hsplit, List.countP_append, List.countP_append]
  have hseg1 : (rangeFrom 1 k1).countP
        (fun q => if q < p then decide (q < c)
          else if p + D < q then decide (q + S2 < c) else false)
      = (rangeFrom 1 k1).countP (fun q => decide (q < c)) := by
    refine List.countP_congr (fun y hy => ?_)
    have hb := mem_rangeFrom.1 hy
    rw [if_pos (by omega : y < p)]
  have hseg2 : (rangeFrom (1 + (k1 : Int)) k2).countP
        (fun q => if q < p then decide (q < c)
          else if p + D < q then decide (q + S2 < c) else false) = 0 := by
    rw [List.countP_eq_zero]
    intro y hy
    have hb := mem_rangeFrom.1 hy
    rw [if_neg (by omega : ¬ y < p), if_neg (by omega : ¬ p + D < y)]
    simp
  have hseg3 : (rangeFrom (1 + ((k1 + k2 : Nat) : Int)) k3).countP
        (fun q => if q < p then decide (q < c)
          else if p + D < q then decide (q + S2 < c) else false)
      = (rangeFrom (1 + ((k1 + k2 : Nat) : Int)) k3).countP
          (fun q => decide (q < c - S2)) := by
    refine List.countP_congr (fun y hy => ?_)
    have hb := mem_rangeFrom.1 hy
    have hbk : 1 + ((k1 : Int) + (k2 : Int)) ≤ y := by
      have := hb.1
      push_cast at this
      omega
    rw [if_neg (by omega : ¬ y < p), if_pos (by omega : p + D < y)]
    simp only [decide_eq_true_eq]
    omega
  rw [hseg1, hseg2, hseg3]
  push_cast
  rw [show (((rangeFrom 1 k1).countP fun q => decide (q < c)) : Int)
      = min (max (c - 1) 0) k1 from countP_rangeFrom_lt 1 k1 c]
  rw [show (((rangeFrom (1 + ((k1 : Int) + (k2 : Int))) k3).countP
        fun q => decide (q < c - S2)) : Int)
      = min (max ((c - S2) - (1 + ((k1 : Int) + (k2 : Int)))) 0) k3
      from countP_rangeFrom_lt (1 + ((k1 : Int) + (k2 : Int))) k3 (c - S2)]
  have e1 : (k1 : Int) = p - 1 := by omega
  have e2 : (k2 : Int) = D + 1 := by omega
  have e3 : (k3 : Int) = (ps.length : Int) - p - D := by omega
  rw [e1, e2, e3]
  rw [show (c - S2) - (1 + ((p - 1) + (D + 1))) = c - S2 - (p + D + 1) from by ring]
  omega

theorem countP_blk_lt (ps : List Int) (p D S2 c : Int)
    (hperm : ps.Perm (rangeFrom 1 ps.length))
    (hp : 1 ≤ p) (hd : 0 ≤ D) (hpd : p + D ≤ (ps.length : Int)) :
    ((ps.countP (fun q => if p ≤ q ∧ q ≤ p + D then decide (q + S2 < c) else false)) : Int)
      = min (max (c - S2 - p) 0) (D + 1) := by
  rw [hperm.countP_eq]
  set k1 := (p - 1).toNat with hk1
  set k2 := (D + 1).toNat with hk2
  set k3 := ((ps.length : Int) - p - D).toNat with hk3
  have hsplit : rangeFrom 1 ps.length
      = (rangeFrom 1 k1 ++ rangeFrom (1 + (k1 : Int)) k2)
        ++ rangeFrom (1 + ((k1 + k2 : Nat) : Int)) k3 := by
    have h1 : rangeFrom 1 k1 ++ rangeFrom (1 + (k1 : Int)) k2 = rangeFrom 1 (k1 + k2) :=
      rangeFrom_append 1 k1 k2
    have h2 : rangeFrom 1 (k1 + k2) ++ rangeFrom (1 + ((k1 + k2 : Nat) : Int)) k3
        = rangeFrom 1 ((k1 + k2) + k3) := rangeFrom_append 1 (k1 + k2) k3
    rw [h1, h2]
    congr 1
    omega
  rw [hsplit, List.countP_append, List.countP_append]
  have hseg1 : (rangeFrom 1 k1).countP
        (fun q => if p ≤ q ∧ q ≤ p + D then decide (q + S2 < c) else false) = 0 := by
    rw [List.countP_eq_zero]
    intro y hy
    have hb := mem_rangeFrom.1 hy
    rw [if_neg (by omega : ¬ (p ≤ y ∧ y ≤ p + D))]
    simp
  have hseg2 : (rangeFrom (1 + (k1 : Int)) k2).countP
        (fun q => if p ≤ q ∧ q ≤ p + D then decide (q + S2 < c) else false)
      = (rangeFrom (1 + (k1 : Int)) k2).countP (fun q => decide (q < c - S2)) := by
    refine List.countP_congr (fun y hy => ?_)
    have hb := mem_rangeFrom.1 hy
    rw [if_pos (by omega : p ≤ y ∧ y ≤ p + D)]
    simp only [decide_eq_true_eq]
    omega
  have hseg3 : (rangeFrom (1 + ((k1 + k2 : Nat) : Int)) k3).countP
        (fun q => if p ≤ q ∧ q ≤ p + D then decide (q + S2 < c) else false) = 0 := by
    rw [List.countP_eq_zero]
    intro y hy
    have hb := mem_rangeFrom.1 hy
    have hbk : 1 + ((k1 : Int) + (k2 : Int)) ≤ y := by
      have := hb.1
      push_cast at this
      omega
    rw [if_neg (by omega : ¬ (p ≤ y ∧ y ≤ p + D))]
    simp
  rw [hseg1, hseg2, hseg3]
  push_cast
  rw [show (((rangeFrom (1 + (k1 : Int)) k2).countP
        fun q => decide (q < c - S2)) : Int)
      = min (max ((c - S2) - (1 + (k1 : Int))) 0) k2
      from countP_rangeFrom_lt (1 + (k1 : Int)) k2 (c - S2)]
  have e1 : (k1 : Int) = p - 1 := by omega
  have e2 : (k2 : Int) = D + 1 := by omega
  rw [e1, e2]
  rw [show (c - S2) - (1 + (p - 1)) = c - S2 - p from by ring]
  omega

theorem countP_tgt_lt (ps : List Int) (T TO2 c : Int)
    (hperm : ps.Perm (rangeFrom 1 ps.length))
    (hT1 : 1 ≤ T) (hT2 : T ≤ (ps.length : Int) + 1) :
    ((ps.countP (fun q => if T ≤ q then decide (q + TO2 < c) else decide (q < c))) : Int)
      = min (max (c - 1) 0) (T - 1)
        + min (max (c - TO2 - T) 0) ((ps.length : Int) - T + 1) := by
  rw [hperm.countP_eq]
  set k1 := (T - 1).toNat with hk1
  set k2 := ((ps.length : Int) - T + 1).toNat with hk2
  have hsplit : rangeFrom 1 ps.length
      = rangeFrom 1 k1 ++ rangeFrom (1 + (k1 : Int)) k2 := by
    rw [rangeFrom_append]
    congr 1
    omega
  rw [hsplit, List.countP_append]
  have hseg1 : (rangeFrom 1 k1).countP
        (fun q => if T ≤ q then decide (q + TO2 < c) else decide (q < c))
      = (rangeFrom 1 k1).countP (fun q => decide (q < c)) := by
    refine List.countP_congr (fun y hy => ?_)
    have hb := mem_rangeFrom.1 hy
    rw [if_neg (by omega : ¬ T ≤ y)]
  have hseg2 : (rangeFrom (1 + (k1 : Int)) k2).countP
        (fun q => if T ≤ q then decide (q + TO2 < c) else decide (q < c))
      = (rangeFrom (1 + (k1 : Int)) k2).countP (fun q => decide (q < c - TO2)) := by
    refine List.countP_congr (fun y hy => ?_)
    have hb := mem_rangeFrom.1 hy
    rw [if_pos (by omega : T ≤ y)]
    simp only [decide_eq_true_eq]
    omega
  rw [hseg1, hseg2]
  push_cast
  rw [show (((rangeFrom 1 k1).countP fun q => decide (q < c)) : Int)
      = min (max (c - 1) 0) k1 from countP_rangeFrom_lt 1 k1 c]
  rw [show (((rangeFrom (1 + (k1 : Int)) k2).countP
        fun q => decide (q < c - TO2)) : Int)
      = min (max ((c - TO2) - (1 + (k1 : Int))) 0) k2
      from countP_rangeFrom_lt (1 + (k1 : Int)) k2 (c - TO2)]
  have e1 : (k1 : Int) = T - 1 := by omega
  have e2 : (k2 : Int) = (ps.length : Int) - T + 1 := by omega
  rw [e1, e2]
  rw [show (c - TO2) - (1 + (T - 1)) = c - TO2 - T from by ring]

theorem countP_src_eq (ps : List Int) (p D S2 c : Int)
    (hperm : ps.Perm (rangeFrom 1 ps.length))
    (hp : 1 ≤ p) (hd : 0 ≤ D) (hpd : p + D ≤ (ps.length : Int)) :
    ((ps.countP (fun q => if q < p then decide (q = c)
        else if p + D < q then decide (q + S2 = c) else false)) : Int)
      = (if 1 ≤ c ∧ c ≤ p - 1 then 1 else 0)
        + (if p + D + 1 + S2 ≤ c ∧ c ≤ (ps.length : Int) + S2 then 1 else 0) := by
  rw [hperm.countP_eq]
  set k1 := (p - 1).toNat with hk1
  set k2 := (D + 1).toNat with hk2
  set k3 := ((ps.length : Int) - p - D).toNat with hk3
  have hsplit : rangeFrom 1 ps.length
      = (rangeFrom 1 k1 ++ rangeFrom (1 + (k1 : Int)) k2)
        ++ rangeFrom (1 + ((k1 + k2 : Nat) : Int)) k3 := by
    have h1 : rangeFrom 1 k1 ++ rangeFrom (1 + (k1 : Int)) k2 = rangeFrom 1 (k1 + k2) :=
      rangeFrom_append 1 k1 k2
    have h2 : rangeFrom 1 (k1 + k2) ++ rangeFrom (1 + ((k1 + k2 : Nat) : Int)) k3
        = rangeFrom 1 ((k1 + k2) + k3) := rangeFrom_append 1 (k1 + k2) k3
    rw [h1, h2]
    congr 1
    omega
  rw [hsplit, List.countP_append, List.countP_append]
  have hseg1 : (rangeFrom 1 k1).countP
        (fun q => if q < p then decide (q = c)
          else if p + D < q then decide (q + S2 = c) else false)
      = (rangeFrom 1 k1).countP (fun q => decide (q = c)) := by
    refine List.countP_congr (fun y hy => ?_)
    have hb := mem_rangeFrom.1 hy
    rw [if_pos (by omega : y < p)]
  have hseg2 : (rangeFrom (1 + (k1 : Int)) k2).countP
        (fun q => if q < p then decide (q = c)
          else if p + D < q then decide (q + S2 = c) else false) = 0 := by
    rw [List.countP_eq_zero]
    intro y hy
    have hb := mem_rangeFrom.1 hy
    rw [if_neg (by omega : ¬ y < p), if_neg (by omega : ¬ p + D < y)]
    simp
  have hseg3 : (rangeFrom (1 + ((k1 + k2 : Nat) : Int)) k3).countP
        (fun q => if q < p then decide (q = c)
          else if p + D < q then decide (q + S2 = c) else false)
      = (rangeFrom (1 + ((k1 + k2 : Nat) : Int)) k3).countP
          (fun q => decide (q = c - S2)) := by
    refine List.countP_congr (fun y hy => ?_)
    have hb := mem_rangeFrom.1 hy
    have hbk : 1 + ((k1 : Int) + (k2 : Int)) ≤ y := by
      have := hb.1
      push_cast at this
      omega
    rw [if_neg (by omega : ¬ y < p), if_pos (by omega : p + D < y)]
    simp only [decide_eq_true_eq]
    omega
  rw [hseg1, hseg2, hseg3]
  push_cast
  rw [countP_rangeFrom_eq 1 k1 c]
  rw [countP_rangeFrom_eq (1 + ((k1 : Int) + (k2 : Int))) k3 (c - S2)]
  have e1 : (k1 : Int) = p - 1 := by omega
  have e2 : (k2 : Int) = D + 1 := by omega
  have e3 : (k3 : Int) = (ps.length : Int) - p - D := by omega
  rw [e1, e2, e3]
  by_cases hc1 : 1 ≤ c ∧ c ≤ p - 1
  · rw [if_pos (by omega : (1 : Int) ≤ c ∧ c < 1 + (p - 1)), if_pos hc1]
    by_cases hc2 : p + D + 1 + S2 ≤ c ∧ c ≤ (ps.length : Int) + S2
    · rw [if_pos (by omega : 1 + ((p - 1) + (D + 1)) ≤ c - S2
          ∧ c - S2 < 1 + ((p - 1) + (D + 1)) + ((ps.length : Int) - p - D)),
        if_pos hc2]
      omega
    · rw [if_neg (by omega : ¬ (1 + ((p - 1) + (D + 1)) ≤ c - S2
          ∧ c - S2 < 1 + ((p - 1) + (D + 1)) + ((ps.length : Int) - p - D))),
        if_neg hc2]
      omega
  · rw [if_neg (by omega : ¬ ((1 : Int) ≤ c ∧ c < 1 + (p - 1))), if_neg hc1]
    by_cases hc2 : p + D + 1 + S2 ≤ c ∧ c ≤ (ps.length : Int) + S2
    · rw [if_pos (by omega : 1 + ((p - 1) + (D + 1)) ≤ c - S2
          ∧ c - S2 < 1 + ((p - 1) + (D + 1)) + ((ps.length : Int) - p - D)),
        if_pos hc2]
      omega
    · rw [if_neg (by omega : ¬ (1 + ((p - 1) + (D + 1)) ≤ c - S2
          ∧ c - S2 < 1 + ((p - 1) + (D + 1)) + ((ps.length : Int) - p - D))),
        if_neg hc2]
      omega

theorem countP_blk_eq (ps : List Int) (p D S2 c : Int)
    (hperm : ps.Perm (rangeFrom 1 ps.length))
    (hp : 1 ≤ p) (hd : 0 ≤ D) (hpd : p + D ≤ (ps.length : Int)) :
    ((ps.countP (fun q => if p ≤ q ∧ q ≤ p + D then decide (q + S2 = c) else false)) : Int)
      = (if p + S2 ≤ c ∧ c ≤ p + D + S2 then 1 else 0) := by
  rw [hperm.countP_eq]
  set k1 := (p - 1).toNat with hk1
  set k2 := (D + 1).toNat with hk2
  set k3 := ((ps.length : Int) - p - D).toNat with hk3
  have hsplit : rangeFrom 1 ps.length
      = (rangeFrom 1 k1 ++ rangeFrom (1 + (k1 : Int)) k2)
        ++ rangeFrom (1 + ((k1 + k2 : Nat) : Int)) k3 := by
    have h1 : rangeFrom 1 k1 ++ rangeFrom (1 + (k1 : Int)) k2 = rangeFrom 1 (k1 + k2) :=
      rangeFrom_append 1 k1 k2
    have h2 : rangeFrom 1 (k1 + k2) ++ rangeFrom (1 + ((k1 + k2 : Nat) : Int)) k3
        = rangeFrom 1 ((k1 + k2) + k3) := rangeFrom_append 1 (k1 + k2) k3
    rw [h1, h2]
    congr 1
    omega
  rw [hsplit, List.countP_append, List.countP_append]
  have hseg1 : (rangeFrom 1 k1).countP
        (fun q => if p ≤ q ∧ q ≤ p + D then decide (q + S2 = c) else false) = 0 := by
    rw [List.countP_eq_zero]
    intro y hy
    have hb := mem_rangeFrom.1 hy
    rw [if_neg (by omega : ¬ (p ≤ y ∧ y ≤ p + D))]
    simp
  have hseg2 : (rangeFrom (1 + (k1 : Int)) k2).countP
        (fun q => if p ≤ q ∧ q ≤ p + D then decide (q + S2 = c) else false)
      = (rangeFrom (1 + (k1 : Int)) k2).countP (fun q => decide (q = c - S2)) := by
    refine List.countP_congr (fun y hy => ?_)
    have hb := mem_rangeFrom.1 hy
    rw [if_pos (by omega : p ≤ y ∧ y ≤ p + D)]
    simp only [decide_eq_true_eq]
    omega
  have hseg3 : (rangeFrom (1 + ((k1 + k2 : Nat) : Int)) k3).countP
        (fun q => if p ≤ q ∧ q ≤ p + D then decide (q + S2 = c) else false) = 0 := by
    rw [List.countP_eq_zero]
    intro y hy
    have hb := mem_rangeFrom.1 hy
    have hbk : 1 + ((k1 : Int) + (k2 : Int)) ≤ y := by
      have := hb.1
      push_cast at this
      omega
    rw [if_neg (by omega : ¬ (p ≤ y ∧ y ≤ p + D))]
    simp
  rw [hseg1, hseg2, hseg3]
  push_cast
  rw [countP_rangeFrom_eq (1 + (k1 : Int)) k2 (c - S2)]
  have e1 : (k1 : Int) = p - 1 := by omega
  have e2 : (k2 : Int) = D + 1 := by omega
  rw [e1, e2]
  by_cases hc : p + S2 ≤ c ∧ c ≤ p + D + S2
  · rw [if_pos (by omega : 1 + (p - 1) ≤ c - S2 ∧ c - S2 < 1 + (p - 1) + (D + 1)),
      if_pos hc]
    omega
  · rw [if_neg (by omega : ¬ (1 + (p - 1) ≤ c - S2 ∧ c - S2 < 1 + (p - 1) + (D + 1))),
      if_neg hc]
    omega

theorem countP_tgt_eq (ps : List Int) (T TO2 c : Int)
    (hperm : ps.Perm (rangeFrom 1 ps.length))
    (hT1 : 1 ≤ T) (hT2 : T ≤ (ps.length : Int) + 1) :
    ((ps.countP (fun q => if T ≤ q then decide (q + TO2 = c) else decide (q = c))) : Int)
      = (if 1 ≤ c ∧ c ≤ T - 1 then 1 else 0)
        + (if T + TO2 ≤ c ∧ c ≤ (ps.length : Int) + TO2 then 1 else 0) := by
  rw [hperm.countP_eq]
  set k1 := (T - 1).toNat with hk1
  set k2 := ((ps.length : Int) - T + 1).toNat with hk2
  have hsplit : rangeFrom 1 ps.length
      = rangeFrom 1 k1 ++ rangeFrom (1 + (k1 : Int)) k2 := by
    rw [rangeFrom_append]
    congr 1
    omega
  rw [hsplit, List.countP_append]
  have hseg1 : (rangeFrom 1 k1).countP
        (fun q => if T ≤ q then decide (q + TO2 = c) else decide (q = c))
      = (rangeFrom 1 k1).countP (fun q => decide (q = c)) := by
    refine List.countP_congr (fun y hy => ?_)
    have hb := mem_rangeFrom.1 hy
    rw [if_neg (by omega : ¬ T ≤ y)]
  have hseg2 : (rangeFrom (1 + (k1 : Int)) k2).countP
        (fun q => if T ≤ q then decide (q + TO2 = c) else decide (q = c))
      = (rangeFrom (1 + (k1 : Int)) k2).countP (fun q => decide (q = c - TO2)) := by
    refine List.countP_congr (fun y hy => ?_)
    have hb := mem_rangeFrom.1 hy
    rw [if_pos (by omega : T ≤ y)]
    simp only [decide_eq_true_eq]
    omega
  rw [hseg1, hseg2]
  push_cast
  rw [countP_rangeFrom_eq 1 k1 c]
  rw [countP_rangeFrom_eq (1 + (k1 : Int)) k2 (c - TO2)]
  have e1 : (k1 : Int) = T - 1 := by omega
  have e2 : (k2 : Int) = (ps.length : Int) - T + 1 := by omega
  rw [e1, e2]
  by_cases hc1 : 1 ≤ c ∧ c ≤ T - 1
  · rw [if_pos (by omega : (1 : Int) ≤ c ∧ c < 1 + (T - 1)), if_pos hc1]
    by_cases hc2 : T + TO2 ≤ c ∧ c ≤ (ps.length : Int) + TO2
    · rw [if_pos (by omega : 1 + (T - 1) ≤ c - TO2
          ∧ c - TO2 < 1 + (T - 1) + ((ps.length : Int) - T + 1)), if_pos hc2]
    · rw [if_neg (by omega : ¬ (1 + (T - 1) ≤ c - TO2
          ∧ c - TO2 < 1 + (T - 1) + ((ps.length : Int) - T + 1))), if_neg hc2]
  · rw [if_neg (by omega : ¬ ((1 : Int) ≤ c ∧ c < 1 + (T - 1))), if_neg hc1]
    by_cases hc2 : T + TO2 ≤ c ∧ c ≤ (ps.length : Int) + TO2
    · rw [if_pos (by omega : 1 + (T - 1) ≤ c - TO2
          ∧ c - TO2 < 1 + (T - 1) + ((ps.length : Int) - T + 1)), if_pos hc2]
    · rw [if_neg (by omega : ¬ (1 + (T - 1) ≤ c - TO2
          ∧ c - TO2 < 1 + (T - 1) + ((ps.length : Int) - T + 1))), if_neg hc2]

theorem countP_src_len (ps : List Int) (p D : Int)
    (hperm : ps.Perm (rangeFrom 1 ps.length))
    (hp : 1 ≤ p) (hd : 0 ≤ D) (hpd : p + D ≤ (ps.length : Int)) :
    ((ps.countP (fun q => if q < p then true else if p + D < q then true else false)) : Int)
      = (ps.length : Int) - 1 - D := by
  rw [hperm.countP_eq]
  set k1 := (p - 1).toNat with hk1
  set k2 := (D + 1).toNat with hk2
  set k3 := ((ps.length : Int) - p - D).toNat with hk3
  have hsplit : rangeFrom 1 ps.length
      = (rangeFrom 1 k1 ++ rangeFrom (1 + (k1 : Int)) k2)
        ++ rangeFrom (1 + ((k1 + k2 : Nat) : Int)) k3 := by
    have h1 : rangeFrom 1 k1 ++ rangeFrom (1 + (k1 : Int)) k2 = rangeFrom 1 (k1 + k2) :=
      rangeFrom_append 1 k1 k2
    have h2 : rangeFrom 1 (k1 + k2) ++ rangeFrom (1 + ((k1 + k2 : Nat) : Int)) k3
        = rangeFrom 1 ((k1 + k2) + k3) := rangeFrom_append 1 (k1 + k2) k3
    rw [h1, h2]
    congr 1
    omega
  rw [hsplit, List.countP_append, List.countP_append]
  have hseg1 : (rangeFrom 1 k1).countP
        (fun q => if q < p then true else if p + D < q then true else false) = k1 := by
    have he : (rangeFrom 1 k1).countP
          (fun q => if q < p then true else if p + D < q then true else false)
        = (rangeFrom 1 k1).countP (fun q => true) := by
      refine List.countP_congr (fun y hy => ?_)
      have hb := mem_rangeFrom.1 hy
      rw [if_pos (by omega : y < p)]
    rw [he, List.countP_true, rangeFrom_length]
  have hseg2 : (rangeFrom (1 + (k1 : Int)) k2).countP
        (fun q => if q < p then true else if p + D < q then true else false) = 0 := by
    rw [List.countP_eq_zero]
    intro y hy
    have hb := mem_rangeFrom.1 hy
    rw [if_neg (by omega : ¬ y < p), if_neg (by omega : ¬ p + D < y)]
    simp
  have hseg3 : (rangeFrom (1 + ((k1 + k2 : Nat) : Int)) k3).countP
        (fun q => if q < p then true else if p + D < q then true else false) = k3 := by
    have he : (rangeFrom (1 + ((k1 + k2 : Nat) : Int)) k3).countP
          (fun q => if q < p then true else if p + D < q then true else false)
        = (rangeFrom (1 + ((k1 + k2 : Nat) : Int)) k3).countP (fun q => true) := by
      refine List.countP_congr (fun y hy => ?_)
      have hb := mem_rangeFrom.1 hy
      have hbk : 1 + ((k1 : Int) + (k2 : Int)) ≤ y := by
        have := hb.1
        push_cast at this
        omega
      rw [if_neg (by omega : ¬ y < p), if_pos (by omega : p + D < y)]
    rw [he, List.countP_true, rangeFrom_length]
  rw [hseg1, hseg2, hseg3]
  push_cast
  omega

theorem countP_blk_len (ps : List Int) (p D : Int)
    (hperm : ps.Perm (rangeFrom 1 ps.length))
    (hp : 1 ≤ p) (hd : 0 ≤ D) (hpd : p + D ≤ (ps.length : Int)) :
    ((ps.countP (fun q => if p ≤ q ∧ q ≤ p + D then true else false)) : Int) = D + 1 := by
  rw [hperm.countP_eq]
  set k1 := (p - 1).toNat with hk1
  set k2 := (D + 1).toNat with hk2
  set k3 := ((ps.length : Int) - p - D).toNat with hk3
  have hsplit : rangeFrom 1 ps.length
      = (rangeFrom 1 k1 ++ rangeFrom (1 + (k1 : Int)) k2)
        ++ rangeFrom (1 + ((k1 + k2 : Nat) : Int)) k3 := by
    have h1 : rangeFrom 1 k1 ++ rangeFrom (1 + (k1 : Int)) k2 = rangeFrom 1 (k1 + k2) :=
      rangeFrom_append 1 k1 k2
    have h2 : rangeFrom 1 (k1 + k2) ++ rangeFrom (1 + ((k1 + k2 : Nat) : Int)) k3
        = rangeFrom 1 ((k1 + k2) + k3) := rangeFrom_append 1 (k1 + k2) k3
    rw [h1, h2]
    congr 1
    omega
  rw [hsplit, List.countP_append, List.countP_append]
  have hseg1 : (rangeFrom 1 k1).countP
        (fun q => if p ≤ q ∧ q ≤ p + D then true else false) = 0 := by
    rw [List.countP_eq_zero]
    intro y hy
    have hb := mem_rangeFrom.1 hy
    rw [if_neg (by omega : ¬ (p ≤ y ∧ y ≤ p + D))]
    simp
  have hseg2 : (rangeFrom (1 + (k1 : Int)) k2).countP
        (fun q => if p ≤ q ∧ q ≤ p + D then true else false) = k2 := by
    have he : (rangeFrom (1 + (k1 : Int)) k2).countP
          (fun q => if p ≤ q ∧ q ≤ p + D then true else false)
        = (rangeFrom (1 + (k1 : Int)) k2).countP (fun q => true) := by
      refine List.countP_congr (fun y hy => ?_)
      have hb := mem_rangeFrom.1 hy
      rw [if_pos (by omega : p ≤ y ∧ y ≤ p + D)]
    rw [he, List.countP_true, rangeFrom_length]
  have hseg3 : (rangeFrom (1 + ((k1 + k2 : Nat) : Int)) k3).countP
        (fun q => if p ≤ q ∧ q ≤ p + D then true else false) = 0 := by
    rw [List.countP_eq_zero]
    intro y hy
    have hb := mem_rangeFrom.1 hy
    have hbk : 1 + ((k1 : Int) + (k2 : Int)) ≤ y := by
      have := hb.1
      push_cast at this
      omega
    rw [if_neg (by omega : ¬ (p ≤ y ∧ y ≤ p + D))]
    simp
  rw [hseg1, hseg2, hseg3]
  push_cast
  omega

theorem nodup_of_countP_le {l : List Int}
    (h : ∀ c : Int, l.countP (fun q => decide (q = c)) ≤ 1) : l.Nodup := by
  induction l with
  | nil => exact List.nodup_nil
  | cons a t ih =>
    refine List.nodup_cons.2 ⟨fun hmem => ?_, ih (fun c => ?_)⟩
    · have h1 : 0 < t.countP (fun q => decide (q = a)) :=
        List.countP_pos.2 ⟨a, hmem, by simp⟩
      have h2 := h a
      rw [List.countP_cons] at h2
      simp only [decide_eq_true_eq, if_true] at h2
      omega
    · have h2 := h c
      rw [List.countP_cons] at h2
      omega

theorem nodup_gShift_append (ps : List Int) (K : Int)
    (hperm : ps.Perm (rangeFrom 1 ps.length))
    (hK1 : 1 ≤ K) (hKN : K ≤ (ps.length : Int)) :
    ((ps.map (fun q => if K ≤ q then q + (ps.length : Int) else q)) ++ [K]).Nodup := by
  have hnd : ps.Nodup := hperm.nodup_iff.2 (rangeFrom_nodup 1 _)
  refine List.nodup_append.2 ⟨nodup_shift_map hnd (by omega), List.nodup_singleton _, ?_⟩
  intro a ha hb
  rcases List.mem_map.1 ha with ⟨q, hq, hqe⟩
  have hae : a = K := List.mem_singleton.1 hb
  rw [hae] at hqe
  have hbq := mem_rangeFrom.1 (hperm.mem_iff.1 hq)
  by_cases c : K ≤ q
  · rw [if_pos c] at hqe
    omega
  · rw [if_neg c] at hqe
    omega

theorem dense_add_plugin (v : Vendor) (db : List Node) (ph : Nat) (inst : Node)
    (hids : UniqueIds db) (hfresh : inst.id ∉ db.map Node.id)
    (hdense : Dense db ph inst.language) (hph : inst.placeholder = ph)
    (hK1 : 1 ≤ inst.position)
    (hK2 : inst.position ≤ ((posList db ph inst.language).length : Int) + 1) :
    Dense (add_plugin v db ph inst) ph inst.language := by
  have hlast : lastPos0 db ph inst.language = ((posList db ph inst.language).length : Int) :=
    dense_lastPos0 hdense
  have hinstsc : inScope ph inst.language inst = true := by
    simp [inScope, hph]
  have hplinst : posList [inst] ph inst.language = [inst.position] := by
    simp [posList, scope, hinstsc]
  by_cases hsh : inst.position - lastPos0 db ph inst.language < 1
  · have hKN : inst.position ≤ ((posList db ph inst.language).length : Int) := by
      rw [hlast] at hsh
      omega
    have heq := add_plugin_shift_case v db ph inst hsh
    have hids2 : UniqueIds (shift_plugin_positions db ph inst.language inst.position
        (lastPos0 db ph inst.language) ++ [inst]) :=
      uniqueIds_shift_append ph inst.language inst.position _ hids hfresh
    rw [heq, recalculate_eq_direct v ph inst.language hids2]
    refine dense_recalculate_direct ?_
    rw [posList_append, posList_shift, hlast, hplinst]
    exact nodup_gShift_append _ _ hdense hK1 hKN
  · have heq := add_plugin_append_case v db ph inst hsh
    have hKN : inst.position = ((posList db ph inst.language).length : Int) + 1 := by
      rw [hlast] at hsh
      omega
    rw [heq]
    unfold Dense
    rw [posList_append, hplinst, hKN]
    have hlen : (posList db ph inst.language
        ++ [((posList db ph inst.language).length : Int) + 1]).length
        = (posList db ph inst.language).length + 1 := by
      simp
    rw [hlen]
    have hone : rangeFrom (1 + ((posList db ph inst.language).length : Int)) 1
        = [((posList db ph inst.language).length : Int) + 1] := by
      show [1 + ((posList db ph inst.language).length : Int)] = _
      rw [show (1 + ((posList db ph inst.language).length : Int))
          = ((posList db ph inst.language).length : Int) + 1 from by ring]
    have hsplit : rangeFrom 1 ((posList db ph inst.language).length + 1)
        = rangeFrom 1 (posList db ph inst.language).length
          ++ [((posList db ph inst.language).length : Int) + 1] := by
      rw [← rangeFrom_append 1 (posList db ph inst.language).length 1, hone]
    rw [hsplit]
    exact List.Perm.append hdense (List.Perm.refl _)

theorem dense_delete_plugin (v : Vendor) (db : List Node) (ph : Nat) (x : Node)
    (hids : UniqueIds db) (hdense : Dense db ph x.language)
    (hx : x ∈ db) (hxs : inScope ph x.language x = true)
    (hcontig : ContigAt db ph x.language x) :
    Dense (delete_plugin v db ph x) ph x.language := by
  obtain ⟨hpd, hchar⟩ := subtree_block hids hdense hx hxs hcontig
  have hnodupP := dense_nodup hdense
  have hkeep := delete_keep_eq hids hdense hx hxs hchar
  have hpl1 : posList (db.filter
        (fun n => !(n.id == x.id || (descIds db x.id).contains n.id))) ph x.language
      = (posList db ph x.language).filter
          (fun q => decide (q < x.position
            ∨ x.position + ((descIds db x.id).length : Int) < q)) :=
    posList_filter hkeep
  cases hmax : maxPos (posList (db.filter
      (fun n => !(n.id == x.id || (descIds db x.id).contains n.id))) ph x.language) with
  | none =>
    have hD : delete_plugin v db ph x = db.filter
        (fun n => !(n.id == x.id || (descIds db x.id).contains n.id)) := by
      simp only [delete_plugin, hmax]
    have hempty : posList (db.filter
        (fun n => !(n.id == x.id || (descIds db x.id).contains n.id))) ph x.language
        = [] := maxPos_eq_none.1 hmax
    unfold Dense
    rw [hD, hempty]
    simp [rangeFrom]
  | some L =>
    have hD : delete_plugin v db ph x = recalculate_plugin_positions v
        (shift_plugin_positions (db.filter
          (fun n => !(n.id == x.id || (descIds db x.id).contains n.id)))
          ph x.language x.position L) ph x.language := by
      simp only [delete_plugin, hmax]
    have hids1 : UniqueIds (db.filter
        (fun n => !(n.id == x.id || (descIds db x.id).contains n.id))) :=
      uniqueIds_filter hids _
    have hids2 : UniqueIds (shift_plugin_positions (db.filter
        (fun n => !(n.id == x.id || (descIds db x.id).contains n.id)))
        ph x.language x.position L) := uniqueIds_shift hids1 ph x.language x.position L
    have hLmem : L ∈ posList db ph x.language := by
      have hm := (maxPos_spec.1 hmax).1
      rw [hpl1] at hm
      exact List.mem_of_mem_filter hm
    have hLb := dense_mem_bounds hdense hLmem
    have hL0 : (0 : Int) ≤ L := by omega
    rw [hD, recalculate_eq_direct v ph x.language hids2]
    refine dense_recalculate_direct ?_
    rw [posList_shift, hpl1]
    exact nodup_shift_map (List.Nodup.filter _ hnodupP) hL0

theorem links_map_parent_pos (db : List Node) (x : Node) (par : Option Nat)
    (T dI : Int) (ph : Nat) :
    links (db.map (fun n =>
        { n with
          parent := if n.id = x.id then par else n.parent,
          position := if inScope ph x.language n = true
            then movePos x.position dI T n.position
            else n.position }))
      = (links db).map (fun e => if e.1 == x.id then (e.1, par) else e) := by
  unfold links
  rw [List.map_map, List.map_map]
  refine List.map_congr_left (fun n hn => ?_)
  simp only [Function.comp_def]
  by_cases hid : n.id = x.id
  · rw [if_pos hid, if_pos (show (n.id == x.id) = true from by simpa using hid)]
  · rw [if_neg hid, if_neg (show ¬ (n.id == x.id) = true from by simpa using hid)]

theorem descIds_move_within_map (db : List Node) (x : Node) (par : Option Nat)
    (T dI : Int) (ph : Nat) :
    descIds (db.map (fun n =>
        { n with
          parent := if n.id = x.id then par else n.parent,
          position := if inScope ph x.language n = true
            then movePos x.position dI T n.position
            else n.position })) x.id
      = descIds db x.id := by
  unfold descIds
  rw [links_map_parent_pos, List.length_map,
    descIter_parent_irrel _ (List.mem_cons_self x.id [])]

/-- C2: the claim as stated fails — `add_plugin` can break the contiguity of a
bystander node's descendant block.  On the two-row scope X at 1 with child Y at
2, adding a fresh parentless row at declared position 2 shifts Y to final
position 3, outside X's range (X.position, X.position + 1]. -/
theorem contig_not_preserved : ¬ contigPreservedClaim := by
  intro h
  have h2 := h .other [⟨1, 0, 0, none, 1⟩, ⟨2, 0, 0, some 1, 2⟩] 0
    ⟨3, 0, 0, none, 2⟩ ⟨1, 0, 0, none, 1⟩
    (by decide) (by decide) (by decide) (by decide) (by decide) (by decide)
    (by decide) (by decide) (by decide)
  revert h2
  decide

/-- C2 amended: what the engine does guarantee is contiguity of the subtree
being moved — after a completed within-placeholder move of node `x` to target
ordinal `T`, a row of the result belongs to `x`'s descendant set exactly when
it is a scope row at a position in `(T, T + descendant_count]`: the moved
subtree again occupies the contiguous block immediately following `x`'s new
position `T`. -/
theorem move_within_subtree_contiguous (v : Vendor) (db : List Node) (ph : Nat)
    (x : Node) (T : Int) (par : Option Nat)
    (hids : UniqueIds db) (hdense : Dense db ph x.language)
    (hx : x ∈ db) (hxs : inScope ph x.language x = true)
    (hcontig : ContigAt db ph x.language x)
    (hT1 : 1 ≤ T)
    (hTd : T + ((descIds db x.id).length : Int) ≤ ((posList db ph x.language).length : Int)) :
    ∀ n ∈ move_plugin_within v db ph x T par,
      (n.id ∈ descIds (move_plugin_within v db ph x T par) x.id
        ↔ (inScope ph x.language n = true ∧ T < n.position
            ∧ n.position ≤ T + ((descIds db x.id).length : Int))) := by
  rw [move_within_eq_map v db ph x T par hids hdense hx hxs hcontig hT1 hTd]
  rw [descIds_move_within_map db x par T ((descIds db x.id).length : Int) ph]
  intro n hn
  rcases List.mem_map.1 hn with ⟨m, hm, rfl⟩
  dsimp only
  rw [inScope_fields]
  constructor
  · intro hdsc
    obtain ⟨hsc, hlt, hle⟩ := (hcontig m hm).1 hdsc
    rw [if_pos hsc]
    unfold movePos
    rw [if_pos (show x.position ≤ m.position
        ∧ m.position ≤ x.position + ((descIds db x.id).length : Int) from ⟨by omega, hle⟩)]
    exact ⟨hsc, by omega, by omega⟩
  · rintro ⟨hsc, h1, h2⟩
    rw [if_pos hsc] at h1 h2
    unfold movePos at h1 h2
    have hpq : x.position < m.position
        ∧ m.position ≤ x.position + ((descIds db x.id).length : Int) := by
      by_cases c1 : x.position ≤ m.position
          ∧ m.position ≤ x.position + ((descIds db x.id).length : Int)
      · rw [if_pos c1] at h1 h2
        omega
      · rw [if_neg c1] at h1 h2
        by_cases c2 : T ≤ m.position ∧ m.position < x.position
        · rw [if_pos c2] at h1 h2
          omega
        · rw [if_neg c2] at h1 h2
          by_cases c3 : x.position + ((descIds db x.id).length : Int) < m.position
              ∧ m.position ≤ T + ((descIds db x.id).length : Int)
          · rw [if_pos c3] at h1 h2
            omega
          · rw [if_neg c3] at h1 h2
            omega
    exact (hcontig m hm).2 ⟨hsc, hpq.1, hpq.2⟩

/-- C2 amended witness: moving the parent at position 1 (one descendant) to
target ordinal 2 in a three-row scope lands the descendant at position 3 =
2 + 1, inside the moved block — so the descendant-set characterisation
certifies its membership. -/
theorem move_within_subtree_contiguous_witness :
    (2 : Nat) ∈ descIds (move_plugin_within .other
        [⟨1, 0, 0, none, 1⟩, ⟨2, 0, 0, some 1, 2⟩, ⟨3, 0, 0, none, 3⟩]
        0 ⟨1, 0, 0, none, 1⟩ 2 none) 1 := by
  have h := move_within_subtree_contiguous .other
    [⟨1, 0, 0, none, 1⟩, ⟨2, 0, 0, some 1, 2⟩, ⟨3, 0, 0, none, 3⟩]
    0 ⟨1, 0, 0, none, 1⟩ 2 none (by decide) (by decide) (by decide) (by decide)
    (by decide) (by decide) (by decide)
  exact (h ⟨2, 0, 0, some 1, 3⟩ (by decide)).2 ⟨by decide, by decide, by decide⟩

theorem cross_rank_src (db : List Node) (ph tph : Nat) (x : Node)
    (T S2 TO2 : Int) (tpar : Option Nat)
    (hne : tph ≠ ph)
    (hchar : ∀ n ∈ scope db ph x.language,
        ((n.id = x.id ∨ n.id ∈ descIds db x.id)
          ↔ (x.position ≤ n.position
              ∧ n.position ≤ x.position + ((descIds db x.id).length : Int))))
    (hperm1 : (posList db ph x.language).Perm
      (rangeFrom 1 (posList db ph x.language).length))
    (hp : 1 ≤ x.position)
    (hpd : x.position + ((descIds db x.id).length : Int)
      ≤ ((posList db ph x.language).length : Int))
    (c : Int) :
    rankIn (posList (db.map (fun n =>
          { n with
            placeholder := if n.id = x.id ∨ n.id ∈ descIds db x.id then tph
              else n.placeholder,
            parent := if n.id = x.id then tpar else n.parent,
            position :=
              if inScope ph x.language n && decide (x.position ≤ n.position)
              then n.position + S2
              else if inScope tph x.language n && decide (T ≤ n.position)
              then n.position + TO2
              else n.position })) ph x.language) c
      = 1 + (min (max (c - 1) 0) (x.position - 1)
          + min (max (c - S2 - (x.position + ((descIds db x.id).length : Int) + 1)) 0)
              (((posList db ph x.language).length : Int)
                - x.position - ((descIds db x.id).length : Int))) := by
  unfold rankIn
  rw [cross_source_count db ph tph x T S2 TO2 tpar (fun r => decide (r < c)) hne hchar]
  rw [countP_src_lt (posList db ph x.language) x.position
    ((descIds db x.id).length : Int) S2 c hperm1 hp (Int.natCast_nonneg _) hpd]

theorem cross_rank_tgt (db : List Node) (ph tph : Nat) (x : Node)
    (T S2 TO2 : Int) (tpar : Option Nat)
    (hne : tph ≠ ph) (hids : UniqueIds db)
    (hx : x ∈ db) (hxs : inScope ph x.language x = true)
    (hcontig : ContigAt db ph x.language x)
    (hchar : ∀ n ∈ scope db ph x.language,
        ((n.id = x.id ∨ n.id ∈ descIds db x.id)
          ↔ (x.position ≤ n.position
              ∧ n.position ≤ x.position + ((descIds db x.id).length : Int))))
    (hperm1 : (posList db ph x.language).Perm
      (rangeFrom 1 (posList db ph x.language).length))
    (hperm2 : (posList db tph x.language).Perm
      (rangeFrom 1 (posList db tph x.language).length))
    (hp : 1 ≤ x.position)
    (hpd : x.position + ((descIds db x.id).length : Int)
      ≤ ((posList db ph x.language).length : Int))
    (hT1 : 1 ≤ T) (hT2 : T ≤ ((posList db tph x.language).length : Int) + 1)
    (c : Int) :
    rankIn (posList (db.map (fun n =>
          { n with
            placeholder := if n.id = x.id ∨ n.id ∈ descIds db x.id then tph
              else n.placeholder,
            parent := if n.id = x.id then tpar else n.parent,
            position :=
              if inScope ph x.language n && decide (x.position ≤ n.position)
              then n.position + S2
              else if inScope tph x.language n && decide (T ≤ n.position)
              then n.position + TO2
              else n.position })) tph x.language) c
      = 1 + ((min (max (c - 1) 0) (T - 1)
            + min (max (c - TO2 - T) 0)
                (((posList db tph x.language).length : Int) - T + 1))
          + min (max (c - S2 - x.position) 0) (((descIds db x.id).length : Int) + 1)) := by
  unfold rankIn
  rw [cross_target_count db ph tph x T S2 TO2 tpar (fun r => decide (r < c))
    hne hids hx hxs hcontig hchar]
  push_cast
  rw [countP_tgt_lt (posList db tph x.language) T TO2 c hperm2 hT1 hT2]
  rw [countP_blk_lt (posList db ph x.language) x.position
    ((descIds db x.id).length : Int) S2 c hperm1 hp (Int.natCast_nonneg _) hpd]

theorem cross_nodup_src (db : List Node) (ph tph : Nat) (x : Node)
    (T S2 TO2 : Int) (tpar : Option Nat)
    (hne : tph ≠ ph)
    (hchar : ∀ n ∈ scope db ph x.language,
        ((n.id = x.id ∨ n.id ∈ descIds db x.id)
          ↔ (x.position ≤ n.position
              ∧ n.position ≤ x.position + ((descIds db x.id).length : Int))))
    (hperm1 : (posList db ph x.language).Perm
      (rangeFrom 1 (posList db ph x.language).length))
    (hp : 1 ≤ x.position)
    (hpd : x.position + ((descIds db x.id).length : Int)
      ≤ ((posList db ph x.language).length : Int))
    (hS0 : 0 ≤ S2) :
    (posList (db.map (fun n =>
          { n with
            placeholder := if n.id = x.id ∨ n.id ∈ descIds db x.id then tph
              else n.placeholder,
            parent := if n.id = x.id then tpar else n.parent,
            position :=
              if inScope ph x.language n && decide (x.position ≤ n.position)
              then n.position + S2
              else if inScope tph x.language n && decide (T ≤ n.position)
              then n.position + TO2
              else n.position })) ph x.language).Nodup := by
  refine nodup_of_countP_le (fun c => ?_)
  have hd0 : (0 : Int) ≤ ((descIds db x.id).length : Int) := Int.natCast_nonneg _
  have h1 : (((posList (db.map (fun n =>
          { n with
            placeholder := if n.id = x.id ∨ n.id ∈ descIds db x.id then tph
              else n.placeholder,
            parent := if n.id = x.id then tpar else n.parent,
            position :=
              if inScope ph x.language n && decide (x.position ≤ n.position)
              then n.position + S2
              else if inScope tph x.language n && decide (T ≤ n.position)
              then n.position + TO2
              else n.position })) ph x.language).countP
      (fun q => decide (q = c))) : Int) ≤ 1 := by
    rw [cross_source_count db ph tph x T S2 TO2 tpar (fun r => decide (r = c)) hne hchar]
    rw [countP_src_eq (posList db ph x.language) x.position
      ((descIds db x.id).length : Int) S2 c hperm1 hp hd0 hpd]
    split_ifs <;> omega
  exact_mod_cast h1

theorem cross_nodup_tgt (db : List Node) (ph tph : Nat) (x : Node)
    (T S2 TO2 : Int) (tpar : Option Nat)
    (hne : tph ≠ ph) (hids : UniqueIds db)
    (hx : x ∈ db) (hxs : inScope ph x.language x = true)
    (hcontig : ContigAt db ph x.language x)
    (hchar : ∀ n ∈ scope db ph x.language,
        ((n.id = x.id ∨ n.id ∈ descIds db x.id)
          ↔ (x.position ≤ n.position
              ∧ n.position ≤ x.position + ((descIds db x.id).length : Int))))
    (hperm1 : (posList db ph x.language).Perm
      (rangeFrom 1 (posList db ph x.language).length))
    (hperm2 : (posList db tph x.language).Perm
      (rangeFrom 1 (posList db tph x.language).length))
    (hp : 1 ≤ x.position)
    (hpd : x.position + ((descIds db x.id).length : Int)
      ≤ ((posList db ph x.language).length : Int))
    (hT1 : 1 ≤ T) (hT2 : T ≤ ((posList db tph x.language).length : Int) + 1)
    (hS0 : 0 ≤ S2) (hTO0 : 0 ≤ TO2)
    (hSa : T ≤ x.position + S2)
    (hSb : x.position + ((descIds db x.id).length : Int) + S2 < T + TO2
        ∨ T = ((posList db tph x.language).length : Int) + 1) :
    (posList (db.map (fun n =>
          { n with
            placeholder := if n.id = x.id ∨ n.id ∈ descIds db x.id then tph
              else n.placeholder,
            parent := if n.id = x.id then tpar else n.parent,
            position :=
              if inScope ph x.language n && decide (x.position ≤ n.position)
              then n.position + S2
              else if inScope tph x.language n && decide (T ≤ n.position)
              then n.position + TO2
              else n.position })) tph x.language).Nodup := by
  refine nodup_of_countP_le (fun c => ?_)
  have hd0 : (0 : Int) ≤ ((descIds db x.id).length : Int) := Int.natCast_nonneg _
  have h1 : (((posList (db.map (fun n =>
          { n with
            placeholder := if n.id = x.id ∨ n.id ∈ descIds db x.id then tph
              else n.placeholder,
            parent := if n.id = x.id then tpar else n.parent,
            position :=
              if inScope ph x.language n && decide (x.position ≤ n.position)
              then n.position + S2
              else if inScope tph x.language n && decide (T ≤ n.position)
              then n.position + TO2
              else n.position })) tph x.language).countP
      (fun q => decide (q = c))) : Int) ≤ 1 := by
    rw [cross_target_count db ph tph x T S2 TO2 tpar (fun r => decide (r = c))
      hne hids hx hxs hcontig hchar]
    push_cast
    rw [countP_tgt_eq (posList db tph x.language) T TO2 c hperm2 hT1 hT2]
    rw [countP_blk_eq (posList db ph x.language) x.position
      ((descIds db x.id).length : Int) S2 c hperm1 hp hd0 hpd]
    split_ifs <;> omega
  exact_mod_cast h1

theorem cross_len_src (db : List Node) (ph tph : Nat) (x : Node)
    (T S2 TO2 : Int) (tpar : Option Nat)
    (hne : tph ≠ ph)
    (hchar : ∀ n ∈ scope db ph x.language,
        ((n.id = x.id ∨ n.id ∈ descIds db x.id)
          ↔ (x.position ≤ n.position
              ∧ n.position ≤ x.position + ((descIds db x.id).length : Int))))
    (hperm1 : (posList db ph x.language).Perm
      (rangeFrom 1 (posList db ph x.language).length))
    (hp : 1 ≤ x.position)
    (hpd : x.position + ((descIds db x.id).length : Int)
      ≤ ((posList db ph x.language).length : Int)) :
    ((posList (db.map (fun n =>
          { n with
            placeholder := if n.id = x.id ∨ n.id ∈ descIds db x.id then tph
              else n.placeholder,
            parent := if n.id = x.id then tpar else n.parent,
            position :=
              if inScope ph x.language n && decide (x.position ≤ n.position)
              then n.position + S2
              else if inScope tph x.language n && decide (T ≤ n.position)
              then n.position + TO2
              else n.position })) ph x.language).length : Int)
      = ((posList db ph x.language).length : Int) - 1
        - ((descIds db x.id).length : Int) := by
  have h := cross_source_count db ph tph x T S2 TO2 tpar (fun r => true) hne hchar
  rw [List.countP_true] at h
  have h2 : ((posList (db.map (fun n =>
          { n with
            placeholder := if n.id = x.id ∨ n.id ∈ descIds db x.id then tph
              else n.placeholder,
            parent := if n.id = x.id then tpar else n.parent,
            position :=
              if inScope ph x.language n && decide (x.position ≤ n.position)
              then n.position + S2
              else if inScope tph x.language n && decide (T ≤ n.position)
              then n.position + TO2
              else n.position })) ph x.language).length : Int)
      = (((posList db ph x.language).countP (fun q => if q < x.position then true
          else if x.position + ((descIds db x.id).length : Int) < q then true
          else false)) : Int) := by
    exact_mod_cast h
  rw [countP_src_len (posList db ph x.language) x.position
    ((descIds db x.id).length : Int) hperm1 hp (Int.natCast_nonneg _) hpd] at h2
  exact h2

theorem cross_len_tgt (db : List Node) (ph tph : Nat) (x : Node)
    (T S2 TO2 : Int) (tpar : Option Nat)
    (hne : tph ≠ ph) (hids : UniqueIds db)
    (hx : x ∈ db) (hxs : inScope ph x.language x = true)
    (hcontig : ContigAt db ph x.language x)
    (hchar : ∀ n ∈ scope db ph x.language,
        ((n.id = x.id ∨ n.id ∈ descIds db x.id)
          ↔ (x.position ≤ n.position
              ∧ n.position ≤ x.position + ((descIds db x.id).length : Int))))
    (hperm1 : (posList db ph x.language).Perm
      (rangeFrom 1 (posList db ph x.language).length))
    (hp : 1 ≤ x.position)
    (hpd : x.position + ((descIds db x.id).length : Int)
      ≤ ((posList db ph x.language).length : Int)) :
    ((posList (db.map (fun n =>
          { n with
            placeholder := if n.id = x.id ∨ n.id ∈ descIds db x.id then tph
              else n.placeholder,
            parent := if n.id = x.id then tpar else n.parent,
            position :=
              if inScope ph x.language n && decide (x.position ≤ n.position)
              then n.position + S2
              else if inScope tph x.language n && decide (T ≤ n.position)
              then n.position + TO2
              else n.position })) tph x.language).length : Int)
      = ((posList db tph x.language).length : Int) + 1
        + ((descIds db x.id).length : Int) := by
  have h := cross_target_count db ph tph x T S2 TO2 tpar (fun r => true)
    hne hids hx hxs hcontig hchar
  rw [List.countP_true] at h
  have htgt : (posList db tph x.language).countP (fun q => if T ≤ q then true else true)
      = (posList db tph x.language).length := by
    have he : (posList db tph x.language).countP
          (fun q => if T ≤ q then true else true)
        = (posList db tph x.language).countP (fun q => true) :=
      List.countP_congr (fun q hq => by rw [ite_self])
    rw [he, List.countP_true]
  rw [htgt] at h
  have h2 : ((posList (db.map (fun n =>
          { n with
            placeholder := if n.id = x.id ∨ n.id ∈ descIds db x.id then tph
              else n.placeholder,
            parent := if n.id = x.id then tpar else n.parent,
            position :=
              if inScope ph x.language n && decide (x.position ≤ n.position)
              then n.position + S2
              else if inScope tph x.language n && decide (T ≤ n.position)
              then n.position + TO2
              else n.position })) tph x.language).length : Int)
      = ((posList db tph x.language).length : Int)
        + (((posList db ph x.language).countP
            (fun q => if x.position ≤ q
              ∧ q ≤ x.position + ((descIds db x.id).length : Int)
              then true else false)) : Int) := by
    exact_mod_cast h
  rw [countP_blk_len (posList db ph x.language) x.position
    ((descIds db x.id).length : Int) hperm1 hp (Int.natCast_nonneg _) hpd] at h2
  omega

theorem cross_core (v : Vendor) (db : List Node) (ph tph : Nat) (x : Node)
    (T S2 TO2 : Int) (tpar : Option Nat)
    (hne : tph ≠ ph) (hids : UniqueIds db)
    (hdense1 : Dense db ph x.language) (hdense2 : Dense db tph x.language)
    (hx : x ∈ db) (hxs : inScope ph x.language x = true)
    (hcontig : ContigAt db ph x.language x)
    (hT1 : 1 ≤ T) (hT2 : T ≤ ((posList db tph x.language).length : Int) + 1)
    (hS0 : 0 ≤ S2) (hTO0 : 0 ≤ TO2)
    (hSa : T ≤ x.position + S2)
    (hSb : x.position + ((descIds db x.id).length : Int) + S2 < T + TO2
        ∨ T = ((posList db tph x.language).length : Int) + 1) :
    recalculate_plugin_positions v (recalculate_plugin_positions v (db.map (fun n =>
          { n with
            placeholder := if n.id = x.id ∨ n.id ∈ descIds db x.id then tph
              else n.placeholder,
            parent := if n.id = x.id then tpar else n.parent,
            position :=
              if inScope ph x.language n && decide (x.position ≤ n.position)
              then n.position + S2
              else if inScope tph x.language n && decide (T ≤ n.position)
              then n.position + TO2
              else n.position }))
        ph x.language) tph x.language
      = db.map (fun n =>
          { n with
            placeholder := if n.id = x.id ∨ n.id ∈ descIds db x.id then tph
              else n.placeholder,
            parent := if n.id = x.id then tpar else n.parent,
            position :=
              if inScope ph x.language n = true
              then (if n.position < x.position then n.position
                    else if n.position ≤ x.position + ((descIds db x.id).length : Int)
                    then T + (n.position - x.position)
                    else n.position - (1 + ((descIds db x.id).length : Int)))
              else if inScope tph x.language n = true
              then (if n.position < T then n.position
                    else n.position + (1 + ((descIds db x.id).length : Int)))
              else n.position }) := by
  obtain ⟨hpd, hchar⟩ := subtree_block hids hdense1 hx hxs hcontig
  have hperm1 : (posList db ph x.language).Perm
      (rangeFrom 1 (posList db ph x.language).length) := hdense1
  have hperm2 : (posList db tph x.language).Perm
      (rangeFrom 1 (posList db tph x.language).length) := hdense2
  have hpx := dense_mem_bounds hdense1 (pos_mem_posList hx hxs)
  have hd0 : (0 : Int) ≤ ((descIds db x.id).length : Int) := Int.natCast_nonneg _
  have hrank1 := cross_rank_src db ph tph x T S2 TO2 tpar hne hchar hperm1 hpx.1 hpd
  have hrank2 := cross_rank_tgt db ph tph x T S2 TO2 tpar hne hids hx hxs hcontig
    hchar hperm1 hperm2 hpx.1 hpd hT1 hT2
  have hU : UniqueIds (db.map (fun n =>
          { n with
            placeholder := if n.id = x.id ∨ n.id ∈ descIds db x.id then tph
              else n.placeholder,
            parent := if n.id = x.id then tpar else n.parent,
            position :=
              if inScope ph x.language n && decide (x.position ≤ n.position)
              then n.position + S2
              else if inScope tph x.language n && decide (T ≤ n.position)
              then n.position + TO2
              else n.position })) := uniqueIds_map_of_id db _ (fun n => rfl) hids
  rw [recalculate_eq_direct v ph x.language hU]
  have hU2 : UniqueIds (recalculate_direct (db.map (fun n =>
          { n with
            placeholder := if n.id = x.id ∨ n.id ∈ descIds db x.id then tph
              else n.placeholder,
            parent := if n.id = x.id then tpar else n.parent,
            position :=
              if inScope ph x.language n && decide (x.position ≤ n.position)
              then n.position + S2
              else if inScope tph x.language n && decide (T ≤ n.position)
              then n.position + TO2
              else n.position })) ph x.language) := by
    unfold recalculate_direct
    exact uniqueIds_mapPos hU _
  rw [recalculate_eq_direct v tph x.language hU2]
  have hplX : posList (recalculate_direct (db.map (fun n =>
          { n with
            placeholder := if n.id = x.id ∨ n.id ∈ descIds db x.id then tph
              else n.placeholder,
            parent := if n.id = x.id then tpar else n.parent,
            position :=
              if inScope ph x.language n && decide (x.position ≤ n.position)
              then n.position + S2
              else if inScope tph x.language n && decide (T ≤ n.position)
              then n.position + TO2
              else n.position })) ph x.language) tph x.language
      = posList (db.map (fun n =>
          { n with
            placeholder := if n.id = x.id ∨ n.id ∈ descIds db x.id then tph
              else n.placeholder,
            parent := if n.id = x.id then tpar else n.parent,
            position :=
              if inScope ph x.language n && decide (x.position ≤ n.position)
              then n.position + S2
              else if inScope tph x.language n && decide (T ≤ n.position)
              then n.position + TO2
              else n.position })) tph x.language :=
    posList_recalculate_direct_other _ ph x.language tph x.language (Or.inl hne)
  unfold recalculate_direct
  unfold recalculate_direct at hplX
  rw [hplX]
  unfold mapPos
  rw [List.map_map, List.map_map]
  refine List.map_congr_left (fun n hn => ?_)
  simp only [Function.comp_def]
  by_cases hsub : n.id = x.id ∨ n.id ∈ descIds db x.id
  · have hsrc : inScope ph x.language n = true := by
      rcases hsub with hid | hdsc
      · rw [row_eq_of_id hids hn hx hid]
        exact hxs
      · exact ((hcontig n hn).1 hdsc).1
    have hblk : x.position ≤ n.position
        ∧ n.position ≤ x.position + ((descIds db x.id).length : Int) :=
      (hchar n (mem_scope_of_mem hn hsrc)).1 hsub
    have hlang : n.language = x.language := by
      simp only [inScope, Bool.and_eq_true, beq_iff_eq] at hsrc
      exact hsrc.2
    have hcpos : (inScope ph x.language n && decide (x.position ≤ n.position)) = true := by
      rw [hsrc, decide_eq_true hblk.1]
      rfl
    rw [if_pos hsub, if_pos hcpos]
    have hg1f : inScope ph x.language
        (⟨n.id, tph, n.language, if n.id = x.id then tpar else n.parent,
          n.position + S2⟩ : Node) = false := by
      simp [inScope, hne]
    rw [if_neg (show ¬ inScope ph x.language
        (⟨n.id, tph, n.language, if n.id = x.id then tpar else n.parent,
          n.position + S2⟩ : Node) = true from by rw [hg1f]; exact Bool.false_ne_true)]
    have hg2t : inScope tph x.language
        (⟨n.id, tph, n.language, if n.id = x.id then tpar else n.parent,
          n.position + S2⟩ : Node) = true := by
      simp [inScope, hlang]
    rw [if_pos hg2t]
    rw [if_pos hsrc]
    rw [if_neg (show ¬ n.position < x.position from by omega)]
    rw [if_pos hblk.2]
    refine node_ext rfl rfl rfl rfl ?_
    dsimp only
    rw [hrank2 (n.position + S2)]
    omega
  · rw [if_neg hsub]
    by_cases hsrc : inScope ph x.language n = true
    · have htf : inScope tph x.language n = false := inScope_disjoint hne hsrc
      have hqb := dense_mem_bounds hdense1 (pos_mem_posList hn hsrc)
      have hnblk : ¬ (x.position ≤ n.position
          ∧ n.position ≤ x.position + ((descIds db x.id).length : Int)) :=
        fun hb => hsub ((hchar n (mem_scope_of_mem hn hsrc)).2 hb)
      by_cases hlt : n.position < x.position
      · have hc1 : (inScope ph x.language n
            && decide (x.position ≤ n.position)) = false := by
          rw [decide_eq_false (by omega : ¬ x.position ≤ n.position), Bool.and_false]
        have hc2 : (inScope tph x.language n && decide (T ≤ n.position)) = false := by
          rw [htf, Bool.false_and]
        rw [if_neg (show ¬ (inScope ph x.language n
            && decide (x.position ≤ n.position)) = true from by
          rw [hc1]; exact Bool.false_ne_true)]
        rw [if_neg (show ¬ (inScope tph x.language n
            && decide (T ≤ n.position)) = true from by
          rw [hc2]; exact Bool.false_ne_true)]
        simp only [inScope_fields, hsrc, htf, eq_self_iff_true, if_true,
          Bool.false_eq_true, if_false]
        rw [if_pos hlt]
        refine node_ext rfl rfl rfl rfl ?_
        dsimp only
        rw [hrank1 n.position]
        omega
      · have hge : x.position + ((descIds db x.id).length : Int) < n.position := by
          by_contra hcon
          exact hnblk ⟨by omega, by omega⟩
        have hc1 : (inScope ph x.language n
            && decide (x.position ≤ n.position)) = true := by
          rw [hsrc, decide_eq_true (by omega : x.position ≤ n.position)]
          rfl
        rw [if_pos hc1]
        simp only [inScope_fields, hsrc, htf, eq_self_iff_true, if_true,
          Bool.false_eq_true, if_false]
        rw [if_neg (show ¬ n.position < x.position from by omega)]
        rw [if_neg (show ¬ n.position ≤ x.position + ((descIds db x.id).length : Int)
          from by omega)]
        refine node_ext rfl rfl rfl rfl ?_
        dsimp only
        rw [hrank1 (n.position + S2)]
        omega
    · have hsrcf : inScope ph x.language n = false := by
        cases hb : inScope ph x.language n
        · rfl
        · exact absurd hb hsrc
      have hc1 : (inScope ph x.language n
          && decide (x.position ≤ n.position)) = false := by
        rw [hsrcf, Bool.false_and]
      rw [if_neg (show ¬ (inScope ph x.language n
          && decide (x.position ≤ n.position)) = true from by
        rw [hc1]; exact Bool.false_ne_true)]
      by_cases htg : inScope tph x.language n = true
      · have hqb := dense_mem_bounds hdense2 (pos_mem_posList hn htg)
        by_cases hTq : T ≤ n.position
        · have hc2 : (inScope tph x.language n && decide (T ≤ n.position)) = true := by
            rw [htg, decide_eq_true hTq]
            rfl
          rw [if_pos hc2]
          simp only [inScope_fields, hsrcf, htg, eq_self_iff_true, if_true,
            Bool.false_eq_true, if_false]
          rw [if_neg (show ¬ n.position < T from by omega)]
          refine node_ext rfl rfl rfl rfl ?_
          dsimp only
          rw [hrank2 (n.position + TO2)]
          omega
        · have hc2 : (inScope tph x.language n && decide (T ≤ n.position)) = false := by
            rw [decide_eq_false hTq, Bool.and_false]
          rw [if_neg (show ¬ (inScope tph x.language n
              && decide (T ≤ n.position)) = true from by
            rw [hc2]; exact Bool.false_ne_true)]
          simp only [inScope_fields, hsrcf, htg, eq_self_iff_true, if_true,
            Bool.false_eq_true, if_false]
          rw [if_pos (show n.position < T from by omega)]
          refine node_ext rfl rfl rfl rfl ?_
          dsimp only
          rw [hrank2 n.position]
          omega
      · have htgf : inScope tph x.language n = false := by
          cases hb : inScope tph x.language n
          · rfl
          · exact absurd hb htg
        have hc2 : (inScope tph x.language n && decide (T ≤ n.position)) = false := by
          rw [htgf, Bool.false_and]
        rw [if_neg (show ¬ (inScope tph x.language n
            && decide (T ≤ n.position)) = true from by
          rw [hc2]; exact Bool.false_ne_true)]
        simp only [inScope_fields, hsrcf, htgf, Bool.false_eq_true, if_false]

theorem shift_zero (db : List Node) (ph lang : Nat) (start : Int) :
    shift_plugin_positions db ph lang start 0 = db := by
  unfold shift_plugin_positions mapPos
  conv_rhs => rw [← List.map_id db]
  refine List.map_congr_left (fun n hn => ?_)
  dsimp only
  have hv : (if inScope ph lang n && decide (start ≤ n.position)
      then n.position + 0 else n.position) = n.position := by
    split_ifs <;> omega
  rw [hv]
  rfl

theorem cross_dispatch (v : Vendor) (db : List Node) (ph tph : Nat) (x : Node)
    (T : Int) (tpar : Option Nat)
    (hdense2 : Dense db tph x.language)
    (hL : lastPos0 db ph x.language = ((posList db ph x.language).length : Int))
    (hp1 : 1 ≤ x.position)
    (hpd : x.position + ((descIds db x.id).length : Int)
      ≤ ((posList db ph x.language).length : Int))
    (hT1 : 1 ≤ T)
    (hT2 : T ≤ ((posList db tph x.language).length : Int) + 1) :
    ∃ S2 TO2 : Int,
      move_plugin_to_placeholder v db ph x T tph tpar
        = recalculate_plugin_positions v (recalculate_plugin_positions v
            (((shift_plugin_positions (shift_plugin_positions db tph x.language T TO2)
                  ph x.language x.position S2).map
                (fun n => if n.id == x.id
                  then { n with parent := tpar, placeholder := tph } else n)).map
              (fun n => if n.id != x.id
                  && (descIds (((shift_plugin_positions (shift_plugin_positions db tph
                        x.language T TO2) ph x.language x.position S2).map
                      (fun n => if n.id == x.id
                        then { n with parent := tpar, placeholder := tph } else n))) x.id).contains n.id
                then { n with placeholder := tph } else n))
            ph x.language) tph x.language
      ∧ 0 ≤ S2 ∧ 0 ≤ TO2 ∧ T ≤ x.position + S2
      ∧ (x.position + ((descIds db x.id).length : Int) + S2 < T + TO2
          ∨ T = ((posList db tph x.language).length : Int) + 1) := by
  have hd0 : (0 : Int) ≤ ((descIds db x.id).length : Int) := Int.natCast_nonneg _
  cases hmax : maxPos (posList db tph x.language) with
  | none =>
    have hplE : posList db tph x.language = [] := maxPos_eq_none.1 hmax
    have hlen0 : ((posList db tph x.language).length : Int) = 0 := by
      rw [hplE]
      rfl
    have hL0 : (0 : Int) ≤ lastPos0 db ph x.language := by
      rw [hL]
      exact Int.natCast_nonneg _
    refine ⟨lastPos0 db ph x.language, 0, ?_, hL0, le_refl 0, by omega, Or.inr (by omega)⟩
    simp only [move_plugin_to_placeholder]
    rw [hmax]
    rw [shift_zero db tph x.language T]
  | some N2v =>
    have hplNE : posList db tph x.language ≠ [] := by
      intro he
      rw [he] at hmax
      simp [maxPos] at hmax
    have hmax2 := dense_maxPos hdense2 hplNE
    rw [hmax] at hmax2
    have hN2 : N2v = ((posList db tph x.language).length : Int) := Option.some.inj hmax2
    have hlenpos : 0 < (posList db tph x.language).length := List.length_pos.2 hplNE
    refine ⟨if decide (x.position + ((descIds db x.id).length : Int)
              + lastPos0 db ph x.language
            ≤ N2v + 1 + ((descIds db x.id).length : Int))
        then lastPos0 db ph x.language
            + (N2v + 1 + ((descIds db x.id).length : Int)
              - (x.position + ((descIds db x.id).length : Int)
                + lastPos0 db ph x.language)) + 1
        else lastPos0 db ph x.language,
      if decide (T + N2v
          ≤ if decide (x.position + ((descIds db x.id).length : Int)
                + lastPos0 db ph x.language
              ≤ N2v + 1 + ((descIds db x.id).length : Int))
            then x.position + ((descIds db x.id).length : Int) + lastPos0 db ph x.language
                + (N2v + 1 + ((descIds db x.id).length : Int)
                  - (x.position + ((descIds db x.id).length : Int)
                    + lastPos0 db ph x.language)) + 1
            else x.position + ((descIds db x.id).length : Int)
                + lastPos0 db ph x.language)
        then N2v
            + ((if decide (x.position + ((descIds db x.id).length : Int)
                    + lastPos0 db ph x.language
                  ≤ N2v + 1 + ((descIds db x.id).length : Int))
                then x.position + ((descIds db x.id).length : Int)
                    + lastPos0 db ph x.language
                    + (N2v + 1 + ((descIds db x.id).length : Int)
                      - (x.position + ((descIds db x.id).length : Int)
                        + lastPos0 db ph x.language)) + 1
                else x.position + ((descIds db x.id).length : Int)
                    + lastPos0 db ph x.language)
              - (T + N2v)) + 1
        else N2v, ?_, ?_, ?_, ?_, ?_⟩
    · simp only [move_plugin_to_placeholder]
      rw [hmax]
    · simp only [decide_eq_true_eq]
      split_ifs <;> omega
    · simp only [decide_eq_true_eq]
      split_ifs <;> omega
    · simp only [decide_eq_true_eq]
      split_ifs <;> omega
    · left
      simp only [decide_eq_true_eq]
      split_ifs <;> omega

theorem cross_final_spec (v : Vendor) (db : List Node) (ph tph : Nat) (x : Node)
    (T : Int) (tpar : Option Nat)
    (hne : tph ≠ ph) (hids : UniqueIds db)
    (hdense1 : Dense db ph x.language) (hdense2 : Dense db tph x.language)
    (hx : x ∈ db) (hxs : inScope ph x.language x = true)
    (hcontig : ContigAt db ph x.language x)
    (hT1 : 1 ≤ T) (hT2 : T ≤ ((posList db tph x.language).length : Int) + 1) :
    move_plugin_to_placeholder v db ph x T tph tpar
      = db.map (fun n =>
          { n with
            placeholder := if n.id = x.id ∨ n.id ∈ descIds db x.id then tph
              else n.placeholder,
            parent := if n.id = x.id then tpar else n.parent,
            position :=
              if inScope ph x.language n = true
              then (if n.position < x.position then n.position
                    else if n.position ≤ x.position + ((descIds db x.id).length : Int)
                    then T + (n.position - x.position)
                    else n.position - (1 + ((descIds db x.id).length : Int)))
              else if inScope tph x.language n = true
              then (if n.position < T then n.position
                    else n.position + (1 + ((descIds db x.id).length : Int)))
              else n.position })
    ∧ Dense (move_plugin_to_placeholder v db ph x T tph tpar) ph x.language
    ∧ ((posList (move_plugin_to_placeholder v db ph x T tph tpar) ph x.language).length : Int)
        = ((posList db ph x.language).length : Int) - 1 - ((descIds db x.id).length : Int)
    ∧ Dense (move_plugin_to_placeholder v db ph x T tph tpar) tph x.language
    ∧ ((posList (move_plugin_to_placeholder v db ph x T tph tpar) tph x.language).length : Int)
        = ((posList db tph x.language).length : Int) + 1
          + ((descIds db x.id).length : Int) := by
  obtain ⟨hpd, hchar⟩ := subtree_block hids hdense1 hx hxs hcontig
  have hperm1 : (posList db ph x.language).Perm
      (rangeFrom 1 (posList db ph x.language).length) := hdense1
  have hperm2 : (posList db tph x.language).Perm
      (rangeFrom 1 (posList db tph x.language).length) := hdense2
  have hpx := dense_mem_bounds hdense1 (pos_mem_posList hx hxs)
  have hLval := dense_lastPos0 hdense1
  obtain ⟨S2, TO2, heq, hS0, hTO0, hSa, hSb⟩ :=
    cross_dispatch v db ph tph x T tpar hdense2 hLval hpx.1 hpd hT1 hT2
  rw [heq]
  rw [cross_stage_eq_map db ph tph x T S2 TO2 tpar hne]
  have hU : UniqueIds (db.map (fun n =>
          { n with
            placeholder := if n.id = x.id ∨ n.id ∈ descIds db x.id then tph
              else n.placeholder,
            parent := if n.id = x.id then tpar else n.parent,
            position :=
              if inScope ph x.language n && decide (x.position ≤ n.position)
              then n.position + S2
              else if inScope tph x.language n && decide (T ≤ n.position)
              then n.position + TO2
              else n.position })) := uniqueIds_map_of_id db _ (fun n => rfl) hids
  have hU2 : UniqueIds (recalculate_direct (db.map (fun n =>
          { n with
            placeholder := if n.id = x.id ∨ n.id ∈ descIds db x.id then tph
              else n.placeholder,
            parent := if n.id = x.id then tpar else n.parent,
            position :=
              if inScope ph x.language n && decide (x.position ≤ n.position)
              then n.position + S2
              else if inScope tph x.language n && decide (T ≤ n.position)
              then n.position + TO2
              else n.position })) ph x.language) := by
    unfold recalculate_direct
    exact uniqueIds_mapPos hU _
  have hndS := cross_nodup_src db ph tph x T S2 TO2 tpar hne hchar hperm1 hpx.1 hpd hS0
  have hndT := cross_nodup_tgt db ph tph x T S2 TO2 tpar hne hids hx hxs hcontig hchar
    hperm1 hperm2 hpx.1 hpd hT1 hT2 hS0 hTO0 hSa hSb
  refine ⟨cross_core v db ph tph x T S2 TO2 tpar hne hids hdense1 hdense2 hx hxs hcontig
    hT1 hT2 hS0 hTO0 hSa hSb, ?_, ?_, ?_, ?_⟩
  · rw [recalculate_eq_direct v ph x.language hU,
      recalculate_eq_direct v tph x.language hU2]
    have hD1 : Dense (recalculate_direct (db.map (fun n =>
          { n with
            placeholder := if n.id = x.id ∨ n.id ∈ descIds db x.id then tph
              else n.placeholder,
            parent := if n.id = x.id then tpar else n.parent,
            position :=
              if inScope ph x.language n && decide (x.position ≤ n.position)
              then n.position + S2
              else if inScope tph x.language n && decide (T ≤ n.position)
              then n.position + TO2
              else n.position })) ph x.language) ph x.language :=
      dense_recalculate_direct hndS
    unfold Dense at hD1 ⊢
    rw [posList_recalculate_direct_other _ tph x.language ph x.language
      (Or.inl (Ne.symm hne))]
    exact hD1
  · rw [recalculate_eq_direct v ph x.language hU,
      recalculate_eq_direct v tph x.language hU2]
    rw [posList_recalculate_direct_other _ tph x.language ph x.language
      (Or.inl (Ne.symm hne))]
    rw [posList_recalculate_direct, List.length_map]
    exact cross_len_src db ph tph x T S2 TO2 tpar hne hchar hperm1 hpx.1 hpd
  · rw [recalculate_eq_direct v ph x.language hU,
      recalculate_eq_direct v tph x.language hU2]
    refine dense_recalculate_direct ?_
    rw [posList_recalculate_direct_other _ ph x.language tph x.language (Or.inl hne)]
    exact hndT
  · rw [recalculate_eq_direct v ph x.language hU,
      recalculate_eq_direct v tph x.language hU2]
    rw [posList_recalculate_direct, List.length_map]
    rw [posList_recalculate_direct_other _ ph x.language tph x.language (Or.inl hne)]
    exact cross_len_tgt db ph tph x T S2 TO2 tpar hne hids hx hxs hcontig hchar
      hperm1 hpx.1 hpd

/-- C6: cross-placeholder conservation.  For a move of node `x` (with `d`
descendants) from source placeholder `ph` (scope size N1) to a different
target placeholder `tph` (scope size N2) at a valid requested ordinal `T`,
the whole operation equals one row map: the moved subtree lands with
placeholder `tph` as the contiguous block `T .. T + d` of the target in
source order (the root at `T` with its new parent `tpar`, each descendant
keeping its parent link and landing at `T` plus its source offset), source
survivors below the vacated block keep their position and those above close
ranks by `1 + d`, target rows at ordinal `≥ T` slide up by `1 + d`, and every
other column of every row is untouched; consequently the source scope is
dense `1 .. N1 - (1 + d)` and the target scope is dense
`1 .. N2 + (1 + d)`. -/
theorem cross_placeholder_move (v : Vendor) (db : List Node) (ph tph : Nat) (x : Node)
    (T : Int) (tpar : Option Nat)
    (hne : tph ≠ ph) (hids : UniqueIds db)
    (hdense1 : Dense db ph x.language) (hdense2 : Dense db tph x.language)
    (hx : x ∈ db) (hxs : inScope ph x.language x = true)
    (hcontig : ContigAt db ph x.language x)
    (hT1 : 1 ≤ T) (hT2 : T ≤ ((posList db tph x.language).length : Int) + 1) :
    move_plugin_to_placeholder v db ph x T tph tpar
      = db.map (fun n =>
          { n with
            placeholder := if n.id = x.id ∨ n.id ∈ descIds db x.id then tph
              else n.placeholder,
            parent := if n.id = x.id then tpar else n.parent,
            position :=
              if inScope ph x.language n = true
              then (if n.position < x.position then n.position
                    else if n.position ≤ x.position + ((descIds db x.id).length : Int)
                    then T + (n.position - x.position)
                    else n.position - (1 + ((descIds db x.id).length : Int)))
              else if inScope tph x.language n = true
              then (if n.position < T then n.position
                    else n.position + (1 + ((descIds db x.id).length : Int)))
              else n.position })
    ∧ Dense (move_plugin_to_placeholder v db ph x T tph tpar) ph x.language
    ∧ ((posList (move_plugin_to_placeholder v db ph x T tph tpar) ph x.language).length : Int)
        = ((posList db ph x.language).length : Int) - 1 - ((descIds db x.id).length : Int)
    ∧ Dense (move_plugin_to_placeholder v db ph x T tph tpar) tph x.language
    ∧ ((posList (move_plugin_to_placeholder v db ph x T tph tpar) tph x.language).length : Int)
        = ((posList db tph x.language).length : Int) + 1
          + ((descIds db x.id).length : Int) :=
  cross_final_spec v db ph tph x T tpar hne hids hdense1 hdense2 hx hxs hcontig hT1 hT2

/-- C6 witness: moving the two-row subtree rooted at id 1 (source scope
[1, 2, 3]) into the two-row target placeholder at ordinal 2 produces exactly
the predicted table — the subtree occupies target positions 2 and 3 with
parent links kept, the source survivor closes to position 1, the displaced
target row moves to 4 — and the target scope is dense. -/
theorem cross_placeholder_move_witness :
    move_plugin_to_placeholder .other
        [⟨1, 0, 0, none, 1⟩, ⟨2, 0, 0, some 1, 2⟩, ⟨3, 0, 0, none, 3⟩,
      ⟨4, 1, 0, none, 1⟩, ⟨5, 1, 0, none, 2⟩] 0 ⟨1, 0, 0, none, 1⟩ 2 1 none
      = [⟨1, 1, 0, none, 2⟩, ⟨2, 1, 0, some 1, 3⟩, ⟨3, 0, 0, none, 1⟩,
          ⟨4, 1, 0, none, 1⟩, ⟨5, 1, 0, none, 4⟩]
    ∧ Dense (move_plugin_to_placeholder .other
        [⟨1, 0, 0, none, 1⟩, ⟨2, 0, 0, some 1, 2⟩, ⟨3, 0, 0, none, 3⟩,
      ⟨4, 1, 0, none, 1⟩, ⟨5, 1, 0, none, 2⟩] 0 ⟨1, 0, 0, none, 1⟩ 2 1 none) 1 0 := by
  have h := cross_placeholder_move .other
    [⟨1, 0, 0, none, 1⟩, ⟨2, 0, 0, some 1, 2⟩, ⟨3, 0, 0, none, 3⟩,
      ⟨4, 1, 0, none, 1⟩, ⟨5, 1, 0, none, 2⟩] 0 1 ⟨1, 0, 0, none, 1⟩ 2 none
    (by decide) (by decide) (by decide) (by decide) (by decide) (by decide)
    (by decide) (by decide) (by decide)
  exact ⟨h.1.trans (by decide), h.2.2.2.1⟩

/-- C1: density invariant.  Each of the four public mutations, completed on a
table whose relevant scopes satisfy the invariants beforehand and whose
request is valid, leaves the stored positions of every affected
(placeholder, language) scope exactly the set 1..N for the new scope size N:
add keeps the enlarged scope dense, delete keeps the shrunken scope dense,
a within-placeholder move keeps its scope dense, and a cross-placeholder
move leaves both the source and the target scope dense. -/
theorem density_invariant (v : Vendor) (db : List Node) (ph tph : Nat)
    (x inst : Node) (T : Int) (par tpar : Option Nat)
    (hids : UniqueIds db) :
    (Dense db ph inst.language → inst.placeholder = ph → inst.id ∉ db.map Node.id →
      1 ≤ inst.position →
      inst.position ≤ ((posList db ph inst.language).length : Int) + 1 →
      Dense (add_plugin v db ph inst) ph inst.language)
    ∧ (Dense db ph x.language → x ∈ db → inScope ph x.language x = true →
        ContigAt db ph x.language x →
        Dense (delete_plugin v db ph x) ph x.language)
    ∧ (Dense db ph x.language → x ∈ db → inScope ph x.language x = true →
        ContigAt db ph x.language x → 1 ≤ T →
        T + ((descIds db x.id).length : Int)
          ≤ ((posList db ph x.language).length : Int) →
        Dense (move_plugin_within v db ph x T par) ph x.language)
    ∧ (tph ≠ ph → Dense db ph x.language → Dense db tph x.language →
        x ∈ db → inScope ph x.language x = true → ContigAt db ph x.language x →
        1 ≤ T → T ≤ ((posList db tph x.language).length : Int) + 1 →
        Dense (move_plugin_to_placeholder v db ph x T tph tpar) ph x.language
        ∧ Dense (move_plugin_to_placeholder v db ph x T tph tpar) tph x.language) := by
  refine ⟨?_, ?_, ?_, ?_⟩
  · intro h1 h2 h3 h4 h5
    exact dense_add_plugin v db ph inst hids h3 h1 h2 h4 h5
  · intro h1 h2 h3 h4
    exact dense_delete_plugin v db ph x hids h1 h2 h3 h4
  · intro h1 h2 h3 h4 h5 h6
    exact dense_move_within v db ph x T par hids h1 h2 h3 h4 h5 h6
  · intro h0 h1 h2 h3 h4 h5 h6 h7
    have h := cross_final_spec v db ph tph x T tpar h0 hids h1 h2 h3 h4 h5 h6 h7
    exact ⟨h.2.1, h.2.2.2.1⟩

/-- C1 witness: on one concrete five-row table with two placeholders, all
four mutations (add at position 2, delete of the subtree rooted at 1, a
within-placeholder move of that subtree to ordinal 2, and a cross-placeholder
move of it to ordinal 2 of the other placeholder) leave every affected scope
dense. -/
theorem density_invariant_witness :
    Dense (add_plugin .other
      [⟨1, 0, 0, none, 1⟩, ⟨2, 0, 0, some 1, 2⟩, ⟨3, 0, 0, none, 3⟩,
      ⟨4, 1, 0, none, 1⟩, ⟨5, 1, 0, none, 2⟩] 0 ⟨9, 0, 0, none, 2⟩) 0 0
    ∧ Dense (delete_plugin .other
      [⟨1, 0, 0, none, 1⟩, ⟨2, 0, 0, some 1, 2⟩, ⟨3, 0, 0, none, 3⟩,
      ⟨4, 1, 0, none, 1⟩, ⟨5, 1, 0, none, 2⟩] 0 ⟨1, 0, 0, none, 1⟩) 0 0
    ∧ Dense (move_plugin_within .other
      [⟨1, 0, 0, none, 1⟩, ⟨2, 0, 0, some 1, 2⟩, ⟨3, 0, 0, none, 3⟩,
      ⟨4, 1, 0, none, 1⟩, ⟨5, 1, 0, none, 2⟩] 0 ⟨1, 0, 0, none, 1⟩ 2 none) 0 0
    ∧ Dense (move_plugin_to_placeholder .other
      [⟨1, 0, 0, none, 1⟩, ⟨2, 0, 0, some 1, 2⟩, ⟨3, 0, 0, none, 3⟩,
      ⟨4, 1, 0, none, 1⟩, ⟨5, 1, 0, none, 2⟩] 0 ⟨1, 0, 0, none, 1⟩ 2 1 none) 1 0 := by
  have h := density_invariant .other
    [⟨1, 0, 0, none, 1⟩, ⟨2, 0, 0, some 1, 2⟩, ⟨3, 0, 0, none, 3⟩,
      ⟨4, 1, 0, none, 1⟩, ⟨5, 1, 0, none, 2⟩] 0 1 ⟨1, 0, 0, none, 1⟩ ⟨9, 0, 0, none, 2⟩ 2 none none (by decide)
  exact ⟨h.1 (by decide) (by decide) (by decide) (by decide) (by decide),
    h.2.1 (by decide) (by decide) (by decide) (by decide),
    h.2.2.1 (by decide) (by decide) (by decide) (by decide) (by decide) (by decide),
    (h.2.2.2 (by decide) (by decide) (by decide) (by decide) (by decide) (by decide)
      (by decide) (by decide)).2⟩

end CmsPlaceholder
